import Mathlib

/-!
# Distance-vector routing simulation (`DistanceVector.cpp`)

A shallow embedding of the program and proofs about it.

* `std::map<string, T>` is an association list kept in key order (`Map`).
* The global registry `nodes` (a `map<string, Node*>`) is a `Map Node`; a
  `Node*` is the key under which the node is registered, so an operation that
  takes pointers takes the registry and keys, and returns the new registry.
* `int` values are integers (`Int`). The one sum of the program, at line 196 of
  `updateTable`, is a parameter `plus` of the model: `int32Add` is the sum of
  two 32-bit `int`s as the compiled program computes it (reduced to 32 bits in
  two's complement), `exactAdd` is the exact sum, for the statements that take
  arithmetic as exact.
* An operation whose C++ behaviour is undefined (a null or uninitialised
  pointer is dereferenced) returns `none`.
-/

namespace DistanceVector

/-- The constant `INT_MAX` of `<climits>` for a 32-bit `int`; the program uses
it for "infinite". -/
abbrev INT_MAX : Int := 2147483647

/-- The constant `INT_MIN` of `<climits>` for a 32-bit `int`. -/
abbrev INT_MIN : Int := -2147483648

/-- The sum of two `int`s as the compiled program computes it: the exact sum
reduced to 32 bits in two's complement, so a sum above `INT_MAX` wraps around to
a negative value. It is the exact sum whenever that lies between `INT_MIN` and
`INT_MAX`. -/
def int32Add (a b : Int) : Int := (a + b + 2147483648) % 4294967296 - 2147483648

/-- The exact sum of two integers, for the statements that take arithmetic as
exact. -/
def exactAdd (a b : Int) : Int := a + b

/-- Order of `std::string` keys: lexicographic on the characters. -/
def keyLt (a b : String) : Bool := decide (a.data < b.data)

/-- A `std::map<string, α>`: its entries in iteration order. -/
abbrev Map (α : Type) := List (String × α)

namespace Map

variable {α : Type}

/-- Lookup of a key (`m.find(k)`), `none` when the key is missing. -/
def find : Map α → String → Option α
  | [], _ => none
  | p :: rest, k => if p.1 = k then some p.2 else find rest k

/-- Is the key present (`m.count(k) != 0`). -/
def hasKey (m : Map α) (k : String) : Bool := (find m k).isSome

/-- The keys in iteration order. -/
def keys (m : Map α) : List String := m.map Prod.fst

/-- Overwrites the value stored under a present key; the keys do not move. -/
def replace : Map α → String → α → Map α
  | [], _, _ => []
  | p :: rest, k, v => if p.1 = k then (p.1, v) :: rest else p :: replace rest k v

/-- Puts a new key at its place in key order. -/
def place : Map α → String → α → Map α
  | [], k, v => [(k, v)]
  | p :: rest, k, v => if keyLt k p.1 then (k, v) :: p :: rest else p :: place rest k v

/-- The assignment `m[k] = v`: overwrite when the key is present, insert
otherwise. -/
def assign (m : Map α) (k : String) (v : α) : Map α :=
  if hasKey m k then replace m k v else place m k v

/-- The call `m.insert(make_pair(k, v))`: nothing happens when the key is
present. -/
def insert (m : Map α) (k : String) (v : α) : Map α :=
  if hasKey m k then m else place m k v

/-- The call `m.erase(k)`. -/
def erase : Map α → String → Map α
  | [], _ => []
  | p :: rest, k => if p.1 = k then erase rest k else p :: erase rest k

/-- The effect on the map of reading `m[k]`: a missing key is inserted with the
value-initialised element `d`. -/
def touch (m : Map α) (k : String) (d : α) : Map α :=
  if hasKey m k then m else place m k d

/-- The value read by `m[k]`, where `d` is the value-initialised element. -/
def get (m : Map α) (k : String) (d : α) : α := (find m k).getD d

end Map

/-- A row of a distance table: via-candidate to cost. -/
abbrev Row := Map Int

/-- A distance table: destination to row. -/
abbrev Table := Map Row

/-- The cell `t[y][v]` when both keys are present. -/
def cell (t : Table) (y v : String) : Option Int :=
  (Map.find t y).bind (fun row => Map.find row v)

/-- The assignment `t[y][v] = c`. -/
def setCell (t : Table) (y v : String) (c : Int) : Table :=
  Map.assign t y (Map.assign (Map.get t y []) v c)

/-- The effect on the table of reading `t[y][v]`. -/
def touchCell (t : Table) (y v : String) : Table :=
  Map.assign t y (Map.touch (Map.get t y []) v 0)

/-- The statement `for(auto &row : t) row.second[v] = c;`. -/
def setColumn (t : Table) (v : String) (c : Int) : Table :=
  t.map (fun row => (row.1, Map.assign row.2 v c))

/-- The `struct Node`. -/
structure Node where
  name : String
  converged : Bool
  links : Map Int
  table : Table
  table_prev : Table
deriving DecidableEq, Repr

/-- The constructor `Node(string _name)`. -/
def Node.new (name : String) : Node :=
  { name := name, converged := false, links := [], table := [], table_prev := [] }

/-- The global `nodes`. -/
abbrev Nodes := Map Node

/-- What `createLink` does to `*source`; of `*dest` it reads the name only. -/
def createLinkOn (source : Node) (destName : String) (distance : Int) : Node :=
  if Map.hasKey source.links destName then
    if distance = -1 then
      { source with
        links := Map.erase source.links destName
        table := setColumn source.table destName distance }
    else
      { source with
        links := Map.assign source.links destName distance
        table := setCell source.table destName destName distance }
  else if distance ≠ -1 then
    { source with
      links := Map.insert source.links destName distance
      table := setCell (setColumn source.table destName INT_MAX) destName destName distance }
  else source

/-- The function `createLink(source, dest, distance)`, the pointers given as
registry keys. -/
def createLink (nodes : Nodes) (source dest : String) (distance : Int) : Option Nodes :=
  match Map.find nodes source, Map.find nodes dest with
  | some src, some dst => some (Map.replace nodes source (createLinkOn src dst.name distance))
  | _, _ => none

/-- The function `extractLink` on an already parsed line `source dest distance`.
The search loop sets `source_ptr` when a key equals `source`, and `dest_ptr`
when a key differs from `source` and equals `dest`; a pointer left unset is
used uninitialised. -/
def extractLink (nodes : Nodes) (source dest : String) (distance : Int) : Option Nodes :=
  if Map.hasKey nodes source ∧ Map.hasKey nodes dest ∧ source ≠ dest then
    (createLink nodes source dest distance).bind
      (fun nodes1 => createLink nodes1 dest source distance)
  else none

/-- The function `getMin`: the first entry, in iteration order, with the least
cost among the entries below `INT_MAX` and different from `-1`. -/
def getMin (row : Row) : String × Int :=
  row.foldl (fun acc entry => if entry.2 < acc.2 ∧ entry.2 ≠ -1 then (entry.1, entry.2) else acc)
    ("", INT_MAX)

/-- The first loop of `initTable`: an empty row for every registered key but
the node's name. -/
def initRows (nodes : Nodes) (node : Node) : Table :=
  nodes.foldl (fun t n => if n.1 ≠ node.name then Map.insert t n.1 [] else t) []

/-- The body of the second loop of `initTable` on the row `row` of destination
`dest`: `-1` under every registered key but the node's name, then under every
link the link cost on the row of the neighbour and `INT_MAX` elsewhere. -/
def initRow (nodes : Nodes) (node : Node) (dest : String) (row : Row) : Row :=
  node.links.foldl
    (fun r link => Map.assign r link.1 (if dest = link.1 then link.2 else INT_MAX))
    (nodes.foldl (fun r n => if n.1 ≠ node.name then Map.insert r n.1 (-1) else r) row)

/-- The function `initTable(node)`. -/
def initTable (nodes : Nodes) (node : String) : Option Nodes :=
  match Map.find nodes node with
  | none => none
  | some nd =>
    some (Map.replace nodes node
      { nd with table := (initRows nodes nd).map (fun it => (it.1, initRow nodes nd it.1 it.2)) })

/-- The body of the inner loop of `updateTable(x)` at the entry `v` of row `y`.
Reading `nodes[v]` with `v` unregistered gives a null pointer; reading
`table_prev[y]` and `table[v][v]` inserts what is missing. The sum
`node->table[v][v] + min.second` of line 196 is `plus`: `int32Add` for the
program, `exactAdd` when arithmetic is taken as exact. -/
def updateEntry (plus : Int → Int → Int) (nodes : Nodes) (x y v : String) : Option Nodes :=
  match Map.find nodes x with
  | none => none
  | some node =>
    match cell node.table y v with
    | none => some nodes
    | some e =>
      if y ≠ v ∧ e ≠ -1 then
        match Map.find nodes v with
        | none => none
        | some nv =>
          let prev := Map.touch nv.table_prev y []
          let nodes1 := Map.replace nodes v { nv with table_prev := prev }
          let min := getMin (Map.get prev y [])
          match Map.find nodes1 x with
          | none => none
          | some node1 =>
            if min.1 = "" then
              some (Map.replace nodes1 x
                { node1 with table := setCell node1.table y v INT_MAX, converged := false })
            else
              let table1 := touchCell node1.table v v
              let d := plus ((cell table1 v v).getD 0) min.2
              if d ≠ e then
                some (Map.replace nodes1 x
                  { node1 with table := setCell table1 y v d, converged := false })
              else
                some (Map.replace nodes1 x { node1 with table := table1 })
      else some nodes

/-- The entries of a table in the order in which the two nested loops visit
them. -/
def visits (t : Table) : List (String × String) :=
  (t.map (fun row => row.2.map (fun entry => (row.1, entry.1)))).flatten

/-- Runs the loop body over a list of entries. -/
def visitAll (plus : Int → Int → Int) (x : String) :
    List (String × String) → Nodes → Option Nodes
  | [], nodes => some nodes
  | p :: rest, nodes => (updateEntry plus nodes x p.1 p.2).bind (visitAll plus x rest)

/-- The function `updateTable(x)`. The loops visit the entries present when
they start: what a read inserts meanwhile is a cell `table[v][v]`, alone in its
row when the row is new, and the loop body skips such a cell. -/
def updateTable (plus : Int → Int → Int) (nodes : Nodes) (x : String) : Option Nodes :=
  match Map.find nodes x with
  | none => none
  | some node =>
    visitAll plus x (visits node.table) (Map.replace nodes x { node with converged := true })

/-- A line of `printRoutes`. -/
inductive Route where
  | unreachable (router dest : String)
  | through (router dest : String) (cost : Int) (via : String)
deriving DecidableEq, Repr

/-- The function `printRoutes`, as the list of the lines it prints. -/
def printRoutes (nodes : Nodes) : List Route :=
  (nodes.map (fun node => node.2.table.map (fun row =>
    let tmp := getMin row.2
    if tmp.2 = INT_MAX then Route.unreachable node.1 row.1
    else Route.through node.1 row.1 tmp.2 tmp.1))).flatten

/-- The function `isConverged`. -/
def isConverged (nodes : Nodes) : Bool := nodes.all (fun node => node.2.converged)

/-- Applies a per-node function to every registered node in key order
(`for(auto &node : nodes) f(node.second);`). -/
def forNodes (f : Nodes → String → Option Nodes) : List String → Nodes → Option Nodes
  | [], nodes => some nodes
  | k :: rest, nodes => (f nodes k).bind (forNodes f rest)

/-- The assignment `node->table_prev = node->table`. -/
def backup (node : Node) : Node := { node with table_prev := node.table }

/-- The statement `for(auto &node : nodes) node.second->table_prev = node.second->table;`. -/
def snapshot (nodes : Nodes) : Nodes :=
  nodes.map (fun node => (node.1, backup node.2))

/-- One pass of the body of the `while` loop of `distanceVector`. -/
def round (plus : Int → Int → Int) (nodes : Nodes) : Option Nodes :=
  forNodes (updateTable plus) (Map.keys nodes) (snapshot nodes)

/-- The body of the `while` loop repeated `k` times, whatever `isConverged` says. -/
def rounds (plus : Int → Int → Int) : Nat → Nodes → Option Nodes
  | 0, nodes => some nodes
  | k + 1, nodes => (round plus nodes).bind (rounds plus k)

/-- The `while(!isConverged())` loop, cut after `fuel` passes. -/
def roundLoop (plus : Int → Int → Int) : Nat → Nodes → Option Nodes
  | 0, nodes => if isConverged nodes then some nodes else none
  | fuel + 1, nodes =>
    if isConverged nodes then some nodes else (round plus nodes).bind (roundLoop plus fuel)

/-- The statement `for(auto &node : nodes) initTable(node.second);`. -/
def initTables (nodes : Nodes) : Option Nodes :=
  forNodes initTable (Map.keys nodes) nodes

/-- The function `distanceVector(update)`, up to the call of `printRoutes`; the
result is the registry at that call. -/
def distanceVector (plus : Int → Int → Int) (fuel : Nat) (update : Bool) (nodes : Nodes) :
    Option Nodes :=
  (if !update then initTables nodes
   else forNodes (updateTable plus) (Map.keys nodes) nodes).bind (roundLoop plus fuel)

/-- The first loop of `main`: one node per name read. -/
def readNodes (names : List String) : Nodes :=
  names.foldl (fun nodes name => Map.insert nodes name (Node.new name)) []

/-- The second and third loops of `main`: `extractLink` on every line. -/
def readLinks : List (String × String × Int) → Nodes → Option Nodes
  | [], nodes => some nodes
  | e :: rest, nodes => (extractLink nodes e.1 e.2.1 e.2.2).bind (readLinks rest)


/-! ## Vocabulary of the statements -/

/-- The cost `a.links[b]` of the link that node `a` records towards `b`,
`none` when `a` records none. -/
def linkCost (nodes : Nodes) (a b : String) : Option Int :=
  (Map.find nodes a).bind (fun n => Map.find n.links b)

/-- Every node is registered under its own name, as `main` registers them. -/
def NamesOK (nodes : Nodes) : Prop :=
  ∀ k n, Map.find nodes k = some n → n.name = k

/-- Link symmetry: `a.links[b]` and `b.links[a]` agree for all pairs. -/
def LinksSymmetric (nodes : Nodes) : Prop :=
  ∀ a b, linkCost nodes a b = linkCost nodes b a

/-- A walk along links from one node to another, with the sum of the costs of
its links. -/
inductive Walk (nodes : Nodes) : String → String → Int → Prop where
  | here (x : String) : Walk nodes x x 0
  | step {x v y : String} {c d : Int} :
      linkCost nodes x v = some c → Walk nodes v y d → Walk nodes x y (c + d)

/-- Node `y` can be reached from node `x` in the link graph. -/
def Reachable (nodes : Nodes) (x y : String) : Prop := ∃ d, Walk nodes x y d

/-- The integer `d` is the shortest-path cost from `x` to `y` in the weighted
link graph: some walk costs `d` and none costs less. -/
def IsShortest (nodes : Nodes) (x y : String) (d : Int) : Prop :=
  Walk nodes x y d ∧ ∀ d', Walk nodes x y d' → d ≤ d'

/-- The cost of the best route of `x` for `y`: the cost `getMin` returns on the
row `x.table[y]`, as `printRoutes` reads it. -/
def bestCost (nodes : Nodes) (x y : String) : Option Int :=
  (Map.find nodes x).bind (fun n => (Map.find n.table y).map (fun row => (getMin row).2))

/-- The table `t` of node `x` has full shape over the declared names and its
columns follow the links: a row for every other node, in every row one cell for
every other node, the cells under a neighbour positive with the link cost on
the row of the neighbour, the cells under any other node `-1`. -/
structure TableInv (names : List String) (x : String) (links : Map Int) (t : Table) : Prop where
  rows : ∀ y, Map.hasKey t y = true ↔ (y ∈ names ∧ y ≠ x)
  cols : ∀ y row, Map.find t y = some row →
    (Map.keys row).Nodup ∧ ∀ v, Map.hasKey row v = true ↔ (v ∈ names ∧ v ≠ x)
  nb : ∀ v c, Map.find links v = some c →
    cell t v v = some c ∧ ∀ y e, cell t y v = some e → 0 < e
  non_nb : ∀ v, Map.find links v = none → ∀ y e, cell t y v = some e → e = -1

/-- The registry holds the declared nodes, each under its own name, none named
by the empty string, and the links join distinct declared nodes, in both
directions, with a positive cost. -/
structure Topo (names : List String) (nodes : Nodes) : Prop where
  keys_nodup : (Map.keys nodes).Nodup
  declared : ∀ k, Map.hasKey nodes k = true ↔ k ∈ names
  no_empty : "" ∉ names
  name_eq : ∀ k n, Map.find nodes k = some n → n.name = k
  links_nodup : ∀ k n, Map.find nodes k = some n → (Map.keys n.links).Nodup
  links : ∀ x v c, linkCost nodes x v = some c →
    v ∈ names ∧ v ≠ x ∧ 0 < c ∧ linkCost nodes v x = some c

/-- Every table of the registry satisfies `TableInv`. -/
def TablesOK (names : List String) (nodes : Nodes) : Prop :=
  ∀ x n, Map.find nodes x = some n → TableInv names x n.links n.table

/-- Every snapshot `table_prev` of the registry satisfies `TableInv`. -/
def PrevsOK (names : List String) (nodes : Nodes) : Prop :=
  ∀ x n, Map.find nodes x = some n → TableInv names x n.links n.table_prev

/-- The invariant of the round loop: `Topo`, `TablesOK` and `PrevsOK`. -/
def Good (names : List String) (nodes : Nodes) : Prop :=
  Topo names nodes ∧ TablesOK names nodes ∧ PrevsOK names nodes

/-- What every operation of `distanceVector` keeps of a registry: the registered
keys and, node by node, the name and the links. -/
def SameTopo (s s' : Nodes) : Prop :=
  Map.keys s' = Map.keys s ∧
  ∀ k, (Map.find s' k).map (fun n => (n.name, n.links))
    = (Map.find s k).map (fun n => (n.name, n.links))

/-- What `updateTable` keeps of a registry: the registered keys and, node by
node, the name, the links and the snapshot. -/
def SamePrev (s s' : Nodes) : Prop :=
  Map.keys s' = Map.keys s ∧
  ∀ k, (Map.find s' k).map (fun n => (n.name, n.links, n.table_prev))
    = (Map.find s k).map (fun n => (n.name, n.links, n.table_prev))

/-- The row `nodes[v]->table_prev[y]`. -/
def prevRow (nodes : Nodes) (v y : String) : Option Row :=
  (Map.find nodes v).bind (fun nv => Map.find nv.table_prev y)

/-- The row `nodes[v]->table[y]`. -/
def tableRow (nodes : Nodes) (v y : String) : Option Row :=
  (Map.find nodes v).bind (fun nv => Map.find nv.table y)

/-- Every cell that `updateTable` considers in table `t` (off the diagonal, not
`-1`) holds the cost it would be given: the neighbour has a viable minimum in
the row `rows v y`, and the cell is the sum `plus` of `t[v][v]` and that
minimum. -/
def Settled (plus : Int → Int → Int) (rows : String → String → Option Row) (t : Table) :
    Prop :=
  ∀ y v e, cell t y v = some e → y ≠ v → e ≠ -1 →
    ∃ row c, rows v y = some row ∧ (getMin row).1 ≠ "" ∧
      cell t v v = some c ∧ e = plus c (getMin row).2

/-- The registry is at rest, in exact arithmetic: the invariant holds, every
snapshot equals its table, and every considered cell of every table holds the
cost `updateTable` computes for it from the tables of the neighbours. -/
def Stable (names : List String) (nodes : Nodes) : Prop :=
  Topo names nodes ∧ TablesOK names nodes ∧
  ∀ x n, Map.find nodes x = some n →
    n.table_prev = n.table ∧ Settled exactAdd (tableRow nodes) n.table


/-! ## Sample inputs -/

/-- The registry after the node lines `A`, `B` and the link line `A B c` (`c`
not `-1`), before `distanceVector` is called. -/
def linkedAB (c : Int) : Nodes :=
  [("A", { name := "A", converged := false, links := [("B", c)],
           table := [("B", [("B", c)])], table_prev := [] }),
   ("B", { name := "B", converged := false, links := [("A", c)],
           table := [("A", [("A", c)])], table_prev := [] })]

/-- The input with nodes `A`, `B`, `C` and the link lines `A B 1`, `B C 1`, after
the first two loops of `main`. -/
def chain3 : Option Nodes :=
  readLinks [("A", "B", 1), ("B", "C", 1)] (readNodes ["A", "B", "C"])

/-- The registry of `chain3` when `distanceVector(false)` has returned. -/
def chain3Converged : Option Nodes := chain3.bind (distanceVector int32Add 5 false)

/-- The input with nodes `A`, `B`, `C` and the link lines `A B 1`, `B C 1`,
`A C 5`, after the first two loops of `main`. -/
def triangle : Nodes :=
  (readLinks [("A", "B", 1), ("B", "C", 1), ("A", "C", 5)] (readNodes ["A", "B", "C"])).getD []

/-- The registry of `chain3Converged` after the update line `B C -1`. -/
def chain3Cut : Option Nodes := chain3Converged.bind (readLinks [("B", "C", -1)])

/-- The input with nodes `A`, `B`, `C`, `D` and the link lines `A B 1`, `B C 1`:
node `D` has no link. -/
def isolated4 : Option Nodes :=
  readLinks [("A", "B", 1), ("B", "C", 1)] (readNodes ["A", "B", "C", "D"])

/-- The registry of `isolated4` after `initTable` on every node and three passes
of the round loop. -/
def isolated4Stuck : Nodes :=
  ((isolated4.bind initTables).bind (rounds int32Add 3)).getD []

/-- The registry of `triangle` when `distanceVector(false)` has returned, after
the update line `B C -1`: the nodes are still connected, through the link
`A C 5`. -/
def triangleCut : Option Nodes :=
  (distanceVector int32Add 5 false triangle).bind (readLinks [("B", "C", -1)])


/-! ## Vocabulary of the statements on `updateTable`, `getMin` and `initTable` -/

/-- The table `t` of node `x` has full shape over the declared names: one row for
every declared node other than `x`, and in every row one cell for every declared
node other than `x`. -/
structure FullShape (names : List String) (x : String) (t : Table) : Prop where
  nodup : (Map.keys t).Nodup
  rows : ∀ y, Map.hasKey t y = true ↔ (y ∈ names ∧ y ≠ x)
  cols : ∀ y row, Map.find t y = some row →
    (Map.keys row).Nodup ∧ ∀ v, Map.hasKey row v = true ↔ (v ∈ names ∧ v ≠ x)

/-- The registry holds the declared nodes, none named by the empty string, and
every table and every snapshot has full shape. -/
structure Shaped (names : List String) (nodes : Nodes) : Prop where
  no_empty : "" ∉ names
  declared : ∀ k, Map.hasKey nodes k = true ↔ k ∈ names
  table : ∀ x n, Map.find nodes x = some n → FullShape names x n.table
  prev : ∀ x n, Map.find nodes x = some n → FullShape names x n.table_prev

/-- Every entry of the row is a value of type `int`: at most `INT_MAX`. -/
def RowInRange (row : Row) : Prop := ∀ p ∈ row, p.2 ≤ INT_MAX

/-- Every entry of every snapshot is a value of type `int`: at most `INT_MAX`. -/
def PrevInRange (nodes : Nodes) : Prop :=
  ∀ x n y row, Map.find nodes x = some n → Map.find n.table_prev y = some row → RowInRange row

/-- In the words of the specification: `m` is the minimum entry of the row that
is neither `-1` nor infinite. -/
def IsViableMin (row : Row) (m : Int) : Prop :=
  (∃ p ∈ row, p.2 = m ∧ m ≠ -1 ∧ m ≠ INT_MAX) ∧
  ∀ p ∈ row, p.2 ≠ -1 → p.2 ≠ INT_MAX → m ≤ p.2

/-- In the words of the specification: the row has no entry that is neither `-1`
nor infinite. -/
def NoViable (row : Row) : Prop := ∀ p ∈ row, p.2 = -1 ∨ p.2 = INT_MAX

/-- Every entry of every snapshot is `-1` or positive. -/
def PrevsPositive (nodes : Nodes) : Prop :=
  ∀ x n y row p, Map.find nodes x = some n → Map.find n.table_prev y = some row →
    p ∈ row → p.2 = -1 ∨ 0 < p.2

/-- The states of the program over the declared `names`: the registry after the
first two loops of `main` and `initTable` on every node, and from there every
state after a link event between two distinct declared nodes with a positive
cost or `-1`, a snapshot of all tables, or `updateTable` on a node, with
arithmetic taken as exact. -/
inductive Reached (names : List String) : Nodes → Prop where
  | init {events : List (String × String × Int)} {s0 s : Nodes} :
      "" ∉ names → (∀ e ∈ events, 0 < e.2.2 ∨ e.2.2 = -1) →
      readLinks events (readNodes names) = some s0 → initTables s0 = some s →
      Reached names s
  | event {s s1 : Nodes} {source dest : String} {c : Int} :
      Reached names s → (0 < c ∨ c = -1) → extractLink s source dest c = some s1 →
      Reached names s1
  | snapshot {s : Nodes} : Reached names s → Reached names (snapshot s)
  | relax {s s1 : Nodes} {x : String} :
      Reached names s → updateTable exactAdd s x = some s1 → Reached names s1

/-! ## More sample inputs -/

/-- The registry of the nodes `A`, `B`, `C` with no link line after `initTable`
on every node. -/
def fresh3 : Nodes := (initTables (readNodes ["A", "B", "C"])).getD []


/-! ## The relaxation in closed form -/

/-- The value `updateTable` leaves in the cell on row `y` under `v` that held `e`:
a cell on the diagonal or holding `-1` keeps `e`; any other cell gets `INT_MAX`
when `getMin` finds no via in the row `rows v y`, and else the sum `plus` of the
direct cell `t[v][v]` and the minimum of that row. -/
def relaxValue (plus : Int → Int → Int) (rows : String → String → Option Row) (t : Table)
    (y v : String) (e : Int) : Int :=
  if y ≠ v ∧ e ≠ -1 then
    if (getMin ((rows v y).getD [])).1 = "" then INT_MAX
    else plus ((cell t v v).getD 0) (getMin ((rows v y).getD [])).2
  else e

/-- Node `n1` is node `n` after `updateTable`, read from the snapshot rows `rows`:
name, links and snapshot are those of `n`, the table has the rows and columns of
`n.table` with every cell relaxed by `relaxValue`, and the flag is set exactly
when every considered cell of `n.table` was settled. -/
structure Relaxed (plus : Int → Int → Int) (rows : String → String → Option Row)
    (n n1 : Node) : Prop where
  name : n1.name = n.name
  links : n1.links = n.links
  table_prev : n1.table_prev = n.table_prev
  keys : Map.keys n1.table = Map.keys n.table
  row_keys : ∀ y, (Map.find n1.table y).map Map.keys = (Map.find n.table y).map Map.keys
  cells : ∀ y v, cell n1.table y v = (cell n.table y v).map (relaxValue plus rows n.table y v)
  flag : n1.converged = true ↔ Settled plus rows n.table

/-- Every table of the registry has each row key once. -/
def TablesNodup (nodes : Nodes) : Prop :=
  ∀ x n, Map.find nodes x = some n → (Map.keys n.table).Nodup

/-! ## A sample state of the round loop -/

/-- The registry of `chain3` after `initTable` on every node and the snapshot that
opens the first pass of the round loop. -/
def chain3Start : Nodes := snapshot ((chain3.bind initTables).getD [])

/-- The registry of `chain3` after `initTable` on every node and the link event
`A C 5`. -/
def chain3Linked : Nodes :=
  ((chain3.bind initTables).bind (fun s => extractLink s "A" "C" 5)).getD []

/-- The registry of `chain3Linked` after a snapshot of all tables and
`updateTable` on node `A`. -/
def chain3Relaxed : Nodes := (updateTable exactAdd (snapshot chain3Linked) "A").getD []

/-- The input with nodes `A`, `B`, `C` and the link lines `A B 1500000000`,
`B C 1500000000`, after `initTable` on every node and the snapshot that opens
the first pass of the round loop. -/
def big3Start : Nodes :=
  snapshot (((readLinks [("A", "B", 1500000000), ("B", "C", 1500000000)]
    (readNodes ["A", "B", "C"])).bind initTables).getD [])

/-- The input with nodes `A`, `B`, `C` and the link lines `A B 2147483647`,
`B C 2147483647`, after the first two loops of `main`. -/
def heavy3 : Option Nodes :=
  readLinks [("A", "B", INT_MAX), ("B", "C", INT_MAX)] (readNodes ["A", "B", "C"])

/-- The registry of `heavy3` after `initTable` on every node and one pass of the
round loop. -/
def heavy3Stuck : Nodes := ((heavy3.bind initTables).bind (rounds exactAdd 1)).getD []


/-! ## Facts about `Map` -/

namespace Map

variable {α : Type}

theorem hasKey_iff_find (m : Map α) (k : String) :
    hasKey m k = true ↔ ∃ v, find m k = some v := by
  unfold hasKey
  cases find m k <;> simp

theorem hasKey_false_iff (m : Map α) (k : String) :
    hasKey m k = false ↔ find m k = none := by
  unfold hasKey
  cases find m k <;> simp

theorem find_mem {m : Map α} {k : String} {v : α} (h : find m k = some v) : (k, v) ∈ m := by
  induction m with
  | nil => simp [find] at h
  | cons p rest ih =>
    simp only [find] at h
    split at h
    · rename_i hk
      cases h
      simp [← hk]
    · exact List.mem_cons_of_mem _ (ih h)

theorem mem_keys_iff (m : Map α) (k : String) : k ∈ keys m ↔ hasKey m k = true := by
  induction m with
  | nil => simp [keys, hasKey, find]
  | cons p rest ih =>
    simp only [keys, List.map_cons, List.mem_cons, hasKey, find] at ih ⊢
    by_cases hk : p.1 = k
    · simp [hk]
    · simp only [hk, if_false]
      rw [← ih]
      constructor
      · rintro (h | h)
        · exact absurd h.symm hk
        · exact h
      · exact Or.inr

theorem find_of_mem_nodup {m : Map α} (hm : (keys m).Nodup) {k : String} {v : α}
    (h : (k, v) ∈ m) : find m k = some v := by
  induction m with
  | nil => simp at h
  | cons p rest ih =>
    simp only [keys, List.map_cons, List.nodup_cons] at hm
    simp only [find]
    rcases List.mem_cons.mp h with h | h
    · simp [← h]
    · have hne : p.1 ≠ k := by
        intro hpk
        apply hm.1
        rw [hpk]
        exact List.mem_map_of_mem Prod.fst h
      simp only [hne, if_false]
      exact ih hm.2 h

theorem find_replace_self (m : Map α) (k : String) (v : α) :
    find (replace m k v) k = (find m k).map (fun _ => v) := by
  induction m with
  | nil => simp [replace, find]
  | cons p rest ih =>
    simp only [replace, find]
    by_cases hk : p.1 = k <;> simp [hk, find, ih]

theorem find_replace_ne (m : Map α) {k k' : String} (v : α) (h : k' ≠ k) :
    find (replace m k v) k' = find m k' := by
  induction m with
  | nil => simp [replace, find]
  | cons p rest ih =>
    obtain ⟨pk, pv⟩ := p
    simp only [replace, find]
    by_cases hk : pk = k
    · subst hk
      simp [find, Ne.symm h]
    · by_cases hk' : pk = k'
      · subst hk'
        simp [hk, find]
      · simp [hk, hk', find, ih]

theorem keys_replace (m : Map α) (k : String) (v : α) : keys (replace m k v) = keys m := by
  induction m with
  | nil => simp [replace, keys]
  | cons p rest ih =>
    simp only [replace]
    by_cases hk : p.1 = k
    · simp [hk, keys]
    · simp only [hk, if_false, keys, List.map_cons] at ih ⊢
      rw [ih]

theorem replace_of_find {m : Map α} {k : String} {v : α} (h : find m k = some v) :
    replace m k v = m := by
  induction m with
  | nil => simp [replace]
  | cons p rest ih =>
    simp only [replace]
    simp only [find] at h
    by_cases hk : p.1 = k
    · simp only [hk, if_true] at h ⊢
      cases h
      rw [← hk]
    · simp only [hk, if_false] at h ⊢
      rw [ih h]

theorem replace_replace (m : Map α) (k : String) (v w : α) :
    replace (replace m k v) k w = replace m k w := by
  induction m with
  | nil => simp [replace]
  | cons p rest ih =>
    by_cases hk : p.1 = k <;> simp [replace, hk, ih]

theorem replace_comm (m : Map α) {k k' : String} (v w : α) (h : k ≠ k') :
    replace (replace m k v) k' w = replace (replace m k' w) k v := by
  induction m with
  | nil => simp [replace]
  | cons p rest ih =>
    obtain ⟨pk, pv⟩ := p
    by_cases hk : pk = k
    · subst hk
      simp [replace, h]
    · by_cases hk' : pk = k'
      · subst hk'
        simp [replace, hk]
      · simp [replace, hk, hk', ih]

theorem find_place_ne (m : Map α) {k k' : String} (v : α) (h : k' ≠ k) :
    find (place m k v) k' = find m k' := by
  induction m with
  | nil => simp [place, find, Ne.symm h]
  | cons p rest ih =>
    simp only [place]
    by_cases hlt : keyLt k p.1 = true
    · simp [hlt, find, Ne.symm h]
    · simp only [hlt, find]
      by_cases hk' : p.1 = k' <;> simp [hk', ih]

theorem find_place_self (m : Map α) (k : String) (v : α) (h : find m k = none) :
    find (place m k v) k = some v := by
  induction m with
  | nil => simp [place, find]
  | cons p rest ih =>
    simp only [find] at h
    by_cases hk : p.1 = k
    · simp [hk] at h
    · simp only [hk, if_false] at h
      simp only [place]
      by_cases hlt : keyLt k p.1 = true
      · simp [hlt, find]
      · simp [hlt, find, hk, ih h]

theorem keys_place_perm (m : Map α) (k : String) (v : α) :
    (keys (place m k v)).Perm (k :: keys m) := by
  induction m with
  | nil => simp [place, keys]
  | cons p rest ih =>
    simp only [place]
    by_cases hlt : keyLt k p.1 = true
    · simp [hlt, keys]
    · simp only [hlt, keys, List.map_cons] at ih ⊢
      exact (List.Perm.cons _ ih).trans (List.Perm.swap _ _ _)

theorem replace_place (m : Map α) (k : String) (v w : α) (hn : find m k = none) :
    replace (place m k v) k w = place m k w := by
  induction m with
  | nil => simp [place, replace]
  | cons p rest ih =>
    simp only [find] at hn
    by_cases hk : p.1 = k
    · simp [hk] at hn
    · simp only [hk, if_false] at hn
      simp only [place]
      by_cases hlt : keyLt k p.1 = true
      · simp [hlt, replace]
      · simp [hlt, replace, hk, ih hn]

theorem find_assign_self (m : Map α) (k : String) (v : α) :
    find (assign m k v) k = some v := by
  unfold assign
  by_cases h : hasKey m k = true
  · obtain ⟨w, hw⟩ := (hasKey_iff_find m k).mp h
    simp [h, find_replace_self, hw]
  · simp only [h]
    exact find_place_self m k v ((hasKey_false_iff m k).mp (by simpa using h))

theorem find_assign_ne (m : Map α) {k k' : String} (v : α) (h : k' ≠ k) :
    find (assign m k v) k' = find m k' := by
  unfold assign
  by_cases hk : hasKey m k = true
  · simp [hk, find_replace_ne m v h]
  · simp [hk, find_place_ne m v h]

theorem assign_of_hasKey {m : Map α} {k : String} (h : hasKey m k = true) (v : α) :
    assign m k v = replace m k v := by
  simp [assign, h]

theorem assign_of_find {m : Map α} {k : String} {v : α} (h : find m k = some v) :
    assign m k v = m := by
  rw [assign_of_hasKey ((hasKey_iff_find m k).mpr ⟨v, h⟩), replace_of_find h]

theorem assign_assign (m : Map α) (k : String) (v w : α) :
    assign (assign m k v) k w = assign m k w := by
  have h1 : hasKey (assign m k v) k = true :=
    (hasKey_iff_find _ _).mpr ⟨v, find_assign_self m k v⟩
  rw [assign_of_hasKey h1]
  unfold assign
  by_cases h : hasKey m k = true
  · simp [h, replace_replace]
  · simp only [h]
    exact replace_place m k v w ((hasKey_false_iff m k).mp (by simpa using h))

theorem find_insert_self (m : Map α) (k : String) (v : α) :
    find (insert m k v) k = some ((find m k).getD v) := by
  unfold insert
  by_cases h : hasKey m k = true
  · obtain ⟨w, hw⟩ := (hasKey_iff_find m k).mp h
    simp [h, hw]
  · have hn := (hasKey_false_iff m k).mp (by simpa using h)
    simp [h, find_place_self m k v hn, hn]

theorem find_insert_ne (m : Map α) {k k' : String} (v : α) (h : k' ≠ k) :
    find (insert m k v) k' = find m k' := by
  unfold insert
  by_cases hk : hasKey m k = true
  · simp [hk]
  · simp [hk, find_place_ne m v h]

theorem find_erase_self (m : Map α) (k : String) : find (erase m k) k = none := by
  induction m with
  | nil => simp [erase, find]
  | cons p rest ih =>
    by_cases hk : p.1 = k <;> simp [erase, hk, find, ih]

theorem find_erase_ne (m : Map α) {k k' : String} (h : k' ≠ k) :
    find (erase m k) k' = find m k' := by
  induction m with
  | nil => simp [erase, find]
  | cons p rest ih =>
    obtain ⟨pk, pv⟩ := p
    by_cases hk : pk = k
    · subst hk
      simp [erase, find, Ne.symm h, ih]
    · by_cases hk' : pk = k'
      · subst hk'
        simp [erase, hk, find]
      · simp [erase, hk, find, hk', ih]

theorem erase_of_find_none {m : Map α} {k : String} (h : find m k = none) : erase m k = m := by
  induction m with
  | nil => simp [erase]
  | cons p rest ih =>
    simp only [find] at h
    by_cases hk : p.1 = k
    · simp [hk] at h
    · simp only [hk, if_false] at h
      simp [erase, hk, ih h]

theorem find_touch (m : Map α) (k k' : String) (d : α) (h : k' ≠ k) :
    find (touch m k d) k' = find m k' := by
  unfold touch
  by_cases hk : hasKey m k = true
  · simp [hk]
  · simp [hk, find_place_ne m d h]

theorem touch_of_hasKey {m : Map α} {k : String} (h : hasKey m k = true) (d : α) :
    touch m k d = m := by
  simp [touch, h]

end Map


/-! ## Facts about tables -/

theorem find_get_nil (t : Table) (y v : String) :
    Map.find (Map.get t y []) v = cell t y v := by
  unfold Map.get cell
  cases Map.find t y <;> simp [Map.find]

theorem cell_setCell (t : Table) (y v y' v' : String) (c : Int) :
    cell (setCell t y v c) y' v' = if y' = y ∧ v' = v then some c else cell t y' v' := by
  unfold setCell
  by_cases hy : y' = y
  · subst hy
    by_cases hv : v' = v
    · subst hv
      simp [cell, Map.find_assign_self]
    · simp [cell, Map.find_assign_self, Map.find_assign_ne _ _ hv, hv, find_get_nil]
  · simp [cell, Map.find_assign_ne _ _ hy, hy]

theorem find_setCell_ne (t : Table) {y y' : String} (v : String) (c : Int) (h : y' ≠ y) :
    Map.find (setCell t y v c) y' = Map.find t y' :=
  Map.find_assign_ne _ _ h

theorem setCell_idem (t : Table) (y v : String) (c : Int) :
    setCell (setCell t y v c) y v c = setCell t y v c := by
  unfold setCell
  have h : Map.get (Map.assign t y (Map.assign (Map.get t y []) v c)) y []
      = Map.assign (Map.get t y []) v c := by
    simp [Map.get, Map.find_assign_self]
  rw [h, Map.assign_assign, Map.assign_assign]

theorem setCell_of_cell {t : Table} {y v : String} {c : Int} (h : cell t y v = some c) :
    setCell t y v c = t := by
  unfold cell at h
  unfold setCell Map.get
  cases hr : Map.find t y with
  | none => simp [hr] at h
  | some row =>
    simp only [hr, Option.bind_some] at h
    simp only [Option.getD_some]
    rw [Map.assign_of_find h, Map.assign_of_find hr]

theorem find_setColumn (t : Table) (v y : String) (c : Int) :
    Map.find (setColumn t v c) y = (Map.find t y).map (fun row => Map.assign row v c) := by
  induction t with
  | nil => simp [setColumn, Map.find]
  | cons p rest ih =>
    simp only [setColumn, List.map_cons, Map.find] at ih ⊢
    by_cases hk : p.1 = y <;> simp [hk, ih]

theorem keys_setColumn (t : Table) (v : String) (c : Int) :
    Map.keys (setColumn t v c) = Map.keys t := by
  simp [setColumn, Map.keys, List.map_map, Function.comp_def]

theorem cell_setColumn_self (t : Table) (v y : String) (c : Int) :
    cell (setColumn t v c) y v = (Map.find t y).map (fun _ => c) := by
  unfold cell
  rw [find_setColumn]
  cases Map.find t y <;> simp [Map.find_assign_self]

theorem cell_setColumn_ne (t : Table) {v v' : String} (y : String) (c : Int) (h : v' ≠ v) :
    cell (setColumn t v c) y v' = cell t y v' := by
  unfold cell
  rw [find_setColumn]
  cases Map.find t y <;> simp [Map.find_assign_ne _ _ h]

/-! ## Facts about `createLink` -/

theorem createLinkOn_name (src : Node) (d : String) (c : Int) :
    (createLinkOn src d c).name = src.name := by
  unfold createLinkOn
  split_ifs <;> rfl

theorem createLinkOn_converged (src : Node) (d : String) (c : Int) :
    (createLinkOn src d c).converged = src.converged := by
  unfold createLinkOn
  split_ifs <;> rfl

theorem createLinkOn_table_prev (src : Node) (d : String) (c : Int) :
    (createLinkOn src d c).table_prev = src.table_prev := by
  unfold createLinkOn
  split_ifs <;> rfl

theorem createLinkOn_links_self (src : Node) (d : String) (c : Int) :
    Map.find (createLinkOn src d c).links d = if c = -1 then none else some c := by
  unfold createLinkOn
  by_cases hk : Map.hasKey src.links d = true
  · by_cases hc : c = -1
    · simp [hk, hc, Map.find_erase_self]
    · simp [hk, hc, Map.find_assign_self]
  · have hn : Map.find src.links d = none := (Map.hasKey_false_iff _ _).mp (by simpa using hk)
    by_cases hc : c = -1
    · simp [hk, hc, hn]
    · simp [hk, hc, Map.find_insert_self, hn]

theorem createLinkOn_links_ne (src : Node) {d k : String} (c : Int) (h : k ≠ d) :
    Map.find (createLinkOn src d c).links k = Map.find src.links k := by
  unfold createLinkOn
  split_ifs
  · exact Map.find_erase_ne _ h
  · exact Map.find_assign_ne _ _ h
  · exact Map.find_insert_ne _ _ h
  · rfl

theorem createLinkOn_cell_self (src : Node) (d : String) {c : Int} (hc : c ≠ -1) :
    cell (createLinkOn src d c).table d d = some c := by
  unfold createLinkOn
  split_ifs <;> simp [cell_setCell]

theorem createLinkOn_remove_absent {n : Node} {d : String} (h : Map.find n.links d = none) :
    createLinkOn n d (-1) = n := by
  have hk : Map.hasKey n.links d = false := (Map.hasKey_false_iff _ _).mpr h
  simp [createLinkOn, hk]

theorem createLinkOn_same {n : Node} {d : String} {c : Int} (hc : c ≠ -1)
    (hl : Map.find n.links d = some c) (ht : cell n.table d d = some c) :
    createLinkOn n d c = n := by
  have hk : Map.hasKey n.links d = true := (Map.hasKey_iff_find _ _).mpr ⟨c, hl⟩
  simp [createLinkOn, hk, hc, Map.assign_of_find hl, setCell_of_cell ht]

theorem createLinkOn_idem (src : Node) (d : String) (c : Int) :
    createLinkOn (createLinkOn src d c) d c = createLinkOn src d c := by
  have hl := createLinkOn_links_self src d c
  by_cases hc : c = -1
  · subst hc
    exact createLinkOn_remove_absent (by simpa using hl)
  · exact createLinkOn_same hc (by simpa [hc] using hl) (createLinkOn_cell_self src d hc)

theorem createLink_some {nodes : Nodes} {source dest : String} {src dst : Node}
    (hs : Map.find nodes source = some src) (hd : Map.find nodes dest = some dst) (c : Int) :
    createLink nodes source dest c
      = some (Map.replace nodes source (createLinkOn src dst.name c)) := by
  simp [createLink, hs, hd]


/-! ## Link events -/

theorem extractLink_some {nodes : Nodes} {S D : String} {src dst : Node}
    (hs : Map.find nodes S = some src) (hd : Map.find nodes D = some dst) (hne : S ≠ D)
    (c : Int) :
    extractLink nodes S D c
      = some (Map.replace (Map.replace nodes S (createLinkOn src dst.name c)) D
          (createLinkOn dst src.name c)) := by
  have hS : Map.hasKey nodes S = true := (Map.hasKey_iff_find _ _).mpr ⟨_, hs⟩
  have hD : Map.hasKey nodes D = true := (Map.hasKey_iff_find _ _).mpr ⟨_, hd⟩
  have h1 : Map.find (Map.replace nodes S (createLinkOn src dst.name c)) D = some dst := by
    rw [Map.find_replace_ne _ _ (Ne.symm hne), hd]
  have h2 : Map.find (Map.replace nodes S (createLinkOn src dst.name c)) S
      = some (createLinkOn src dst.name c) := by
    rw [Map.find_replace_self, hs]; rfl
  rw [extractLink, if_pos ⟨hS, hD, hne⟩, createLink_some hs hd]
  simp only [Option.some_bind]
  rw [createLink_some h1 h2, createLinkOn_name]

theorem extractLink_inv {nodes nodes' : Nodes} {S D : String} {c : Int}
    (h : extractLink nodes S D c = some nodes') :
    S ≠ D ∧ ∃ src dst, Map.find nodes S = some src ∧ Map.find nodes D = some dst ∧
      nodes' = Map.replace (Map.replace nodes S (createLinkOn src dst.name c)) D
          (createLinkOn dst src.name c) := by
  unfold extractLink at h
  split_ifs at h with hc
  obtain ⟨hS, hD, hne⟩ := hc
  obtain ⟨src, hs⟩ := (Map.hasKey_iff_find _ _).mp hS
  obtain ⟨dst, hd⟩ := (Map.hasKey_iff_find _ _).mp hD
  refine ⟨hne, src, dst, hs, hd, ?_⟩
  have := extractLink_some hs hd hne c
  rw [extractLink, if_pos ⟨hS, hD, hne⟩] at this
  rw [this] at h
  exact (Option.some.inj h).symm

theorem find_after_extract {nodes : Nodes} {S D : String} {src dst : Node}
    (hs : Map.find nodes S = some src) (hd : Map.find nodes D = some dst) (hne : S ≠ D)
    (n1 n2 : Node) (k : String) :
    Map.find (Map.replace (Map.replace nodes S n1) D n2) k
      = if k = D then some n2 else if k = S then some n1 else Map.find nodes k := by
  by_cases hkD : k = D
  · subst hkD
    rw [Map.find_replace_self, Map.find_replace_ne _ _ (Ne.symm hne), hd]
    simp
  · rw [Map.find_replace_ne _ _ hkD]
    by_cases hkS : k = S
    · subst hkS
      rw [Map.find_replace_self, hs]
      simp [hkD]
    · rw [Map.find_replace_ne _ _ hkS]
      simp [hkD, hkS]

theorem linkCost_after_extract {nodes nodes' : Nodes} {S D : String} {c : Int}
    (hn : NamesOK nodes) (h : extractLink nodes S D c = some nodes') (a b : String) :
    linkCost nodes' a b
      = if (a = S ∧ b = D) ∨ (a = D ∧ b = S) then (if c = -1 then none else some c)
        else linkCost nodes a b := by
  obtain ⟨hne, src, dst, hs, hd, rfl⟩ := extractLink_inv h
  have hsn := hn _ _ hs
  have hdn := hn _ _ hd
  unfold linkCost
  rw [find_after_extract hs hd hne, hsn, hdn]
  by_cases haD : a = D
  · subst haD
    by_cases hbS : b = S
    · subst hbS
      simp [createLinkOn_links_self]
    · simp [hbS, createLinkOn_links_ne _ _ hbS, hd, Ne.symm hne]
  · by_cases haS : a = S
    · subst haS
      by_cases hbD : b = D
      · subst hbD
        simp [createLinkOn_links_self, hne]
      · simp [hbD, createLinkOn_links_ne _ _ hbD, hs, haD]
    · simp [haD, haS]

/-- C6: link symmetry is an invariant of link events. In a registry whose
nodes are filed under their own names and in which `a.links[b]` and
`b.links[a]` agree for all pairs, `extractLink` on an event `(S, D, c)` between
two distinct registered nodes succeeds and yields a registry in which they
still agree for all pairs; `S.links[D]` and `D.links[S]` are both `c` when `c`
is not `-1` and are both absent when it is. -/
theorem extractLink_keeps_links_symmetric (nodes : Nodes) (S D : String) (c : Int)
    (hn : NamesOK nodes) (hsym : LinksSymmetric nodes)
    (hS : Map.hasKey nodes S = true) (hD : Map.hasKey nodes D = true) (hne : S ≠ D) :
    ∃ nodes', extractLink nodes S D c = some nodes' ∧ LinksSymmetric nodes' ∧
      linkCost nodes' S D = (if c = -1 then none else some c) ∧
      linkCost nodes' D S = (if c = -1 then none else some c) := by
  obtain ⟨src, hs⟩ := (Map.hasKey_iff_find _ _).mp hS
  obtain ⟨dst, hd⟩ := (Map.hasKey_iff_find _ _).mp hD
  have h := extractLink_some hs hd hne c
  refine ⟨_, h, ?_, ?_, ?_⟩
  · intro a b
    rw [linkCost_after_extract hn h, linkCost_after_extract hn h, hsym a b]
    by_cases h1 : (a = S ∧ b = D) ∨ (a = D ∧ b = S)
    · have h2 : (b = S ∧ a = D) ∨ (b = D ∧ a = S) := by tauto
      simp only [h1, h2, if_true]
    · have h2 : ¬ ((b = S ∧ a = D) ∨ (b = D ∧ a = S)) := by tauto
      simp only [h1, h2, if_false]
  · rw [linkCost_after_extract hn h]; simp
  · rw [linkCost_after_extract hn h]; simp

theorem extractLink_twice {nodes nodes1 : Nodes} {S D : String} {c : Int}
    (h : extractLink nodes S D c = some nodes1) :
    extractLink nodes1 S D c = some nodes1 := by
  obtain ⟨hne, src, dst, hs, hd, rfl⟩ := extractLink_inv h
  have h1 := find_after_extract hs hd hne (createLinkOn src dst.name c)
    (createLinkOn dst src.name c)
  have hS := h1 S
  have hD := h1 D
  simp only [hne, if_true, if_false] at hS hD
  rw [extractLink_some hS hD hne c]
  simp only [createLinkOn_name, createLinkOn_idem]
  rw [Map.replace_of_find hS, Map.replace_of_find hD]

/-- C7: applying a link event is idempotent. For every registry and every event
`(S, D, c)` between two distinct registered nodes, `extractLink` succeeds, and
applying the same event again to the registry it returns succeeds and returns
that registry unchanged: links, tables and every other field of every node. -/
theorem extractLink_idempotent (nodes : Nodes) (S D : String) (c : Int)
    (hS : Map.hasKey nodes S = true) (hD : Map.hasKey nodes D = true) (hne : S ≠ D) :
    ∃ nodes1, extractLink nodes S D c = some nodes1 ∧
      extractLink nodes1 S D c = some nodes1 := by
  obtain ⟨src, hs⟩ := (Map.hasKey_iff_find _ _).mp hS
  obtain ⟨dst, hd⟩ := (Map.hasKey_iff_find _ _).mp hD
  exact ⟨_, extractLink_some hs hd hne c, extractLink_twice (extractLink_some hs hd hne c)⟩


/-- C8, as amended: removing an existing link. When `source` has a link to
`dest`, `createLink(source, dest, -1)` removes `dest` from `source.links` and
sets the cell under `dest` of every row of `source.table`, the cell
`source.table[dest][dest]` among them, to `-1`, the unset value; the other
cells and the other links stay as they were. -/
theorem createLink_remove_existing (nodes : Nodes) (source dest : String) (src dst : Node)
    (hs : Map.find nodes source = some src) (hd : Map.find nodes dest = some dst)
    (hlink : Map.hasKey src.links dst.name = true) :
    ∃ nodes' src', createLink nodes source dest (-1) = some nodes' ∧
      Map.find nodes' source = some src' ∧
      Map.find src'.links dst.name = none ∧
      (∀ y, Map.hasKey src.table y = true → cell src'.table y dst.name = some (-1)) ∧
      (∀ y v, v ≠ dst.name → cell src'.table y v = cell src.table y v) ∧
      (∀ k, k ≠ dst.name → Map.find src'.links k = Map.find src.links k) := by
  refine ⟨_, createLinkOn src dst.name (-1), createLink_some hs hd (-1), ?_, ?_, ?_, ?_, ?_⟩
  · rw [Map.find_replace_self, hs]; rfl
  · rw [createLinkOn_links_self]; simp
  · intro y hy
    obtain ⟨row, hrow⟩ := (Map.hasKey_iff_find _ _).mp hy
    simp [createLinkOn, hlink, cell_setColumn_self, hrow]
  · intro y v hv
    simp [createLinkOn, hlink, cell_setColumn_ne _ _ _ hv]
  · intro k hk
    exact createLinkOn_links_ne _ _ hk

/-- An instance of `createLink_remove_existing`: node `A` with its link to `B`. -/
theorem createLink_remove_existing_witness :
    ∃ nodes' src', createLink (linkedAB 1) "A" "B" (-1) = some nodes' ∧
      Map.find nodes' "A" = some src' ∧
      Map.find src'.links "B" = none ∧
      (∀ y, Map.hasKey [("B", [("B", (1 : Int))])] y = true → cell src'.table y "B" = some (-1)) ∧
      (∀ y v, v ≠ "B" → cell src'.table y v = cell [("B", [("B", (1 : Int))])] y v) ∧
      (∀ k, k ≠ "B" → Map.find src'.links k = Map.find [("B", (1 : Int))] k) :=
  createLink_remove_existing (linkedAB 1) "A" "B"
    { name := "A", converged := false, links := [("B", 1)],
      table := [("B", [("B", 1)])], table_prev := [] }
    { name := "B", converged := false, links := [("A", 1)],
      table := [("A", [("A", 1)])], table_prev := [] }
    (by decide) (by decide) (by decide)

/-- C8, the claim as stated fails: in the registry of the converged chain
`A - B - C`, node `B` has a link to `C`, and after `createLink(B, C, -1)` the
link is gone and the cell `B.table[C][C]` holds `-1`, not `INT_MAX`. -/
theorem createLink_remove_cell_is_unset :
    (chain3Converged.bind (fun nodes => Map.find nodes "B")).map
        (fun src => Map.hasKey src.links "C") = some true ∧
    ((chain3Converged.bind (fun nodes => createLink nodes "B" "C" (-1))).bind
        (fun nodes' => Map.find nodes' "B")).map
        (fun src' => (Map.find src'.links "C", cell src'.table "C" "C"))
      = some (none, some (-1)) ∧
    (-1 : Int) ≠ INT_MAX := by
  decide

/-- C9: removing a link that is not present is a no-op and not an error. When
`source` has no link to `dest`, `createLink(source, dest, -1)` returns and the
registry it leaves is the registry it was given: the links and the table of
`source` and every other node are unchanged. -/
theorem createLink_remove_absent (nodes : Nodes) (source dest : String) (src dst : Node)
    (hs : Map.find nodes source = some src) (hd : Map.find nodes dest = some dst)
    (hno : Map.find src.links dst.name = none) :
    createLink nodes source dest (-1) = some nodes := by
  rw [createLink_some hs hd, createLinkOn_remove_absent hno, Map.replace_of_find hs]

/-- An instance of `createLink_remove_absent`: two fresh nodes. -/
theorem createLink_remove_absent_witness :
    createLink (readNodes ["A", "B"]) "A" "B" (-1) = some (readNodes ["A", "B"]) :=
  createLink_remove_absent (readNodes ["A", "B"]) "A" "B" (Node.new "A") (Node.new "B")
    (by decide) (by decide) (by decide)

/-- C10: updating an existing link. When `source` has a link to `dest` and `c`
is not `-1`, after `createLink(source, dest, c)` both `source.links[dest]` and
`source.table[dest][dest]` are `c`; every other link of `source`, every other
cell and every other row of `source.table`, `source.table_prev`, the name and
the flag of `source`, the set of registered nodes and every other node are
unchanged. -/
theorem createLink_update_existing (nodes : Nodes) (source dest : String) (src dst : Node)
    (c : Int) (hs : Map.find nodes source = some src) (hd : Map.find nodes dest = some dst)
    (hlink : Map.hasKey src.links dst.name = true) (hc : c ≠ -1) :
    ∃ nodes' src', createLink nodes source dest c = some nodes' ∧
      Map.find nodes' source = some src' ∧
      Map.find src'.links dst.name = some c ∧
      cell src'.table dst.name dst.name = some c ∧
      (∀ k, k ≠ dst.name → Map.find src'.links k = Map.find src.links k) ∧
      (∀ y v, ¬ (y = dst.name ∧ v = dst.name) → cell src'.table y v = cell src.table y v) ∧
      (∀ y, y ≠ dst.name → Map.find src'.table y = Map.find src.table y) ∧
      src'.table_prev = src.table_prev ∧ src'.name = src.name ∧
      src'.converged = src.converged ∧
      Map.keys nodes' = Map.keys nodes ∧
      (∀ k, k ≠ source → Map.find nodes' k = Map.find nodes k) := by
  refine ⟨_, createLinkOn src dst.name c, createLink_some hs hd c, ?_, ?_, ?_, ?_, ?_, ?_, ?_, ?_, ?_, ?_, ?_⟩
  · rw [Map.find_replace_self, hs]; rfl
  · rw [createLinkOn_links_self]; simp [hc]
  · exact createLinkOn_cell_self _ _ hc
  · intro k hk
    exact createLinkOn_links_ne _ _ hk
  · intro y v hyv
    simp [createLinkOn, hlink, hc, cell_setCell, hyv]
  · intro y hy
    simp [createLinkOn, hlink, hc, find_setCell_ne _ _ _ hy]
  · exact createLinkOn_table_prev _ _ _
  · exact createLinkOn_name _ _ _
  · exact createLinkOn_converged _ _ _
  · exact Map.keys_replace _ _ _
  · intro k hk
    exact Map.find_replace_ne _ _ hk


/-! ## The registry built by `main` -/

theorem find_foldl_insert_new (names : List String) (acc : Nodes) (k : String) :
    Map.find (names.foldl (fun nodes name => Map.insert nodes name (Node.new name)) acc) k
      = match Map.find acc k with
        | some n => some n
        | none => if k ∈ names then some (Node.new k) else none := by
  induction names generalizing acc with
  | nil => cases h : Map.find acc k <;> simp [h]
  | cons a rest ih =>
    rw [List.foldl_cons, ih]
    by_cases hk : k = a
    · subst hk
      rw [Map.find_insert_self]
      cases Map.find acc k <;> simp
    · rw [Map.find_insert_ne _ _ hk]
      cases Map.find acc k <;> simp [hk]

theorem find_readNodes (names : List String) (k : String) :
    Map.find (readNodes names) k = if k ∈ names then some (Node.new k) else none := by
  unfold readNodes
  rw [find_foldl_insert_new]
  simp [Map.find]

theorem namesOK_readNodes (names : List String) : NamesOK (readNodes names) := by
  intro k n h
  rw [find_readNodes] at h
  split_ifs at h
  cases h
  rfl

theorem linksSymmetric_readNodes (names : List String) : LinksSymmetric (readNodes names) := by
  intro a b
  unfold linkCost
  rw [find_readNodes, find_readNodes]
  by_cases ha : a ∈ names <;> by_cases hb : b ∈ names <;> simp [ha, hb, Node.new, Map.find]

/-- An instance of `extractLink_keeps_links_symmetric`: the line `A B 4` read
into the registry of the fresh nodes `A`, `B`. -/
theorem extractLink_keeps_links_symmetric_witness :
    ∃ nodes', extractLink (readNodes ["A", "B"]) "A" "B" 4 = some nodes' ∧
      LinksSymmetric nodes' ∧
      linkCost nodes' "A" "B" = (if (4 : Int) = -1 then none else some 4) ∧
      linkCost nodes' "B" "A" = (if (4 : Int) = -1 then none else some 4) :=
  extractLink_keeps_links_symmetric (readNodes ["A", "B"]) "A" "B" 4
    (namesOK_readNodes _) (linksSymmetric_readNodes _) (by decide) (by decide) (by decide)

/-- An instance of `extractLink_idempotent`: the line `A B 4` read twice into the
registry of the fresh nodes `A`, `B`. -/
theorem extractLink_idempotent_witness :
    ∃ nodes1, extractLink (readNodes ["A", "B"]) "A" "B" 4 = some nodes1 ∧
      extractLink nodes1 "A" "B" 4 = some nodes1 :=
  extractLink_idempotent (readNodes ["A", "B"]) "A" "B" 4 (by decide) (by decide) (by decide)

/-- An instance of `createLink_update_existing`: node `A` with a link to `B` of
cost 1, updated to cost 7. -/
theorem createLink_update_existing_witness :
    ∃ nodes' src', createLink (linkedAB 1) "A" "B" 7 = some nodes' ∧
      Map.find nodes' "A" = some src' ∧
      Map.find src'.links "B" = some 7 ∧
      cell src'.table "B" "B" = some 7 ∧
      (∀ k, k ≠ "B" → Map.find src'.links k = Map.find [("B", (1 : Int))] k) ∧
      (∀ y v, ¬ (y = "B" ∧ v = "B") →
        cell src'.table y v = cell [("B", [("B", (1 : Int))])] y v) ∧
      (∀ y, y ≠ "B" → Map.find src'.table y = Map.find [("B", [("B", (1 : Int))])] y) ∧
      src'.table_prev = [] ∧ src'.name = "A" ∧ src'.converged = false ∧
      Map.keys nodes' = Map.keys (linkedAB 1) ∧
      (∀ k, k ≠ "A" → Map.find nodes' k = Map.find (linkedAB 1) k) :=
  createLink_update_existing (linkedAB 1) "A" "B"
    { name := "A", converged := false, links := [("B", 1)],
      table := [("B", [("B", 1)])], table_prev := [] }
    { name := "B", converged := false, links := [("A", 1)],
      table := [("A", [("A", 1)])], table_prev := [] } 7
    (by decide) (by decide) (by decide) (by decide)


/-! ## The round loop -/

theorem rounds_succ (plus : Int → Int → Int) (k : Nat) (nodes : Nodes) :
    rounds plus (k + 1) nodes = (rounds plus k nodes).bind (round plus) := by
  induction k generalizing nodes with
  | zero => cases h : round plus nodes <;> simp [rounds, h]
  | succ k ih =>
    rw [rounds]
    cases h : round plus nodes with
    | none => simp [rounds, h]
    | some s =>
      simp only [Option.some_bind]
      rw [ih s]
      conv_rhs => rw [rounds, h]
      simp

theorem rounds_add (plus : Int → Int → Int) (j k : Nat) (nodes : Nodes) :
    rounds plus (j + k) nodes = (rounds plus j nodes).bind (rounds plus k) := by
  induction j generalizing nodes with
  | zero => simp [rounds]
  | succ j ih =>
    rw [Nat.add_right_comm, rounds, rounds]
    cases round plus nodes with
    | none => simp
    | some s => simpa using ih s

theorem rounds_of_fixed {plus : Int → Int → Int} {nodes : Nodes} (h : round plus nodes = some nodes) (k : Nat) :
    rounds plus k nodes = some nodes := by
  induction k with
  | zero => rfl
  | succ k ih => simp [rounds, h, ih]

theorem roundLoop_none_of_never_converged {plus : Int → Int → Int} (fuel : Nat) (nodes : Nodes)
    (h : ∀ k, (rounds plus k nodes).map isConverged = some false) :
    roundLoop plus fuel nodes = none := by
  induction fuel generalizing nodes with
  | zero =>
    have h0 := h 0
    simp only [rounds, Option.map_some', Option.some.injEq] at h0
    simp [roundLoop, h0]
  | succ f ih =>
    have h0 := h 0
    simp only [rounds, Option.map_some', Option.some.injEq] at h0
    simp only [roundLoop, h0, Bool.false_eq_true, if_false]
    cases hr : round plus nodes with
    | none => rfl
    | some s =>
      simp only [Option.some_bind]
      apply ih
      intro k
      have := h (k + 1)
      simpa [rounds, hr] using this

theorem roundLoop_some {plus : Int → Int → Int} {fuel : Nat} {nodes final : Nodes}
    (h : roundLoop plus fuel nodes = some final) :
    isConverged final = true ∧ ∃ k, rounds plus k nodes = some final := by
  induction fuel generalizing nodes with
  | zero =>
    simp only [roundLoop] at h
    split_ifs at h with hc
    cases h
    exact ⟨hc, 0, rfl⟩
  | succ f ih =>
    simp only [roundLoop] at h
    split_ifs at h with hc
    · cases h
      exact ⟨hc, 0, rfl⟩
    · cases hr : round plus nodes with
      | none => simp [hr] at h
      | some s =>
        simp only [hr, Option.some_bind] at h
        obtain ⟨h1, k, hk⟩ := ih h
        exact ⟨h1, k + 1, by simp [rounds, hr, hk]⟩

/-- C3: the chain `A - B - C` with both links of cost 1. The initial run
(`distanceVector(false)`) returns, and `printRoutes` then prints: `A` to `B` is 1
through `B`, `A` to `C` is 2 through `B`, `B` to `A` is 1 through `A`, `B` to `C`
is 1 through `C`, `C` to `A` is 2 through `B`, `C` to `B` is 1 through `B`. -/
theorem chain3_routes :
    chain3Converged.map printRoutes
      = some [Route.through "A" "B" 1 "B", Route.through "A" "C" 2 "B",
              Route.through "B" "A" 1 "A", Route.through "B" "C" 1 "C",
              Route.through "C" "A" 2 "B", Route.through "C" "B" 1 "B"] := by
  decide

/-- C5, on the claim's own instance and on a triangle: after the update line
`B C -1` on the converged chain `A - B - C`, `distanceVector(true)` returns
without one pass of the round loop, and `printRoutes` still prints a route from
`A` to `C` (cost 2 through `B`) and one from `B` to `C` (cost 3 through `A`);
only the routes of `C` are unreachable. After the same update line on the
converged triangle with the links `A B 1`, `B C 1`, `A C 5`, which stays
connected, it still prints the route from `A` to `C` as cost 2 through `B`,
over the removed link, and the route from `B` to `C` as cost 3 through `A`. -/
theorem chain3_cut_routes :
    (chain3Cut.bind (distanceVector int32Add 0 true)).map printRoutes
      = some [Route.through "A" "B" 1 "B", Route.through "A" "C" 2 "B",
              Route.through "B" "A" 1 "A", Route.through "B" "C" 3 "A",
              Route.unreachable "C" "A", Route.unreachable "C" "B"] ∧
    (triangleCut.bind (distanceVector int32Add 0 true)).map printRoutes
      = some [Route.through "A" "B" 1 "B", Route.through "A" "C" 2 "B",
              Route.through "B" "A" 1 "A", Route.through "B" "C" 3 "A",
              Route.through "C" "A" 5 "A", Route.through "C" "B" 6 "A"] := by
  decide

theorem isolated4_stuck_eq : (isolated4.bind initTables).bind (rounds int32Add 3) = some isolated4Stuck := by
  decide

theorem isolated4_stuck_fixed : round int32Add isolated4Stuck = some isolated4Stuck := by
  decide

/-- C4, on the input with nodes `A`, `B`, `C`, `D` and the links `A B 1`,
`B C 1`: after every number of passes of the round loop of the initial run some
node is still flagged not converged, so `distanceVector(false)` never reaches
`printRoutes`, whatever number of passes it is allowed. -/
theorem isolated4_never_converges :
    (∀ k, ((isolated4.bind initTables).bind (rounds int32Add k)).map isConverged = some false) ∧
    (∀ fuel, isolated4.bind (distanceVector int32Add fuel false) = none) := by
  have hinit : ∃ s0, isolated4.bind initTables = some s0 := by
    cases h : isolated4.bind initTables with
    | none =>
      have := isolated4_stuck_eq
      rw [h] at this
      simp at this
    | some s0 => exact ⟨s0, rfl⟩
  obtain ⟨s0, hs0⟩ := hinit
  have h3 : rounds int32Add 3 s0 = some isolated4Stuck := by
    have := isolated4_stuck_eq
    rwa [hs0] at this
  have hall : ∀ k, (rounds int32Add k s0).map isConverged = some false := by
    intro k
    by_cases hk : k < 3
    · have h012 : ∀ j, j < 3 →
          ((isolated4.bind initTables).bind (rounds int32Add j)).map isConverged = some false := by
        decide
      have := h012 k hk
      rwa [hs0] at this
    · obtain ⟨j, rfl⟩ : ∃ j, k = 3 + j := ⟨k - 3, by omega⟩
      rw [rounds_add, h3]
      simp only [Option.some_bind]
      rw [rounds_of_fixed isolated4_stuck_fixed]
      decide
  constructor
  · intro k
    rw [hs0]
    exact hall k
  · intro fuel
    have hd : isolated4.bind (distanceVector int32Add fuel false) = (isolated4.bind initTables).bind (roundLoop int32Add fuel) := by
      cases isolated4 <;> simp [distanceVector]
    rw [hd, hs0]
    exact roundLoop_none_of_never_converged fuel s0 hall


/-! ## Facts about `getMin` -/

theorem getMin_fold (row : Row) (acc : String × Int) :
    (row.foldl (fun acc entry =>
        if entry.2 < acc.2 ∧ entry.2 ≠ -1 then (entry.1, entry.2) else acc) acc).2 ≤ acc.2 ∧
    (row.foldl (fun acc entry =>
        if entry.2 < acc.2 ∧ entry.2 ≠ -1 then (entry.1, entry.2) else acc) acc = acc ∨
      ∃ p ∈ row, row.foldl (fun acc entry =>
        if entry.2 < acc.2 ∧ entry.2 ≠ -1 then (entry.1, entry.2) else acc) acc = p ∧
        p.2 ≠ -1 ∧ p.2 < acc.2) ∧
    (∀ p ∈ row, p.2 ≠ -1 → (row.foldl (fun acc entry =>
        if entry.2 < acc.2 ∧ entry.2 ≠ -1 then (entry.1, entry.2) else acc) acc).2 ≤ p.2) := by
  induction row generalizing acc with
  | nil => simp
  | cons q rest ih =>
    simp only [List.foldl_cons]
    by_cases hq : q.2 < acc.2 ∧ q.2 ≠ -1
    · simp only [hq, and_self, ne_eq, not_false_eq_true, if_true]
      obtain ⟨h1, h2, h3⟩ := ih (q.1, q.2)
      refine ⟨le_trans h1 (le_of_lt hq.1), ?_, ?_⟩
      · right
        rcases h2 with h2 | ⟨p, hp, hpe, hp1, hp2⟩
        · exact ⟨q, List.mem_cons_self _ _, h2, hq.2, hq.1⟩
        · exact ⟨p, List.mem_cons_of_mem _ hp, hpe, hp1, lt_trans hp2 hq.1⟩
      · intro p hp hp1
        rcases List.mem_cons.mp hp with rfl | hp
        · exact h1
        · exact h3 p hp hp1
    · simp only [hq, if_false]
      obtain ⟨h1, h2, h3⟩ := ih acc
      refine ⟨h1, ?_, ?_⟩
      · rcases h2 with h2 | ⟨p, hp, hpe, hp1, hp2⟩
        · exact Or.inl h2
        · exact Or.inr ⟨p, List.mem_cons_of_mem _ hp, hpe, hp1, hp2⟩
      · intro p hp hp1
        rcases List.mem_cons.mp hp with rfl | hp
        · have : acc.2 ≤ p.2 := by
            by_contra hlt
            exact hq ⟨lt_of_not_le hlt, hp1⟩
          exact le_trans h1 this
        · exact h3 p hp hp1

theorem getMin_le_max (row : Row) : (getMin row).2 ≤ INT_MAX :=
  (getMin_fold row ("", INT_MAX)).1

theorem getMin_le {row : Row} {p : String × Int} (hp : p ∈ row) (h : p.2 ≠ -1) :
    (getMin row).2 ≤ p.2 :=
  (getMin_fold row ("", INT_MAX)).2.2 p hp h

theorem getMin_cases (row : Row) :
    getMin row = ("", INT_MAX) ∨
      ∃ p ∈ row, getMin row = p ∧ p.2 ≠ -1 ∧ p.2 < INT_MAX :=
  (getMin_fold row ("", INT_MAX)).2.1

theorem getMin_of_viable {row : Row} (h : (getMin row).1 ≠ "") :
    ∃ p ∈ row, getMin row = p ∧ p.2 ≠ -1 ∧ p.2 < INT_MAX := by
  rcases getMin_cases row with h0 | h1
  · rw [h0] at h
    exact absurd rfl h
  · exact h1

theorem getMin_of_lt {row : Row} (h : (getMin row).2 < INT_MAX) :
    ∃ p ∈ row, getMin row = p ∧ p.2 ≠ -1 ∧ p.2 < INT_MAX := by
  rcases getMin_cases row with h0 | h1
  · rw [h0] at h
    exact absurd h (lt_irrefl _)
  · exact h1

theorem getMin_viable_of_lt {row : Row} (hk : "" ∉ Map.keys row)
    (h : (getMin row).2 < INT_MAX) : (getMin row).1 ≠ "" := by
  obtain ⟨p, hp, hpe, _, _⟩ := getMin_of_lt h
  rw [hpe]
  intro h0
  apply hk
  rw [← h0]
  exact List.mem_map_of_mem Prod.fst hp


/-! ## Keys stay distinct -/

namespace Map

variable {α : Type}

theorem nodup_keys_place {m : Map α} {k : String} (v : α) (hm : (keys m).Nodup)
    (hk : find m k = none) : (keys (place m k v)).Nodup := by
  rw [(keys_place_perm m k v).nodup_iff, List.nodup_cons]
  refine ⟨?_, hm⟩
  rw [mem_keys_iff]
  simp [(hasKey_false_iff m k).mpr hk]

theorem nodup_keys_insert {m : Map α} (k : String) (v : α) (hm : (keys m).Nodup) :
    (keys (insert m k v)).Nodup := by
  unfold insert
  by_cases h : hasKey m k = true
  · simpa [h] using hm
  · simp only [h]
    exact nodup_keys_place v hm ((hasKey_false_iff m k).mp (by simpa using h))

theorem nodup_keys_assign {m : Map α} (k : String) (v : α) (hm : (keys m).Nodup) :
    (keys (assign m k v)).Nodup := by
  unfold assign
  by_cases h : hasKey m k = true
  · simp only [h, if_true, keys_replace]
    exact hm
  · simp only [h]
    exact nodup_keys_place v hm ((hasKey_false_iff m k).mp (by simpa using h))

theorem keys_erase_sublist (m : Map α) (k : String) :
    (keys (erase m k)).Sublist (keys m) := by
  induction m with
  | nil => simp [erase, keys]
  | cons p rest ih =>
    simp only [erase]
    by_cases hk : p.1 = k
    · simp only [hk, if_true, keys, List.map_cons] at ih ⊢
      exact List.Sublist.cons _ ih
    · simp only [hk, if_false, keys, List.map_cons] at ih ⊢
      exact List.Sublist.cons₂ _ ih

theorem nodup_keys_erase {m : Map α} (k : String) (hm : (keys m).Nodup) :
    (keys (erase m k)).Nodup :=
  hm.sublist (keys_erase_sublist m k)

theorem hasKey_replace (m : Map α) (k k' : String) (v : α) :
    hasKey (replace m k v) k' = hasKey m k' := by
  unfold hasKey
  by_cases h : k' = k
  · subst h
    rw [find_replace_self]
    cases find m k' <;> rfl
  · rw [find_replace_ne _ _ h]

theorem hasKey_assign (m : Map α) (k k' : String) (v : α) :
    hasKey (assign m k v) k' = (decide (k' = k) || hasKey m k') := by
  unfold hasKey
  by_cases h : k' = k
  · subst h
    simp [find_assign_self]
  · simp [find_assign_ne _ _ h, h]

theorem hasKey_insert (m : Map α) (k k' : String) (v : α) :
    hasKey (insert m k v) k' = (decide (k' = k) || hasKey m k') := by
  unfold hasKey
  by_cases h : k' = k
  · subst h
    simp [find_insert_self]
  · simp [find_insert_ne _ _ h, h]

end Map

theorem createLinkOn_links_nodup (src : Node) (d : String) (c : Int)
    (h : (Map.keys src.links).Nodup) : (Map.keys (createLinkOn src d c).links).Nodup := by
  unfold createLinkOn
  split_ifs
  · exact Map.nodup_keys_erase _ h
  · exact Map.nodup_keys_assign _ _ h
  · exact Map.nodup_keys_insert _ _ h
  · exact h

/-! ## The registry after the first two loops of `main` -/

theorem nodup_keys_foldl_insert_new (names : List String) (acc : Nodes)
    (h : (Map.keys acc).Nodup) :
    (Map.keys (names.foldl (fun nodes name => Map.insert nodes name (Node.new name)) acc)).Nodup := by
  induction names generalizing acc with
  | nil => exact h
  | cons a rest ih => exact ih _ (Map.nodup_keys_insert _ _ h)

theorem topo_readNodes (names : List String) (h0 : "" ∉ names) :
    Topo names (readNodes names) where
  keys_nodup := nodup_keys_foldl_insert_new names [] (by simp [Map.keys])
  declared := by
    intro k
    rw [Map.hasKey_iff_find, find_readNodes]
    by_cases hk : k ∈ names <;> simp [hk]
  no_empty := h0
  name_eq := namesOK_readNodes names
  links_nodup := by
    intro k n h
    rw [find_readNodes] at h
    split_ifs at h
    cases h
    simp [Node.new, Map.keys]
  links := by
    intro x v c h
    unfold linkCost at h
    rw [find_readNodes] at h
    split_ifs at h <;> simp [Node.new, Map.find] at h

theorem topo_extractLink {names : List String} {nodes nodes' : Nodes} {S D : String}
    {c : Int} (ht : Topo names nodes) (hc : c = -1 ∨ 0 < c)
    (h : extractLink nodes S D c = some nodes') : Topo names nodes' := by
  have hlc := linkCost_after_extract ht.name_eq h
  obtain ⟨hne, src, dst, hs, hd, rfl⟩ := extractLink_inv h
  have hf := find_after_extract hs hd hne (createLinkOn src dst.name c)
    (createLinkOn dst src.name c)
  have hSn : S ∈ names := (ht.declared S).mp ((Map.hasKey_iff_find _ _).mpr ⟨_, hs⟩)
  have hDn : D ∈ names := (ht.declared D).mp ((Map.hasKey_iff_find _ _).mpr ⟨_, hd⟩)
  refine ⟨?_, ?_, ht.no_empty, ?_, ?_, ?_⟩
  · rw [Map.keys_replace, Map.keys_replace]
    exact ht.keys_nodup
  · intro k
    rw [Map.hasKey_replace, Map.hasKey_replace]
    exact ht.declared k
  · intro k n hk
    rw [hf] at hk
    split_ifs at hk with h1 h2
    · cases hk
      rw [createLinkOn_name, h1]
      exact ht.name_eq _ _ hd
    · cases hk
      rw [createLinkOn_name, h2]
      exact ht.name_eq _ _ hs
    · exact ht.name_eq _ _ hk
  · intro k n hk
    rw [hf] at hk
    split_ifs at hk with h1 h2
    · cases hk
      exact createLinkOn_links_nodup _ _ _ (ht.links_nodup _ _ hd)
    · cases hk
      exact createLinkOn_links_nodup _ _ _ (ht.links_nodup _ _ hs)
    · exact ht.links_nodup _ _ hk
  · intro x v c' hxv
    rw [hlc] at hxv
    rw [hlc]
    by_cases h1 : (x = S ∧ v = D) ∨ (x = D ∧ v = S)
    · have h2 : (v = S ∧ x = D) ∨ (v = D ∧ x = S) := by tauto
      simp only [h1, if_true] at hxv
      simp only [h2, if_true]
      rcases hc with hc | hc
      · simp [hc] at hxv
      · have hc1 : c ≠ -1 := by omega
        simp only [hc1, if_false, Option.some.injEq] at hxv
        subst hxv
        refine ⟨?_, ?_, hc, by simp [hc1]⟩
        · rcases h1 with ⟨_, rfl⟩ | ⟨_, rfl⟩
          · exact hDn
          · exact hSn
        · rcases h1 with ⟨rfl, rfl⟩ | ⟨rfl, rfl⟩
          · exact Ne.symm hne
          · exact hne
    · have h2 : ¬ ((v = S ∧ x = D) ∨ (v = D ∧ x = S)) := by tauto
      simp only [h1, if_false] at hxv
      simp only [h2, if_false]
      exact ht.links x v c' hxv

theorem topo_readLinks {names : List String} (events : List (String × String × Int))
    {nodes nodes' : Nodes} (ht : Topo names nodes)
    (hc : ∀ e ∈ events, e.2.2 = -1 ∨ 0 < e.2.2)
    (h : readLinks events nodes = some nodes') : Topo names nodes' := by
  induction events generalizing nodes with
  | nil =>
    simp only [readLinks, Option.some.injEq] at h
    rw [← h]
    exact ht
  | cons e rest ih =>
    simp only [readLinks] at h
    cases he : extractLink nodes e.1 e.2.1 e.2.2 with
    | none => simp [he] at h
    | some s1 =>
      simp only [he, Option.some_bind] at h
      exact ih (topo_extractLink ht (hc e (List.mem_cons_self _ _)) he)
        (fun e' he' => hc e' (List.mem_cons_of_mem _ he')) h

/-- No node is flagged converged. -/
theorem flags_readNodes (names : List String) :
    ∀ k n, Map.find (readNodes names) k = some n → n.converged = false := by
  intro k n h
  rw [find_readNodes] at h
  split_ifs at h
  cases h
  rfl

theorem flags_extractLink {nodes nodes' : Nodes} {S D : String} {c : Int}
    (hf : ∀ k n, Map.find nodes k = some n → n.converged = false)
    (h : extractLink nodes S D c = some nodes') :
    ∀ k n, Map.find nodes' k = some n → n.converged = false := by
  obtain ⟨hne, src, dst, hs, hd, rfl⟩ := extractLink_inv h
  intro k n hk
  rw [find_after_extract hs hd hne] at hk
  split_ifs at hk with h1 h2
  · cases hk
    rw [createLinkOn_converged]
    exact hf _ _ hd
  · cases hk
    rw [createLinkOn_converged]
    exact hf _ _ hs
  · exact hf _ _ hk

theorem flags_readLinks (events : List (String × String × Int)) {nodes nodes' : Nodes}
    (hf : ∀ k n, Map.find nodes k = some n → n.converged = false)
    (h : readLinks events nodes = some nodes') :
    ∀ k n, Map.find nodes' k = some n → n.converged = false := by
  induction events generalizing nodes with
  | nil =>
    simp only [readLinks, Option.some.injEq] at h
    rw [← h]
    exact hf
  | cons e rest ih =>
    simp only [readLinks] at h
    cases he : extractLink nodes e.1 e.2.1 e.2.2 with
    | none => simp [he] at h
    | some s1 =>
      simp only [he, Option.some_bind] at h
      exact ih (flags_extractLink hf he) h


/-! ## `initTable` -/

theorem find_foldl_insert_default {α β : Type} (l : List (String × β)) (x : String) (d : α)
    (acc : Map α) (k : String) :
    Map.find (l.foldl (fun t n => if n.1 ≠ x then Map.insert t n.1 d else t) acc) k
      = match Map.find acc k with
        | some v => some v
        | none => if k ∈ l.map Prod.fst ∧ k ≠ x then some d else none := by
  induction l generalizing acc with
  | nil => cases h : Map.find acc k <;> simp [h]
  | cons a rest ih =>
    rw [List.foldl_cons, ih]
    by_cases hax : a.1 = x
    · simp only [hax, ne_eq, not_true_eq_false, if_false, List.map_cons, List.mem_cons]
      cases h : Map.find acc k with
      | some v => rfl
      | none =>
        simp only
        by_cases hkx : k = x
        · simp [hkx]
        · by_cases hm : k ∈ List.map Prod.fst rest <;> simp [hkx, hm]
    · simp only [hax, ne_eq, not_false_eq_true, if_true, List.map_cons, List.mem_cons]
      by_cases hk : k = a.1
      · subst hk
        rw [Map.find_insert_self]
        cases h : Map.find acc a.1 <;> simp [hax]
      · rw [Map.find_insert_ne _ _ hk]
        cases h : Map.find acc k with
        | some v => rfl
        | none => by_cases hm : k ∈ List.map Prod.fst rest <;> simp [hk, hm]

theorem nodup_keys_foldl_insert_default {α β : Type} (l : List (String × β)) (x : String)
    (d : α) (acc : Map α) (h : (Map.keys acc).Nodup) :
    (Map.keys (l.foldl (fun t n => if n.1 ≠ x then Map.insert t n.1 d else t) acc)).Nodup := by
  induction l generalizing acc with
  | nil => exact h
  | cons a rest ih =>
    rw [List.foldl_cons]
    apply ih
    split_ifs
    · exact Map.nodup_keys_insert _ _ h
    · exact h

theorem find_map_values {α β : Type} (m : Map α) (g : String → α → β) (k : String) :
    Map.find (m.map (fun it => (it.1, g it.1 it.2))) k = (Map.find m k).map (g k) := by
  induction m with
  | nil => simp [Map.find]
  | cons p rest ih =>
    simp only [List.map_cons, Map.find]
    by_cases hk : p.1 = k
    · subst hk
      simp
    · simp [hk, ih]

theorem find_foldl_assign (links : Map Int) (val : String → Int → Int) (r : Row)
    (hl : (Map.keys links).Nodup) (v : String) :
    Map.find (links.foldl (fun r link => Map.assign r link.1 (val link.1 link.2)) r) v
      = match Map.find links v with
        | some c => some (val v c)
        | none => Map.find r v := by
  induction links generalizing r with
  | nil => simp [Map.find]
  | cons a rest ih =>
    simp only [Map.keys, List.map_cons, List.nodup_cons] at hl
    rw [List.foldl_cons, ih _ hl.2]
    simp only [Map.find]
    by_cases hk : a.1 = v
    · subst hk
      have hnone : Map.find rest a.1 = none := by
        rw [← Map.hasKey_false_iff]
        have := (Map.mem_keys_iff rest a.1).not.mp hl.1
        simpa using this
      simp [hnone, Map.find_assign_self]
    · simp only [hk, if_false]
      rw [Map.find_assign_ne _ _ (Ne.symm hk)]

theorem nodup_keys_foldl_assign (links : Map Int) (val : String → Int → Int) (r : Row)
    (hr : (Map.keys r).Nodup) :
    (Map.keys (links.foldl (fun r link => Map.assign r link.1 (val link.1 link.2)) r)).Nodup := by
  induction links generalizing r with
  | nil => exact hr
  | cons a rest ih =>
    rw [List.foldl_cons]
    exact ih _ (Map.nodup_keys_assign _ _ hr)

theorem find_initRows (nodes : Nodes) (nd : Node) (y : String) :
    Map.find (initRows nodes nd) y
      = if y ∈ Map.keys nodes ∧ y ≠ nd.name then some [] else none := by
  unfold initRows
  rw [find_foldl_insert_default]
  simp [Map.find, Map.keys]

theorem find_initRow (nodes : Nodes) (nd : Node) (y v : String)
    (hl : (Map.keys nd.links).Nodup) :
    Map.find (initRow nodes nd y []) v
      = match Map.find nd.links v with
        | some c => some (if y = v then c else INT_MAX)
        | none => if v ∈ Map.keys nodes ∧ v ≠ nd.name then some (-1) else none := by
  unfold initRow
  refine (find_foldl_assign nd.links (fun k c => if y = k then c else INT_MAX) _ hl v).trans ?_
  cases Map.find nd.links v with
  | some c => rfl
  | none =>
    simp only
    rw [find_foldl_insert_default]
    simp [Map.find, Map.keys]

theorem nodup_keys_initRow (nodes : Nodes) (nd : Node) (y : String) :
    (Map.keys (initRow nodes nd y [])).Nodup := by
  unfold initRow
  apply nodup_keys_foldl_assign nd.links (fun k c => if y = k then c else INT_MAX)
  exact nodup_keys_foldl_insert_default _ _ _ _ (by simp [Map.keys])

theorem initTable_eq {nodes : Nodes} {x : String} {nd : Node}
    (h : Map.find nodes x = some nd) :
    initTable nodes x = some (Map.replace nodes x
      { nd with table := (initRows nodes nd).map (fun it => (it.1, initRow nodes nd it.1 it.2)) }) := by
  simp only [initTable, h]

theorem find_initTable_row (nodes : Nodes) (nd : Node) (y : String) :
    Map.find ((initRows nodes nd).map (fun it => (it.1, initRow nodes nd it.1 it.2))) y
      = if y ∈ Map.keys nodes ∧ y ≠ nd.name then some (initRow nodes nd y []) else none := by
  rw [find_map_values (initRows nodes nd) (fun k r => initRow nodes nd k r) y, find_initRows]
  split_ifs <;> rfl

theorem tableInv_initTable {names : List String} {nodes : Nodes} {x : String} {nd : Node}
    (ht : Topo names nodes) (h : Map.find nodes x = some nd) :
    TableInv names x nd.links
      ((initRows nodes nd).map (fun it => (it.1, initRow nodes nd it.1 it.2))) := by
  have hname : nd.name = x := ht.name_eq _ _ h
  have hkeys : ∀ k, k ∈ Map.keys nodes ↔ k ∈ names := fun k =>
    (Map.mem_keys_iff nodes k).trans (ht.declared k)
  have hlinks : ∀ v c, Map.find nd.links v = some c → v ∈ names ∧ v ≠ x ∧ 0 < c := by
    intro v c hv
    have := ht.links x v c (by simp [linkCost, h, hv])
    exact ⟨this.1, this.2.1, this.2.2.1⟩
  have hnd := ht.links_nodup _ _ h
  have hfind : ∀ y, Map.find ((initRows nodes nd).map
      (fun it => (it.1, initRow nodes nd it.1 it.2))) y
      = if y ∈ names ∧ y ≠ x then some (initRow nodes nd y []) else none := by
    intro y
    rw [find_initTable_row, hname]
    simp only [hkeys]
  have hrowcell : ∀ y v, Map.find (initRow nodes nd y []) v
      = match Map.find nd.links v with
        | some c => some (if y = v then c else INT_MAX)
        | none => if v ∈ names ∧ v ≠ x then some (-1) else none := by
    intro y v
    rw [find_initRow nodes nd y v hnd, hname]
    simp only [hkeys]
  have hcell : ∀ y v, cell ((initRows nodes nd).map
      (fun it => (it.1, initRow nodes nd it.1 it.2))) y v =
      if y ∈ names ∧ y ≠ x then
        match Map.find nd.links v with
        | some c => some (if y = v then c else INT_MAX)
        | none => if v ∈ names ∧ v ≠ x then some (-1) else none
      else none := by
    intro y v
    unfold cell
    rw [hfind y]
    by_cases hy : y ∈ names ∧ y ≠ x
    · simp only [hy, and_self, if_true, Option.some_bind, ne_eq, not_false_eq_true]
      exact hrowcell y v
    · simp [hy]
  refine ⟨?_, ?_, ?_, ?_⟩
  · intro y
    rw [Map.hasKey_iff_find, hfind y]
    by_cases hy : y ∈ names ∧ y ≠ x
    · simp [hy]
    · simp [hy]
  · intro y row hrow
    rw [hfind y] at hrow
    split_ifs at hrow with hy
    cases hrow
    refine ⟨nodup_keys_initRow nodes nd y, ?_⟩
    intro v
    rw [Map.hasKey_iff_find, hrowcell y v]
    cases hv : Map.find nd.links v with
    | some c =>
      simp only [Option.some.injEq, exists_eq', true_iff]
      exact ⟨(hlinks v c hv).1, (hlinks v c hv).2.1⟩
    | none =>
      simp only
      by_cases hvn : v ∈ names ∧ v ≠ x
      · simp [hvn]
      · simp [hvn]
  · intro v c hv
    obtain ⟨h1, h2, h3⟩ := hlinks v c hv
    constructor
    · rw [hcell]
      simp [h1, h2, hv]
    · intro y e he
      rw [hcell] at he
      by_cases hy : y ∈ names ∧ y ≠ x
      · rw [if_pos hy] at he
        simp only [hv, Option.some.injEq] at he
        split_ifs at he
        · omega
        · rw [← he]
          decide
      · simp [hy] at he
  · intro v hv y e he
    rw [hcell] at he
    by_cases hy : y ∈ names ∧ y ≠ x
    · rw [if_pos hy] at he
      simp only [hv] at he
      split_ifs at he
      cases he
      rfl
    · simp [hy] at he


/-! ## What the operations keep -/

theorem SamePrev.same (s : Nodes) : SamePrev s s := ⟨rfl, fun _ => rfl⟩

theorem SamePrev.andThen {s s' s'' : Nodes} (h1 : SamePrev s s') (h2 : SamePrev s' s'') :
    SamePrev s s'' :=
  ⟨h2.1.trans h1.1, fun k => (h2.2 k).trans (h1.2 k)⟩

theorem SamePrev.sameTopo {s s' : Nodes} (h : SamePrev s s') : SameTopo s s' := by
  refine ⟨h.1, fun k => ?_⟩
  have := h.2 k
  cases h1 : Map.find s' k <;> cases h2 : Map.find s k <;> simp [h1, h2] at this ⊢
  exact ⟨this.1, this.2.1⟩

theorem SameTopo.refl (s : Nodes) : SameTopo s s := ⟨rfl, fun _ => rfl⟩

theorem SameTopo.trans {s s' s'' : Nodes} (h1 : SameTopo s s') (h2 : SameTopo s' s'') :
    SameTopo s s'' :=
  ⟨h2.1.trans h1.1, fun k => (h2.2 k).trans (h1.2 k)⟩

theorem SameTopo.find {s s' : Nodes} (h : SameTopo s s') {k : String} {n : Node}
    (hk : Map.find s k = some n) :
    ∃ n', Map.find s' k = some n' ∧ n'.name = n.name ∧ n'.links = n.links := by
  have := h.2 k
  rw [hk] at this
  cases h1 : Map.find s' k with
  | none => simp [h1] at this
  | some n' =>
    simp only [h1, Option.map_some', Option.some.injEq, Prod.mk.injEq] at this
    exact ⟨n', rfl, this.1, this.2⟩

theorem SameTopo.find_rev {s s' : Nodes} (h : SameTopo s s') {k : String} {n' : Node}
    (hk : Map.find s' k = some n') :
    ∃ n, Map.find s k = some n ∧ n'.name = n.name ∧ n'.links = n.links := by
  have := h.2 k
  rw [hk] at this
  cases h1 : Map.find s k with
  | none => simp [h1] at this
  | some n =>
    simp only [h1, Option.map_some', Option.some.injEq, Prod.mk.injEq] at this
    exact ⟨n, rfl, this.1, this.2⟩

theorem SamePrev.node {s s' : Nodes} (h : SamePrev s s') {k : String} {n : Node}
    (hk : Map.find s k = some n) :
    ∃ n', Map.find s' k = some n' ∧ n'.name = n.name ∧ n'.links = n.links ∧
      n'.table_prev = n.table_prev := by
  have := h.2 k
  rw [hk] at this
  cases h1 : Map.find s' k with
  | none => simp [h1] at this
  | some n' =>
    simp only [h1, Option.map_some', Option.some.injEq, Prod.mk.injEq] at this
    exact ⟨n', rfl, this.1, this.2.1, this.2.2⟩

theorem SamePrev.node_rev {s s' : Nodes} (h : SamePrev s s') {k : String} {n' : Node}
    (hk : Map.find s' k = some n') :
    ∃ n, Map.find s k = some n ∧ n'.name = n.name ∧ n'.links = n.links ∧
      n'.table_prev = n.table_prev := by
  have := h.2 k
  rw [hk] at this
  cases h1 : Map.find s k with
  | none => simp [h1] at this
  | some n =>
    simp only [h1, Option.map_some', Option.some.injEq, Prod.mk.injEq] at this
    exact ⟨n, rfl, this.1, this.2.1, this.2.2⟩

theorem SameTopo.linkCost {s s' : Nodes} (h : SameTopo s s') (a b : String) :
    linkCost s' a b = linkCost s a b := by
  unfold DistanceVector.linkCost
  have := h.2 a
  cases h1 : Map.find s' a <;> cases h2 : Map.find s a <;> simp [h1, h2] at this ⊢
  rw [this.2]

theorem SamePrev.prevRow {s s' : Nodes} (h : SamePrev s s') (v y : String) :
    prevRow s' v y = prevRow s v y := by
  unfold DistanceVector.prevRow
  have := h.2 v
  cases h1 : Map.find s' v <;> cases h2 : Map.find s v <;> simp [h1, h2] at this ⊢
  rw [this.2.2]

theorem SameTopo.hasKey {s s' : Nodes} (h : SameTopo s s') (k : String) :
    Map.hasKey s' k = Map.hasKey s k := by
  have := h.2 k
  unfold Map.hasKey
  cases h1 : Map.find s' k <;> cases h2 : Map.find s k <;> simp [h1, h2] at this ⊢

theorem SameTopo.topo {names : List String} {s s' : Nodes} (h : SameTopo s s')
    (ht : Topo names s) : Topo names s' where
  keys_nodup := by rw [h.1]; exact ht.keys_nodup
  declared := fun k => by rw [h.hasKey]; exact ht.declared k
  no_empty := ht.no_empty
  name_eq := by
    intro k n' hk
    obtain ⟨n, hn, h1, _⟩ := h.find_rev hk
    rw [h1]
    exact ht.name_eq _ _ hn
  links_nodup := by
    intro k n' hk
    obtain ⟨n, hn, _, h2⟩ := h.find_rev hk
    rw [h2]
    exact ht.links_nodup _ _ hn
  links := by
    intro x v c hc
    rw [h.linkCost] at hc ⊢
    exact ht.links x v c hc

theorem samePrev_replace {s : Nodes} {x : String} {n n' : Node}
    (hx : Map.find s x = some n) (h1 : n'.name = n.name) (h2 : n'.links = n.links)
    (h3 : n'.table_prev = n.table_prev) : SamePrev s (Map.replace s x n') := by
  refine ⟨Map.keys_replace _ _ _, fun k => ?_⟩
  by_cases hk : k = x
  · subst hk
    rw [Map.find_replace_self, hx]
    simp [h1, h2, h3]
  · rw [Map.find_replace_ne _ _ hk]

theorem sameTopo_replace {s : Nodes} {x : String} {n n' : Node}
    (hx : Map.find s x = some n) (h1 : n'.name = n.name) (h2 : n'.links = n.links) :
    SameTopo s (Map.replace s x n') := by
  refine ⟨Map.keys_replace _ _ _, fun k => ?_⟩
  by_cases hk : k = x
  · subst hk
    rw [Map.find_replace_self, hx]
    simp [h1, h2]
  · rw [Map.find_replace_ne _ _ hk]

theorem find_snapshot (s : Nodes) (k : String) :
    Map.find (snapshot s) k = (Map.find s k).map backup := by
  unfold snapshot
  exact find_map_values s (fun _ n => backup n) k

theorem keys_snapshot (s : Nodes) : Map.keys (snapshot s) = Map.keys s := by
  simp [snapshot, Map.keys, List.map_map, Function.comp_def]

theorem sameTopo_snapshot (s : Nodes) : SameTopo s (snapshot s) := by
  refine ⟨keys_snapshot s, fun k => ?_⟩
  rw [find_snapshot]
  cases Map.find s k <;> simp [backup]

/-! ## One entry of `updateTable` -/

theorem touchCell_of_cell {t : Table} {y v : String} {c : Int} (h : cell t y v = some c) :
    touchCell t y v = t := by
  unfold cell at h
  unfold touchCell Map.get
  cases hr : Map.find t y with
  | none => simp [hr] at h
  | some row =>
    simp only [hr, Option.some_bind] at h
    simp only [Option.getD_some]
    rw [Map.touch_of_hasKey ((Map.hasKey_iff_find _ _).mpr ⟨c, h⟩), Map.assign_of_find hr]

theorem updateEntry_skip {plus : Int → Int → Int} {s : Nodes} {x y v : String} {n : Node}
    (hx : Map.find s x = some n)
    (h : ∀ e, cell n.table y v = some e → y = v ∨ e = -1) :
    updateEntry plus s x y v = some s := by
  unfold updateEntry
  simp only [hx]
  cases he : cell n.table y v with
  | none => rfl
  | some e =>
    simp only
    have := h e he
    have hc : ¬ (y ≠ v ∧ e ≠ -1) := by tauto
    rw [if_neg hc]

theorem updateEntry_eq {plus : Int → Int → Int} {s : Nodes} {x y v : String} {n nv : Node}
    {e c : Int} {rowp : Row}
    (hx : Map.find s x = some n) (he : cell n.table y v = some e) (hyv : y ≠ v)
    (he1 : e ≠ -1) (hv : Map.find s v = some nv)
    (hrow : Map.find nv.table_prev y = some rowp) (hdiag : cell n.table v v = some c) :
    updateEntry plus s x y v = some (
      if (getMin rowp).1 = "" then
        Map.replace s x { n with table := setCell n.table y v INT_MAX, converged := false }
      else if plus c (getMin rowp).2 ≠ e then
        Map.replace s x
          { n with table := setCell n.table y v (plus c (getMin rowp).2), converged := false }
      else s) := by
  have htouch : Map.touch nv.table_prev y [] = nv.table_prev :=
    Map.touch_of_hasKey ((Map.hasKey_iff_find _ _).mpr ⟨_, hrow⟩) _
  have hnv : ({ nv with table_prev := nv.table_prev } : Node) = nv := rfl
  have hget : Map.get nv.table_prev y [] = rowp := by simp [Map.get, hrow]
  unfold updateEntry
  simp only [hx, he, hv]
  rw [if_pos ⟨hyv, he1⟩]
  simp only [htouch, hnv, Map.replace_of_find hv, hx, hget, touchCell_of_cell hdiag, hdiag,
    Option.getD_some]
  split_ifs with h1 h2
  · rfl
  · rfl
  · have hn : ({ n with table := n.table } : Node) = n := rfl
    rw [hn, Map.replace_of_find hx]

theorem exactAdd_eq (a b : Int) : exactAdd a b = a + b := rfl

theorem int32Add_of_range {a b : Int} (h1 : INT_MIN ≤ a + b) (h2 : a + b ≤ INT_MAX) :
    int32Add a b = a + b := by
  unfold int32Add
  have h3 : (-2147483648 : Int) ≤ a + b := h1
  have h4 : a + b ≤ (2147483647 : Int) := h2
  omega

theorem updateEntry_exact {s : Nodes} {x y v : String} {n nv : Node} {e c : Int} {rowp : Row}
    (hx : Map.find s x = some n) (he : cell n.table y v = some e) (hyv : y ≠ v)
    (he1 : e ≠ -1) (hv : Map.find s v = some nv)
    (hrow : Map.find nv.table_prev y = some rowp) (hdiag : cell n.table v v = some c) :
    updateEntry exactAdd s x y v = some (
      if (getMin rowp).1 = "" then
        Map.replace s x { n with table := setCell n.table y v INT_MAX, converged := false }
      else if c + (getMin rowp).2 ≠ e then
        Map.replace s x
          { n with table := setCell n.table y v (c + (getMin rowp).2), converged := false }
      else s) :=
  updateEntry_eq hx he hyv he1 hv hrow hdiag

theorem settled_exact {rows : String → String → Option Row} {t : Table} :
    Settled exactAdd rows t ↔
      ∀ y v e, cell t y v = some e → y ≠ v → e ≠ -1 →
        ∃ row c, rows v y = some row ∧ (getMin row).1 ≠ "" ∧
          cell t v v = some c ∧ e = c + (getMin row).2 :=
  Iff.rfl


/-! ## `updateTable` keeps the invariant -/

theorem TableInv.entry_pos {names : List String} {x : String} {links : Map Int} {t : Table}
    (h : TableInv names x links t) {y : String} {row : Row} (hrow : Map.find t y = some row)
    {p : String × Int} (hp : p ∈ row) (hp1 : p.2 ≠ -1) : 0 < p.2 := by
  have hf : Map.find row p.1 = some p.2 := Map.find_of_mem_nodup (h.cols y row hrow).1 hp
  have hc : cell t y p.1 = some p.2 := by simp [cell, hrow, hf]
  cases hl : Map.find links p.1 with
  | none => exact absurd (h.non_nb p.1 hl y p.2 hc) hp1
  | some c => exact (h.nb p.1 c hl).2 y p.2 hc

theorem TableInv.neighbour {names : List String} {x : String} {links : Map Int} {t : Table}
    (h : TableInv names x links t) {y v : String} {e : Int} (hc : cell t y v = some e)
    (he : e ≠ -1) : ∃ c, Map.find links v = some c ∧ cell t v v = some c := by
  cases hl : Map.find links v with
  | none => exact absurd (h.non_nb v hl y e hc) he
  | some c => exact ⟨c, rfl, (h.nb v c hl).1⟩

theorem TableInv.row_of_cell {names : List String} {x : String} {links : Map Int} {t : Table}
    (h : TableInv names x links t) {y v : String} {e : Int} (hc : cell t y v = some e) :
    y ∈ names ∧ y ≠ x := by
  apply (h.rows y).mp
  rw [Map.hasKey_iff_find]
  unfold cell at hc
  cases hr : Map.find t y with
  | none => simp [hr] at hc
  | some row => exact ⟨row, rfl⟩

theorem TableInv.no_empty_key {names : List String} {x : String} {links : Map Int} {t : Table}
    (h : TableInv names x links t) (h0 : "" ∉ names) {y : String} {row : Row}
    (hrow : Map.find t y = some row) : "" ∉ Map.keys row := by
  intro hmem
  have := ((h.cols y row hrow).2 "").mp ((Map.mem_keys_iff _ _).mp hmem)
  exact h0 this.1

theorem hasKey_setCell_of_cell {t : Table} {y v : String} {e : Int}
    (hc : cell t y v = some e) (d : Int) (k : String) :
    Map.hasKey (setCell t y v d) k = Map.hasKey t k := by
  unfold cell at hc
  cases hr : Map.find t y with
  | none => simp [hr] at hc
  | some row =>
    unfold setCell
    rw [Map.hasKey_assign]
    by_cases hk : k = y
    · subst hk
      simp [Map.hasKey, hr]
    · simp [hk]

theorem find_setCell_self_of_cell {t : Table} {y v : String} {row : Row}
    (hr : Map.find t y = some row) (d : Int) :
    Map.find (setCell t y v d) y = some (Map.assign row v d) := by
  unfold setCell
  rw [Map.find_assign_self]
  simp [Map.get, hr]

theorem tableInv_setCell {names : List String} {x : String} {links : Map Int} {t : Table}
    (h : TableInv names x links t) {y v : String} {e c d : Int}
    (hc : cell t y v = some e) (hyv : y ≠ v) (hl : Map.find links v = some c)
    (hd : 0 < d) : TableInv names x links (setCell t y v d) := by
  obtain ⟨row, hr, hrv⟩ : ∃ row, Map.find t y = some row ∧ Map.find row v = some e := by
    unfold cell at hc
    cases hr : Map.find t y with
    | none => simp [hr] at hc
    | some row => exact ⟨row, rfl, by simpa [hr] using hc⟩
  refine ⟨?_, ?_, ?_, ?_⟩
  · intro k
    rw [hasKey_setCell_of_cell hc]
    exact h.rows k
  · intro k row' hrow'
    by_cases hk : k = y
    · subst hk
      rw [find_setCell_self_of_cell hr] at hrow'
      cases hrow'
      obtain ⟨h1, h2⟩ := h.cols k row hr
      refine ⟨Map.nodup_keys_assign _ _ h1, fun w => ?_⟩
      rw [Map.hasKey_assign, ← h2 w]
      by_cases hw : w = v
      · subst hw
        simp [Map.hasKey, hrv]
      · simp [hw]
    · rw [find_setCell_ne _ _ _ hk] at hrow'
      exact h.cols k row' hrow'
  · intro w c' hw
    obtain ⟨h1, h2⟩ := h.nb w c' hw
    constructor
    · rw [cell_setCell]
      have : ¬ (w = y ∧ w = v) := fun hh => hyv (hh.1.symm.trans hh.2)
      rw [if_neg this]
      exact h1
    · intro y' e' he'
      rw [cell_setCell] at he'
      split_ifs at he' with hh
      · cases he'
        exact hd
      · exact h2 y' e' he'
  · intro w hw y' e' he'
    rw [cell_setCell] at he'
    split_ifs at he' with hh
    · rw [hh.2, hl] at hw
      cases hw
    · exact h.non_nb w hw y' e' he'

/-- The effect of the loop body of `updateTable(x)` at one entry, in a registry
that satisfies the invariant: either nothing changes, and then the entry, when
it is considered, already holds the cost computed for it; or the entry is
overwritten with a positive cost and the flag of `x` is cleared. -/
theorem updateEntry_good {names : List String} {s : Nodes} {x y v : String} {n : Node}
    (hg : Good names s) (hx : Map.find s x = some n) :
    ∃ s', updateEntry exactAdd s x y v = some s' ∧
      ((s' = s ∧ ∀ e, cell n.table y v = some e → y ≠ v → e ≠ -1 →
          ∃ row c, prevRow s v y = some row ∧ (getMin row).1 ≠ "" ∧
            cell n.table v v = some c ∧ e = c + (getMin row).2) ∨
       (∃ e d, cell n.table y v = some e ∧ y ≠ v ∧ e ≠ -1 ∧ 0 < d ∧
          (∃ c, Map.find n.links v = some c) ∧
          s' = Map.replace s x { n with table := setCell n.table y v d, converged := false })) := by
  obtain ⟨ht, htab, hprev⟩ := hg
  by_cases hcons : ∃ e, cell n.table y v = some e ∧ y ≠ v ∧ e ≠ -1
  · obtain ⟨e, he, hyv, he1⟩ := hcons
    have hti := htab x n hx
    obtain ⟨c, hl, hdiag⟩ := hti.neighbour he he1
    have hlc : linkCost s x v = some c := by simp [linkCost, hx, hl]
    obtain ⟨hvn, hvx, hcpos, _⟩ := ht.links x v c hlc
    obtain ⟨nv, hv⟩ := (Map.hasKey_iff_find _ _).mp ((ht.declared v).mpr hvn)
    have hpi := hprev v nv hv
    have hy := hti.row_of_cell he
    obtain ⟨rowp, hrow⟩ := (Map.hasKey_iff_find _ _).mp ((hpi.rows y).mpr ⟨hy.1, hyv⟩)
    have hpr : prevRow s v y = some rowp := by simp [prevRow, hv, hrow]
    refine ⟨_, updateEntry_exact hx he hyv he1 hv hrow hdiag, ?_⟩
    by_cases h1 : (getMin rowp).1 = ""
    · right
      rw [if_pos h1]
      exact ⟨e, INT_MAX, he, hyv, he1, by decide, ⟨c, hl⟩, rfl⟩
    · rw [if_neg h1]
      by_cases h2 : c + (getMin rowp).2 ≠ e
      · right
        rw [if_pos h2]
        obtain ⟨p, hp, hpe, hp1, _⟩ := getMin_of_viable h1
        have hpos : 0 < p.2 := hpi.entry_pos hrow hp hp1
        rw [hpe]
        exact ⟨e, c + p.2, he, hyv, he1, by omega, ⟨c, hl⟩, rfl⟩
      · left
        rw [if_neg h2]
        refine ⟨rfl, ?_⟩
        intro e' he' _ _
        rw [he] at he'
        cases he'
        exact ⟨rowp, c, hpr, h1, hdiag, by omega⟩
  · refine ⟨s, updateEntry_skip hx ?_, Or.inl ⟨rfl, ?_⟩⟩
    · intro e he
      by_contra hh
      exact hcons ⟨e, he, by tauto, by tauto⟩
    · intro e he hyv he1
      exact absurd ⟨e, he, hyv, he1⟩ hcons

theorem good_replace_table {names : List String} {s : Nodes} {x : String} {n n' : Node}
    (hg : Good names s) (hx : Map.find s x = some n) (h1 : n'.name = n.name)
    (h2 : n'.links = n.links) (h3 : n'.table_prev = n.table_prev)
    (h4 : TableInv names x n.links n'.table) : Good names (Map.replace s x n') := by
  obtain ⟨ht, htab, hprev⟩ := hg
  refine ⟨(sameTopo_replace hx h1 h2).topo ht, ?_, ?_⟩
  · intro k m hk
    by_cases hkx : k = x
    · subst hkx
      rw [Map.find_replace_self, hx] at hk
      cases hk
      rw [h2]
      exact h4
    · rw [Map.find_replace_ne _ _ hkx] at hk
      exact htab k m hk
  · intro k m hk
    by_cases hkx : k = x
    · subst hkx
      rw [Map.find_replace_self, hx] at hk
      cases hk
      rw [h2, h3]
      exact hprev k n hx
    · rw [Map.find_replace_ne _ _ hkx] at hk
      exact hprev k m hk


/-! ## `updateTable` and the round -/

theorem mem_visits {t : Table} {y v : String} {e : Int} (h : cell t y v = some e) :
    (y, v) ∈ visits t := by
  unfold cell at h
  cases hr : Map.find t y with
  | none => simp [hr] at h
  | some row =>
    simp only [hr, Option.some_bind] at h
    unfold visits
    rw [List.mem_flatten]
    refine ⟨row.map (fun entry => (y, entry.1)), ?_, ?_⟩
    · rw [List.mem_map]
      exact ⟨(y, row), Map.find_mem hr, rfl⟩
    · rw [List.mem_map]
      exact ⟨(v, e), Map.find_mem h, rfl⟩

theorem visitAll_good {names : List String} {x : String} (l : List (String × String))
    {s : Nodes} {n : Node} (hg : Good names s) (hx : Map.find s x = some n) :
    ∃ s' n', visitAll exactAdd x l s = some s' ∧ Good names s' ∧ SamePrev s s' ∧
      Map.find s' x = some n' ∧
      (∀ k, k ≠ x → Map.find s' k = Map.find s k) ∧
      (n.converged = false → n'.converged = false) ∧
      (n'.converged = true → s' = s ∧
        ∀ p ∈ l, ∀ e, cell n.table p.1 p.2 = some e → p.1 ≠ p.2 → e ≠ -1 →
          ∃ row c, prevRow s p.2 p.1 = some row ∧ (getMin row).1 ≠ "" ∧
            cell n.table p.2 p.2 = some c ∧ e = c + (getMin row).2) := by
  induction l generalizing s n with
  | nil =>
    exact ⟨s, n, rfl, hg, SamePrev.same s, hx, fun _ _ => rfl, id,
      fun _ => ⟨rfl, fun p hp => absurd hp (List.not_mem_nil p)⟩⟩
  | cons p rest ih =>
    obtain ⟨s1, hs1, hcase⟩ := updateEntry_good (y := p.1) (v := p.2) hg hx
    simp only [visitAll, hs1, Option.some_bind]
    rcases hcase with ⟨rfl, hcond⟩ | ⟨e, d, he, hyv, he1, hd, ⟨c, hl⟩, rfl⟩
    · obtain ⟨s', n', h1, h2, h3, h4, h5, h6, h7⟩ := ih hg hx
      refine ⟨s', n', h1, h2, h3, h4, h5, h6, fun hc => ?_⟩
      obtain ⟨h8, h9⟩ := h7 hc
      refine ⟨h8, fun q hq => ?_⟩
      rcases List.mem_cons.mp hq with rfl | hq
      · exact hcond
      · exact h9 q hq
    · have hti := hg.2.1 x n hx
      have hg1 : Good names (Map.replace s x
          { n with table := setCell n.table p.1 p.2 d, converged := false }) :=
        good_replace_table hg hx rfl rfl rfl (tableInv_setCell hti he hyv hl hd)
      have hx1 : Map.find (Map.replace s x
          { n with table := setCell n.table p.1 p.2 d, converged := false }) x
          = some { n with table := setCell n.table p.1 p.2 d, converged := false } := by
        rw [Map.find_replace_self, hx]; rfl
      have hsp1 : SamePrev s (Map.replace s x
          { n with table := setCell n.table p.1 p.2 d, converged := false }) :=
        samePrev_replace hx rfl rfl rfl
      obtain ⟨s', n', h1, h2, h3, h4, h5, h6, _⟩ := ih hg1 hx1
      have hfalse : n'.converged = false := h6 rfl
      refine ⟨s', n', h1, h2, hsp1.andThen h3, h4, ?_,
        fun _ => hfalse, fun hc => ?_⟩
      · intro k hk
        rw [h5 k hk, Map.find_replace_ne _ _ hk]
      · rw [hfalse] at hc
        cases hc

/-- The function `updateTable(x)` in a registry that satisfies the invariant: it
returns, keeps the invariant, changes nothing but the table and the flag of
`x`, and when it leaves the flag set the table is the one it was given and
every considered cell of it is settled. -/
theorem updateTable_good {names : List String} {s : Nodes} {x : String} {n : Node}
    (hg : Good names s) (hx : Map.find s x = some n) :
    ∃ s' n', updateTable exactAdd s x = some s' ∧ Good names s' ∧ SamePrev s s' ∧
      Map.find s' x = some n' ∧
      (∀ k, k ≠ x → Map.find s' k = Map.find s k) ∧
      (n'.converged = true → n'.table = n.table ∧ Settled exactAdd (prevRow s) n.table) := by
  have hg0 : Good names (Map.replace s x { n with converged := true }) :=
    good_replace_table hg hx rfl rfl rfl (hg.2.1 x n hx)
  have hx0 : Map.find (Map.replace s x { n with converged := true }) x
      = some { n with converged := true } := by
    rw [Map.find_replace_self, hx]; rfl
  have hsp : SamePrev s (Map.replace s x { n with converged := true }) :=
    samePrev_replace hx rfl rfl rfl
  obtain ⟨s', n', h1, h2, h3, h4, h5, _, h7⟩ := visitAll_good (visits n.table) hg0 hx0
  refine ⟨s', n', ?_, h2, hsp.andThen h3, h4, ?_, fun hc => ?_⟩
  · simp only [updateTable, hx]
    exact h1
  · intro k hk
    rw [h5 k hk, Map.find_replace_ne _ _ hk]
  · obtain ⟨h8, h9⟩ := h7 hc
    rw [h8, hx0] at h4
    cases h4
    refine ⟨rfl, ?_⟩
    intro y v e he hyv he1
    obtain ⟨row, c, hr, hv, hd, hec⟩ := h9 (y, v) (mem_visits he) e he hyv he1
    rw [hsp.prevRow] at hr
    exact ⟨row, c, hr, hv, hd, hec⟩

theorem forNodes_updateTable_good {names : List String} (ks : List String) {s : Nodes}
    (hg : Good names s) (hnd : ks.Nodup) (hks : ∀ k ∈ ks, Map.hasKey s k = true) :
    ∃ s', forNodes (updateTable exactAdd) ks s = some s' ∧ Good names s' ∧ SamePrev s s' ∧
      (∀ k, k ∉ ks → Map.find s' k = Map.find s k) ∧
      ∀ x ∈ ks, ∀ n n', Map.find s x = some n → Map.find s' x = some n' →
        n'.converged = true → n'.table = n.table ∧ Settled exactAdd (prevRow s) n.table := by
  induction ks generalizing s with
  | nil =>
    exact ⟨s, rfl, hg, SamePrev.same s, fun _ _ => rfl, fun x hx => absurd hx (List.not_mem_nil x)⟩
  | cons k rest ih =>
    obtain ⟨n, hn⟩ := (Map.hasKey_iff_find _ _).mp (hks k (List.mem_cons_self _ _))
    obtain ⟨s1, n1, h1, h2, h3, h4, h5, h6⟩ := updateTable_good hg hn
    rw [List.nodup_cons] at hnd
    have hks1 : ∀ j ∈ rest, Map.hasKey s1 j = true := by
      intro j hj
      rw [h3.sameTopo.hasKey]
      exact hks j (List.mem_cons_of_mem _ hj)
    obtain ⟨s', g1, g2, g3, g4, g5⟩ := ih h2 hnd.2 hks1
    refine ⟨s', ?_, g2, h3.andThen g3, ?_, ?_⟩
    · simp only [forNodes, h1, Option.some_bind]
      exact g1
    · intro j hj
      rw [List.mem_cons, not_or] at hj
      rw [g4 j hj.2, h5 j hj.1]
    · intro x hx m m' hm hm' hc
      rcases List.mem_cons.mp hx with rfl | hx
      · rw [g4 x hnd.1, h4] at hm'
        cases hm'
        rw [hn] at hm
        cases hm
        exact h6 hc
      · have hxk : x ≠ k := fun h => hnd.1 (h ▸ hx)
        rw [← h5 x hxk] at hm
        obtain ⟨h7, h8⟩ := g5 x hx m m' hm hm' hc
        refine ⟨h7, ?_⟩
        intro y v e he hyv he1
        obtain ⟨row, c, hr, hv, hd, hec⟩ := h8 y v e he hyv he1
        rw [h3.prevRow] at hr
        exact ⟨row, c, hr, hv, hd, hec⟩

theorem isConverged_find {s : Nodes} (h : isConverged s = true) {x : String} {n : Node}
    (hx : Map.find s x = some n) : n.converged = true := by
  unfold isConverged at h
  rw [List.all_eq_true] at h
  exact h (x, n) (Map.find_mem hx)

theorem good_snapshot {names : List String} {s : Nodes} (ht : Topo names s)
    (htab : TablesOK names s) : Good names (snapshot s) := by
  refine ⟨(sameTopo_snapshot s).topo ht, ?_, ?_⟩
  · intro k m hk
    rw [find_snapshot] at hk
    cases hn : Map.find s k with
    | none => simp [hn] at hk
    | some n =>
      simp only [hn, Option.map_some', Option.some.injEq] at hk
      subst hk
      exact htab k n hn
  · intro k m hk
    rw [find_snapshot] at hk
    cases hn : Map.find s k with
    | none => simp [hn] at hk
    | some n =>
      simp only [hn, Option.map_some', Option.some.injEq] at hk
      subst hk
      exact htab k n hn

/-- One pass of the round loop from a registry that satisfies the invariant: it
returns, keeps the invariant, the names and the links, and when it leaves every
flag set the registry is at rest. -/
theorem round_good {names : List String} {s : Nodes} (ht : Topo names s)
    (htab : TablesOK names s) :
    ∃ s', round exactAdd s = some s' ∧ Good names s' ∧ SameTopo s s' ∧
      (isConverged s' = true → Stable names s') := by
  have hg0 := good_snapshot ht htab
  have hks : ∀ k ∈ Map.keys s, Map.hasKey (snapshot s) k = true := by
    intro k hk
    rw [(sameTopo_snapshot s).hasKey]
    exact (Map.mem_keys_iff s k).mp hk
  obtain ⟨s', h1, h2, h3, _, h5⟩ := forNodes_updateTable_good (Map.keys s) hg0 ht.keys_nodup hks
  refine ⟨s', h1, h2, (sameTopo_snapshot s).trans h3.sameTopo, fun hc => ?_⟩
  -- every node kept its table, which is also its snapshot
  have hkeep : ∀ x n', Map.find s' x = some n' →
      n'.table_prev = n'.table ∧ Settled exactAdd (prevRow (snapshot s)) n'.table := by
    intro x n' hx'
    obtain ⟨n0, hx0, _, _, hp⟩ := h3.node_rev hx'
    have hmem : x ∈ Map.keys s := by
      rw [Map.mem_keys_iff, ← (sameTopo_snapshot s).hasKey, Map.hasKey_iff_find]
      exact ⟨n0, hx0⟩
    obtain ⟨h6, h7⟩ := h5 x hmem n0 n' hx0 hx' (isConverged_find hc hx')
    have hb : n0.table_prev = n0.table := by
      rw [find_snapshot] at hx0
      cases hn : Map.find s x with
      | none => simp [hn] at hx0
      | some n =>
        simp only [hn, Option.map_some', Option.some.injEq] at hx0
        subst hx0
        rfl
    rw [h6]
    exact ⟨hp.trans hb, h7⟩
  have hrows : ∀ v y, prevRow (snapshot s) v y = tableRow s' v y := by
    intro v y
    rw [← h3.prevRow]
    unfold prevRow tableRow
    cases hv : Map.find s' v with
    | none => rfl
    | some nv =>
      simp only [Option.some_bind]
      rw [(hkeep v nv hv).1]
  refine ⟨h2.1, h2.2.1, fun x n' hx' => ⟨(hkeep x n' hx').1, ?_⟩⟩
  intro y v e he hyv he1
  obtain ⟨row, c, hr, hv, hd, hec⟩ := (hkeep x n' hx').2 y v e he hyv he1
  rw [hrows] at hr
  exact ⟨row, c, hr, hv, hd, hec⟩


/-! ## The initial run ends at rest -/

theorem forNodes_initTable_good {names : List String} (ks : List String) {s : Nodes}
    (ht : Topo names s) (hks : ∀ k ∈ ks, Map.hasKey s k = true) :
    ∃ s', forNodes initTable ks s = some s' ∧ SameTopo s s' ∧
      (∀ k n n', Map.find s k = some n → Map.find s' k = some n' →
        n'.converged = n.converged ∧ n'.table_prev = n.table_prev) ∧
      (∀ k n', Map.find s' k = some n' →
        (k ∈ ks ∨ ∃ n, Map.find s k = some n ∧ TableInv names k n.links n.table) →
        TableInv names k n'.links n'.table) := by
  induction ks generalizing s with
  | nil =>
    refine ⟨s, rfl, SameTopo.refl s, ?_, ?_⟩
    · intro k n n' h1 h2
      rw [h1] at h2
      cases h2
      exact ⟨rfl, rfl⟩
    · intro k n' h1 h2
      rcases h2 with h2 | ⟨n, h2, h3⟩
      · exact absurd h2 (List.not_mem_nil k)
      · rw [h1] at h2
        cases h2
        exact h3
  | cons k rest ih =>
    obtain ⟨nd, hnd⟩ := (Map.hasKey_iff_find _ _).mp (hks k (List.mem_cons_self _ _))
    have hT := tableInv_initTable ht hnd
    have hst : SameTopo s (Map.replace s k
        { nd with table := (initRows s nd).map (fun it => (it.1, initRow s nd it.1 it.2)) }) :=
      sameTopo_replace hnd rfl rfl
    have hks1 : ∀ j ∈ rest, Map.hasKey (Map.replace s k
        { nd with table := (initRows s nd).map (fun it => (it.1, initRow s nd it.1 it.2)) }) j
        = true := by
      intro j hj
      rw [Map.hasKey_replace]
      exact hks j (List.mem_cons_of_mem _ hj)
    obtain ⟨s', g1, g2, g3, g4⟩ := ih (hst.topo ht) hks1
    refine ⟨s', ?_, hst.trans g2, ?_, ?_⟩
    · simp only [forNodes, initTable_eq hnd, Option.some_bind]
      exact g1
    · intro j n n' h1 h2
      by_cases hj : j = k
      · subst hj
        rw [hnd] at h1
        cases h1
        have := g3 j _ n' (by rw [Map.find_replace_self, hnd]; rfl) h2
        exact this
      · exact g3 j n n' (by rw [Map.find_replace_ne _ _ hj]; exact h1) h2
    · intro j n' h1 h2
      apply g4 j n' h1
      by_cases hj : j = k
      · subst hj
        right
        exact ⟨{ nd with table :=
            (initRows s nd).map (fun it => (it.1, initRow s nd it.1 it.2)) },
          by rw [Map.find_replace_self, hnd]; rfl, hT⟩
      · rcases h2 with h2 | ⟨n, h2, h3⟩
        · rcases List.mem_cons.mp h2 with h2 | h2
          · exact absurd h2 hj
          · exact Or.inl h2
        · right
          exact ⟨n, by rw [Map.find_replace_ne _ _ hj]; exact h2, h3⟩

theorem initTables_good {names : List String} {s : Nodes} (ht : Topo names s) :
    ∃ s', initTables s = some s' ∧ Topo names s' ∧ TablesOK names s' ∧ SameTopo s s' ∧
      (∀ k n n', Map.find s k = some n → Map.find s' k = some n' →
        n'.converged = n.converged ∧ n'.table_prev = n.table_prev) := by
  obtain ⟨s', h1, h2, h3, h4⟩ := forNodes_initTable_good (Map.keys s) ht
    (fun k hk => (Map.mem_keys_iff s k).mp hk)
  refine ⟨s', h1, h2.topo ht, ?_, h2, h3⟩
  intro k n' hk
  apply h4 k n' hk
  left
  rw [Map.mem_keys_iff, ← h2.hasKey, Map.hasKey_iff_find]
  exact ⟨n', hk⟩

theorem rounds_good {names : List String} (k : Nat) {s s' : Nodes} (ht : Topo names s)
    (htab : TablesOK names s) (h : rounds exactAdd k s = some s') :
    Topo names s' ∧ TablesOK names s' ∧ SameTopo s s' := by
  induction k generalizing s with
  | zero =>
    simp only [rounds, Option.some.injEq] at h
    subst h
    exact ⟨ht, htab, SameTopo.refl s⟩
  | succ k ih =>
    obtain ⟨s1, h1, h2, h3, _⟩ := round_good ht htab
    simp only [rounds, h1, Option.some_bind] at h
    obtain ⟨g1, g2, g3⟩ := ih h2.1 h2.2.1 h
    exact ⟨g1, g2, h3.trans g3⟩

theorem stable_nil (names : List String) (h0 : "" ∉ names) (hn : ∀ k, k ∉ names) :
    Stable names [] := by
  refine ⟨⟨by simp [Map.keys], ?_, h0, ?_, ?_, ?_⟩, ?_, ?_⟩
  · intro k
    simp [Map.hasKey, Map.find, hn k]
  · intro k n h
    simp [Map.find] at h
  · intro k n h
    simp [Map.find] at h
  · intro x v c h
    simp [linkCost, Map.find] at h
  · intro x n h
    simp [Map.find] at h
  · intro x n h
    simp [Map.find] at h

/-- When the initial run returns, the registry is at rest and its links are the
links it was started with. -/
theorem distanceVector_stable {names : List String} {s0 final : Nodes} {fuel : Nat}
    (ht : Topo names s0)
    (hflags : ∀ k n, Map.find s0 k = some n → n.converged = false)
    (h : distanceVector exactAdd fuel false s0 = some final) :
    Stable names final ∧ SameTopo s0 final := by
  obtain ⟨s1, h1, h2, h3, h4, h5⟩ := initTables_good ht
  simp only [distanceVector, Bool.not_false, if_true, h1, Option.some_bind] at h
  obtain ⟨hc, k, hk⟩ := roundLoop_some h
  cases k with
  | zero =>
    simp only [rounds, Option.some.injEq] at hk
    subst hk
    -- no node can be registered, as every flag is still clear
    have hempty : ∀ x, Map.find s1 x = none := by
      intro x
      cases hx : Map.find s1 x with
      | none => rfl
      | some n' =>
        obtain ⟨n, hn, _⟩ := h4.find_rev hx
        have h6 := (h5 x n n' hn hx).1
        rw [hflags x n hn, isConverged_find hc hx] at h6
        cases h6
    have hs1 : s1 = [] := by
      cases s1 with
      | nil => rfl
      | cons p rest =>
        have := hempty p.1
        simp [Map.find] at this
    subst hs1
    refine ⟨stable_nil names ht.no_empty ?_, h4⟩
    intro x hx
    have := (h2.declared x).mpr hx
    simp [Map.hasKey, Map.find] at this
  | succ k =>
    rw [rounds_succ] at hk
    cases hp : rounds exactAdd k s1 with
    | none => simp [hp] at hk
    | some sp =>
      simp only [hp, Option.some_bind] at hk
      obtain ⟨g1, g2, g3⟩ := rounds_good k h2 h3 hp
      obtain ⟨s', g4, _, g6, g7⟩ := round_good g1 g2
      rw [g4] at hk
      cases hk
      exact ⟨g7 hc, h4.trans (g3.trans g6)⟩


/-! ## A registry at rest holds shortest-path costs -/

theorem Walk.nonneg {names : List String} {s : Nodes} (ht : Topo names s) {x y : String}
    {d : Int} (h : Walk s x y d) : 0 ≤ d := by
  induction h with
  | here x => exact le_refl 0
  | step hl _ ih =>
    have := (ht.links _ _ _ hl).2.2.1
    omega

theorem Walk.congr {s s' : Nodes} (h : ∀ a b, linkCost s' a b = linkCost s a b)
    {x y : String} {d : Int} (hw : Walk s x y d) : Walk s' x y d := by
  induction hw with
  | here x => exact Walk.here x
  | step hl _ ih => exact Walk.step ((h _ _).trans hl) ih

theorem IsShortest.transfer {s s' : Nodes} (h : ∀ a b, linkCost s' a b = linkCost s a b)
    {x y : String} {d : Int} (hs : IsShortest s x y d) : IsShortest s' x y d :=
  ⟨hs.1.congr h, fun d' hw => hs.2 d' (hw.congr (fun a b => (h a b).symm))⟩

theorem linkCost_eq_find {s : Nodes} {x : String} {n : Node} (hx : Map.find s x = some n)
    (v : String) : linkCost s x v = Map.find n.links v := by
  simp [linkCost, hx]

theorem tableRow_eq {s : Nodes} {v y : String} {row : Row} (h : tableRow s v y = some row) :
    ∃ nv, Map.find s v = some nv ∧ Map.find nv.table y = some row := by
  unfold tableRow at h
  cases hv : Map.find s v with
  | none => simp [hv] at h
  | some nv => exact ⟨nv, rfl, by simpa [hv] using h⟩

theorem cell_of_mem {names : List String} {x : String} {links : Map Int} {t : Table}
    (h : TableInv names x links t) {y : String} {row : Row} (hrow : Map.find t y = some row)
    {p : String × Int} (hp : p ∈ row) : cell t y p.1 = some p.2 := by
  have hf : Map.find row p.1 = some p.2 := Map.find_of_mem_nodup (h.cols y row hrow).1 hp
  simp [cell, hrow, hf]

/-- The cost `getMin` finds in a row of a registry at rest, when below `INT_MAX`,
is the cost of a walk. -/
theorem walk_of_getMin {names : List String} {s : Nodes} (hs : Stable names s) (N : Nat) :
    ∀ x y n row, Map.find s x = some n → Map.find n.table y = some row →
      (getMin row).2 < INT_MAX → (getMin row).2 < N → Walk s x y (getMin row).2 := by
  obtain ⟨ht, htab, hset⟩ := hs
  induction N with
  | zero =>
    intro x y n row hx hrow hlt hN
    obtain ⟨p, hp, hpe, hp1, _⟩ := getMin_of_lt hlt
    have := (htab x n hx).entry_pos hrow hp hp1
    rw [hpe] at hN
    simp only [CharP.cast_eq_zero] at hN
    omega
  | succ N ih =>
    intro x y n row hx hrow hlt hN
    obtain ⟨p, hp, hpe, hp1, _⟩ := getMin_of_lt hlt
    have hti := htab x n hx
    have hcell := cell_of_mem hti hrow hp
    obtain ⟨c, hl, hdiag⟩ := hti.neighbour hcell hp1
    have hlc : linkCost s x p.1 = some c := by rw [linkCost_eq_find hx]; exact hl
    have hcpos := (ht.links _ _ _ hlc).2.2.1
    rw [hpe]
    by_cases hyv : y = p.1
    · rw [← hyv] at hcell hdiag hlc
      rw [hcell] at hdiag
      cases hdiag
      have := Walk.step hlc (Walk.here y)
      simpa using this
    · obtain ⟨rowv, c', hr, hv, hd, hec⟩ := (hset x n hx).2 y p.1 p.2 hcell hyv hp1
      rw [exactAdd_eq] at hec
      rw [hdiag] at hd
      cases hd
      obtain ⟨nv, hnv, hrowv⟩ := tableRow_eq hr
      obtain ⟨q, _, hqe, _, hq2⟩ := getMin_of_viable hv
      have hlt' : (getMin rowv).2 < INT_MAX := by rw [hqe]; exact hq2
      have hN' : (getMin rowv).2 < N := by
        rw [hpe] at hN
        push_cast at hN
        omega
      have := Walk.step hlc (ih p.1 y nv rowv hnv hrowv hlt' hN')
      rw [hec]
      exact this

/-- The cost `getMin` finds in a row of a registry at rest, when below `INT_MAX`,
is at most the cost of any walk. -/
theorem getMin_le_walk {names : List String} {s : Nodes} (hs : Stable names s)
    {x y : String} {d : Int} (hw : Walk s x y d) :
    ∀ n row, x ≠ y → Map.find s x = some n → Map.find n.table y = some row →
      (getMin row).2 < INT_MAX → (getMin row).2 ≤ d := by
  obtain ⟨ht, htab, hset⟩ := hs
  induction hw with
  | here x =>
    intro n row hxy
    exact absurd rfl hxy
  | @step x v y c d' hl hw' ih =>
    intro n row hxy hx hrow _
    have hti := htab x n hx
    obtain ⟨hvn, hvx, hcpos, _⟩ := ht.links _ _ _ hl
    have hlf : Map.find n.links v = some c := by rw [← linkCost_eq_find hx]; exact hl
    obtain ⟨e, he⟩ := (Map.hasKey_iff_find _ _).mp (((hti.cols y row hrow).2 v).mpr ⟨hvn, hvx⟩)
    have hcell : cell n.table y v = some e := by simp [cell, hrow, he]
    obtain ⟨hdiag, hpos⟩ := hti.nb v c hlf
    have hepos := hpos y e hcell
    have hle : (getMin row).2 ≤ e :=
      getMin_le (p := (v, e)) (Map.find_mem he) (by simp only; omega)
    have hd' := hw'.nonneg ht
    by_cases hyv : y = v
    · have hec : cell n.table y v = some c := by rw [hyv]; exact hdiag
      rw [hcell] at hec
      cases hec
      omega
    · obtain ⟨rowv, c', hr, hv, hd, hec⟩ :=
        (hset x n hx).2 y v e hcell hyv (by omega)
      rw [exactAdd_eq] at hec
      rw [hdiag] at hd
      cases hd
      obtain ⟨nv, hnv, hrowv⟩ := tableRow_eq hr
      obtain ⟨q, _, hqe, _, hq2⟩ := getMin_of_viable hv
      have hlt' : (getMin rowv).2 < INT_MAX := by rw [hqe]; exact hq2
      have := ih nv rowv (Ne.symm hyv) hnv hrowv hlt'
      omega

/-- In a registry at rest whose link costs are all below `INT_MAX`, the cost
`getMin` finds in the row of a reachable node is below `INT_MAX`. -/
theorem getMin_lt_of_walk {names : List String} {s : Nodes} (hs : Stable names s)
    (hbound : ∀ a b c, linkCost s a b = some c → c < INT_MAX)
    {x y : String} {d : Int} (hw : Walk s x y d) (hxy : x ≠ y) {n : Node} {row : Row}
    (hx : Map.find s x = some n) (hrow : Map.find n.table y = some row) :
    (getMin row).2 < INT_MAX := by
  obtain ⟨ht, htab, hset⟩ := hs
  cases hw with
  | here => exact absurd rfl hxy
  | @step _ v _ c d' hl hw' =>
    have hti := htab x n hx
    obtain ⟨hvn, hvx, hcpos, hsym⟩ := ht.links _ _ _ hl
    have hlf : Map.find n.links v = some c := by rw [← linkCost_eq_find hx]; exact hl
    obtain ⟨e, he⟩ := (Map.hasKey_iff_find _ _).mp (((hti.cols y row hrow).2 v).mpr ⟨hvn, hvx⟩)
    have hcell : cell n.table y v = some e := by simp [cell, hrow, he]
    obtain ⟨hdiag, hpos⟩ := hti.nb v c hlf
    have hy : y ∈ names ∧ y ≠ x := hti.row_of_cell hcell
    by_cases hyv : y = v
    · have hec : cell n.table y v = some c := by rw [hyv]; exact hdiag
      rw [hcell] at hec
      cases hec
      have hle : (getMin row).2 ≤ c :=
        getMin_le (p := (v, c)) (Map.find_mem he) (by simp only; omega)
      have := hbound _ _ _ hl
      omega
    · -- the neighbour considers its cell under `x` on the row of `y`
      obtain ⟨nv, hnv⟩ := (Map.hasKey_iff_find _ _).mp ((ht.declared v).mpr hvn)
      have htv := htab v nv hnv
      have hxn : x ∈ names := (ht.declared x).mp ((Map.hasKey_iff_find _ _).mpr ⟨n, hx⟩)
      obtain ⟨rowv, hrowv⟩ := (Map.hasKey_iff_find _ _).mp ((htv.rows y).mpr ⟨hy.1, hyv⟩)
      obtain ⟨e', he'⟩ := (Map.hasKey_iff_find _ _).mp
        (((htv.cols y rowv hrowv).2 x).mpr ⟨hxn, Ne.symm hvx⟩)
      have hcell' : cell nv.table y x = some e' := by simp [cell, hrowv, he']
      have hlf' : Map.find nv.links x = some c := by rw [← linkCost_eq_find hnv]; exact hsym
      have hpos' := (htv.nb x c hlf').2 y e' hcell'
      obtain ⟨rowx, _, hr, hv, _, _⟩ :=
        (hset v nv hnv).2 y x e' hcell' (Ne.symm hxy) (by omega)
      have hrx : tableRow s x y = some row := by simp [tableRow, hx, hrow]
      rw [hrx] at hr
      cases hr
      obtain ⟨q, _, hqe, _, hq2⟩ := getMin_of_viable hv
      rw [hqe]
      exact hq2

theorem stable_row {names : List String} {s : Nodes} (hs : Stable names s) {x y : String}
    (hx : x ∈ names) (hy : y ∈ names) (hxy : x ≠ y) :
    ∃ n row, Map.find s x = some n ∧ Map.find n.table y = some row := by
  obtain ⟨n, hn⟩ := (Map.hasKey_iff_find _ _).mp ((hs.1.declared x).mpr hx)
  obtain ⟨row, hrow⟩ := (Map.hasKey_iff_find _ _).mp
    (((hs.2.1 x n hn).rows y).mpr ⟨hy, Ne.symm hxy⟩)
  exact ⟨n, row, hn, hrow⟩

theorem bound_readLinks (events : List (String × String × Int)) {nodes nodes' : Nodes}
    (hn : NamesOK nodes) (hb : ∀ a b c, linkCost nodes a b = some c → c < INT_MAX)
    (hc : ∀ e ∈ events, e.2.2 < INT_MAX)
    (h : readLinks events nodes = some nodes') :
    ∀ a b c, linkCost nodes' a b = some c → c < INT_MAX := by
  induction events generalizing nodes with
  | nil =>
    simp only [readLinks, Option.some.injEq] at h
    rw [← h]
    exact hb
  | cons e rest ih =>
    simp only [readLinks] at h
    cases he : extractLink nodes e.1 e.2.1 e.2.2 with
    | none => simp [he] at h
    | some s1 =>
      simp only [he, Option.some_bind] at h
      have hn1 : NamesOK s1 := by
        obtain ⟨hne, src, dst, hs, hd, rfl⟩ := extractLink_inv he
        intro k n hk
        rw [find_after_extract hs hd hne] at hk
        split_ifs at hk with h1 h2
        · cases hk
          rw [createLinkOn_name, h1]
          exact hn _ _ hd
        · cases hk
          rw [createLinkOn_name, h2]
          exact hn _ _ hs
        · exact hn _ _ hk
      refine ih hn1 ?_ (fun e' he' => hc e' (List.mem_cons_of_mem _ he')) h
      intro a b c hab
      rw [linkCost_after_extract hn he] at hab
      split_ifs at hab with h1 h2
      · cases hab
        exact hc e (List.mem_cons_self _ _)
      · exact hb a b c hab


/-! ## The initial run computes shortest paths -/

theorem stable_of_run {names : List String} {events : List (String × String × Int)}
    {fuel : Nat} {s0 final : Nodes} (h0 : "" ∉ names) (hev : ∀ e ∈ events, 0 < e.2.2)
    (hread : readLinks events (readNodes names) = some s0)
    (hrun : distanceVector exactAdd fuel false s0 = some final) :
    Topo names s0 ∧ Stable names final ∧ SameTopo s0 final := by
  have ht0 : Topo names s0 :=
    topo_readLinks events (topo_readNodes names h0) (fun e he => Or.inr (hev e he)) hread
  have hf0 := flags_readLinks events (flags_readNodes names) hread
  obtain ⟨h1, h2⟩ := distanceVector_stable ht0 hf0 hrun
  exact ⟨ht0, h1, h2⟩

theorem isShortest_of_getMin {names : List String} {s : Nodes} (hs : Stable names s)
    {x y : String} {n : Node} {row : Row} (hxy : x ≠ y) (hx : Map.find s x = some n)
    (hrow : Map.find n.table y = some row) (hlt : (getMin row).2 < INT_MAX) :
    IsShortest s x y (getMin row).2 := by
  refine ⟨walk_of_getMin hs ((getMin row).2.toNat + 1) x y n row hx hrow hlt ?_,
    fun d' hw => getMin_le_walk hs hw n row hxy hx hrow hlt⟩
  push_cast
  have := Int.self_le_toNat (getMin row).2
  omega

/-- C1, as amended: for every topology of declared nodes (none named by the
empty string) whose links were applied as events with positive costs below
`INT_MAX`, in exact arithmetic: if the initial run (`distanceVector(false)`)
returns, then for every two distinct declared nodes `x` and `y` the best route
of `x` for `y`, the cost `getMin` returns on `x.table[y]`, is the shortest-path
cost from `x` to `y` in the link graph when `y` can be reached from `x`, and it
is `INT_MAX` exactly when `y` cannot be reached from `x`. -/
theorem initial_run_best_routes (names : List String)
    (events : List (String × String × Int)) (fuel : Nat) (s0 final : Nodes)
    (h0 : "" ∉ names) (hev : ∀ e ∈ events, 0 < e.2.2 ∧ e.2.2 < INT_MAX)
    (hread : readLinks events (readNodes names) = some s0)
    (hrun : distanceVector exactAdd fuel false s0 = some final) :
    ∀ x y, x ∈ names → y ∈ names → x ≠ y →
      ∃ d, bestCost final x y = some d ∧
        (d = INT_MAX ↔ ¬ Reachable s0 x y) ∧
        (Reachable s0 x y → IsShortest s0 x y d) := by
  obtain ⟨_, hs, hst⟩ := stable_of_run h0 (fun e he => (hev e he).1) hread hrun
  have hb0 := bound_readLinks events (namesOK_readNodes names)
    (fun a b c h => by
      rw [linkCost, find_readNodes] at h
      split_ifs at h <;> simp [Node.new, Map.find] at h)
    (fun e he => (hev e he).2) hread
  have hb : ∀ a b c, linkCost final a b = some c → c < INT_MAX := by
    intro a b c h
    rw [hst.linkCost] at h
    exact hb0 a b c h
  intro x y hx hy hxy
  obtain ⟨n, row, hn, hrow⟩ := stable_row hs hx hy hxy
  have hreach : Reachable s0 x y → (getMin row).2 < INT_MAX := by
    rintro ⟨d, hw⟩
    exact getMin_lt_of_walk hs hb (hw.congr hst.linkCost) hxy hn hrow
  refine ⟨(getMin row).2, by simp [bestCost, hn, hrow], ⟨?_, ?_⟩, ?_⟩
  · intro heq hr
    have := hreach hr
    omega
  · intro hnr
    by_contra hne
    have hlt : (getMin row).2 < INT_MAX := lt_of_le_of_ne (getMin_le_max row) hne
    have hw := (isShortest_of_getMin hs hxy hn hrow hlt).1
    exact hnr ⟨_, hw.congr (fun a b => (hst.linkCost a b).symm)⟩
  · intro hr
    exact (isShortest_of_getMin hs hxy hn hrow (hreach hr)).transfer
      (fun a b => (hst.linkCost a b).symm)

/-- An instance of `initial_run_best_routes`: on the chain `A - B - C` the best
route of `A` for `C` costs 2, the shortest-path cost. -/
theorem initial_run_best_routes_witness :
    bestCost (chain3Converged.getD []) "A" "C" = some 2 ∧
    IsShortest (chain3.getD []) "A" "C" 2 := by
  obtain ⟨d, h1, _, h3⟩ := initial_run_best_routes ["A", "B", "C"]
    [("A", "B", 1), ("B", "C", 1)] 5 (chain3.getD []) (chain3Converged.getD [])
    (by decide) (by decide) (by decide) (by decide) "A" "C" (by decide) (by decide) (by decide)
  have hd : bestCost (chain3Converged.getD []) "A" "C" = some 2 := by decide
  rw [hd] at h1
  cases h1
  have hw : Walk (chain3.getD []) "A" "C" 2 :=
    Walk.step (c := 1) (d := 1) (by decide : linkCost (chain3.getD []) "A" "B" = some 1)
      (Walk.step (c := 1) (d := 0) (by decide : linkCost (chain3.getD []) "B" "C" = some 1)
        (Walk.here "C"))
  exact ⟨hd, h3 ⟨2, hw⟩⟩

/-- C1, the claim as stated fails: with the single link line `A B 2147483647`
(a positive `int`) the initial run returns and the best route of `A` for `B`
costs `INT_MAX`, the value reported as unreachable, although `B` can be reached
from `A`. -/
theorem max_cost_link_reported_unreachable :
    readLinks [("A", "B", INT_MAX)] (readNodes ["A", "B"]) = some (linkedAB INT_MAX) ∧
    (distanceVector exactAdd 1 false (linkedAB INT_MAX)).map printRoutes
      = some [Route.unreachable "A" "B", Route.unreachable "B" "A"] ∧
    (distanceVector exactAdd 1 false (linkedAB INT_MAX)).map (fun final => bestCost final "A" "B")
      = some (some INT_MAX) ∧
    Reachable (linkedAB INT_MAX) "A" "B" :=
  ⟨by decide, by decide, by decide,
    ⟨_, Walk.step (by decide : linkCost (linkedAB INT_MAX) "A" "B" = some INT_MAX)
      (Walk.here "B")⟩⟩

theorem roundLoop_of_converged {plus : Int → Int → Int}
    {s : Nodes} (h : isConverged s = true) (fuel : Nat) :
    roundLoop plus fuel s = some s := by
  cases fuel <;> simp [roundLoop, h]

theorem isConverged_of_flags {s : Nodes} (hnd : (Map.keys s).Nodup)
    (h : ∀ k n, Map.find s k = some n → n.converged = true) : isConverged s = true := by
  unfold isConverged
  rw [List.all_eq_true]
  intro p hp
  exact h p.1 p.2 (Map.find_of_mem_nodup hnd hp)

theorem hasKey_setColumn (t : Table) (v y : String) (c : Int) :
    Map.hasKey (setColumn t v c) y = Map.hasKey t y := by
  unfold Map.hasKey
  rw [find_setColumn]
  cases Map.find t y <;> rfl

theorem tableInv_createLinkOn_remove {names : List String} {x : String} {n : Node}
    (b : String) (h : TableInv names x n.links n.table) :
    TableInv names x (createLinkOn n b (-1)).links (createLinkOn n b (-1)).table := by
  by_cases hk : Map.hasKey n.links b = true
  · obtain ⟨cb, hcb⟩ := (Map.hasKey_iff_find _ _).mp hk
    have hb : b ∈ names ∧ b ≠ x := h.row_of_cell (h.nb b cb hcb).1
    have hl : (createLinkOn n b (-1)).links = Map.erase n.links b := by
      simp [createLinkOn, hk]
    have htb : (createLinkOn n b (-1)).table = setColumn n.table b (-1) := by
      simp [createLinkOn, hk]
    rw [hl, htb]
    refine ⟨?_, ?_, ?_, ?_⟩
    · intro y
      rw [hasKey_setColumn]
      exact h.rows y
    · intro y row' hrow'
      rw [find_setColumn] at hrow'
      cases hrow : Map.find n.table y with
      | none => simp [hrow] at hrow'
      | some row =>
        simp only [hrow, Option.map_some', Option.some.injEq] at hrow'
        subst hrow'
        obtain ⟨h1, h2⟩ := h.cols y row hrow
        refine ⟨Map.nodup_keys_assign _ _ h1, fun w => ?_⟩
        rw [Map.hasKey_assign, ← h2 w]
        by_cases hw : w = b
        · subst hw
          simp [(h2 w).mpr hb]
        · simp [hw]
    · intro w c hw
      have hwb : w ≠ b := by
        intro hwb
        rw [hwb, Map.find_erase_self] at hw
        cases hw
      rw [Map.find_erase_ne _ hwb] at hw
      obtain ⟨h1, h2⟩ := h.nb w c hw
      refine ⟨by rw [cell_setColumn_ne _ _ _ hwb]; exact h1, fun y e he => ?_⟩
      rw [cell_setColumn_ne _ _ _ hwb] at he
      exact h2 y e he
    · intro w hw y e he
      by_cases hwb : w = b
      · subst hwb
        rw [cell_setColumn_self] at he
        cases hr : Map.find n.table y with
        | none => simp [hr] at he
        | some row =>
          simp only [hr, Option.map_some', Option.some.injEq] at he
          exact he.symm
      · rw [Map.find_erase_ne _ hwb] at hw
        rw [cell_setColumn_ne _ _ _ hwb] at he
        exact h.non_nb w hw y e he
  · have hn : Map.find n.links b = none := (Map.hasKey_false_iff _ _).mp (by simpa using hk)
    rw [createLinkOn_remove_absent hn]
    exact h

theorem Walk.closed {s : Nodes} (P : String → Prop)
    (hP : ∀ a b c, P a → linkCost s a b = some c → P b) {x y : String} {d : Int}
    (hw : Walk s x y d) (hx : P x) : P y := by
  induction hw with
  | here x => exact hx
  | step hl _ ih => exact ih (hP _ _ _ hx hl)

theorem linkCost_eq_links {s : Nodes} {a : String} {links : Map Int}
    (h : (Map.find s a).map (fun n => n.links) = some links) (b : String) :
    linkCost s a b = Map.find links b := by
  unfold linkCost
  cases hn : Map.find s a with
  | none => simp [hn] at h
  | some n =>
    simp only [hn, Option.map_some', Option.some.injEq] at h
    simp [h]


/-- C11, as amended: adding a new link. When `source` has no link to `dest` and
`c` is not `-1`, after `createLink(source, dest, c)` both `source.links[dest]`
and `source.table[dest][dest]` are `c`, and in every other row of `source.table`
the cell under `dest` holds `INT_MAX`: the column of the new neighbour is
reset, not the row. Every cell outside the column `dest`, the other cells of
the row `source.table[dest]` among them, and every other link stay as they
were. -/
theorem createLink_new_link (nodes : Nodes) (source dest : String) (src dst : Node) (c : Int)
    (hs : Map.find nodes source = some src) (hd : Map.find nodes dest = some dst)
    (hno : Map.find src.links dst.name = none) (hc : c ≠ -1) :
    ∃ nodes' src', createLink nodes source dest c = some nodes' ∧
      Map.find nodes' source = some src' ∧
      Map.find src'.links dst.name = some c ∧
      cell src'.table dst.name dst.name = some c ∧
      (∀ y, y ≠ dst.name → Map.hasKey src.table y = true →
        cell src'.table y dst.name = some INT_MAX) ∧
      (∀ y v, v ≠ dst.name → cell src'.table y v = cell src.table y v) ∧
      (∀ k, k ≠ dst.name → Map.find src'.links k = Map.find src.links k) := by
  have hk : Map.hasKey src.links dst.name = false := (Map.hasKey_false_iff _ _).mpr hno
  refine ⟨_, createLinkOn src dst.name c, createLink_some hs hd c, ?_, ?_, ?_, ?_, ?_, ?_⟩
  · rw [Map.find_replace_self, hs]; rfl
  · rw [createLinkOn_links_self]; simp [hc]
  · exact createLinkOn_cell_self src dst.name hc
  · intro y hy hrow
    obtain ⟨row, hrow⟩ := (Map.hasKey_iff_find _ _).mp hrow
    simp [createLinkOn, hk, hc, cell_setCell, hy, cell_setColumn_self, hrow]
  · intro y v hv
    simp [createLinkOn, hk, hc, cell_setCell, hv, cell_setColumn_ne _ _ _ hv]
  · intro k hk'
    exact createLinkOn_links_ne _ _ hk'

/-- An instance of `createLink_new_link`: node `A` of three fresh nodes with
initialised tables gets a link to `B`. -/
theorem createLink_new_link_witness :
    ∃ nodes' src', createLink fresh3 "A" "B" 4 = some nodes' ∧
      Map.find nodes' "A" = some src' ∧
      Map.find src'.links "B" = some 4 ∧
      cell src'.table "B" "B" = some 4 ∧
      (∀ y, y ≠ "B" → Map.hasKey [("B", [("B", (-1 : Int)), ("C", -1)]),
          ("C", [("B", -1), ("C", -1)])] y = true → cell src'.table y "B" = some INT_MAX) ∧
      (∀ y v, v ≠ "B" → cell src'.table y v
        = cell [("B", [("B", (-1 : Int)), ("C", -1)]), ("C", [("B", -1), ("C", -1)])] y v) ∧
      (∀ k, k ≠ "B" → Map.find src'.links k = Map.find ([] : Map Int) k) :=
  createLink_new_link fresh3 "A" "B"
    { name := "A", converged := false, links := [],
      table := [("B", [("B", -1), ("C", -1)]), ("C", [("B", -1), ("C", -1)])],
      table_prev := [] }
    { name := "B", converged := false, links := [],
      table := [("A", [("A", -1), ("C", -1)]), ("C", [("A", -1), ("C", -1)])],
      table_prev := [] }
    4 (by decide) (by decide) (by decide) (by decide)

/-- C11, the claim as stated fails: node `A` of the three fresh nodes `A`, `B`,
`C` has an initialised table and no link to `B`; after `createLink(A, B, 4)`
the row `A.table[B]` holds `4` under `B` and still `-1`, not `INT_MAX`, under
`C`, while the cell under `B` of the other row `A.table[C]` has become
`INT_MAX`. -/
theorem createLink_new_link_row_keeps_unset :
    (Map.find fresh3 "A").map (fun src => (Map.find src.links "B",
        [cell src.table "B" "B", cell src.table "B" "C",
         cell src.table "C" "B", cell src.table "C" "C"]))
      = some (none, [some (-1), some (-1), some (-1), some (-1)]) ∧
    ((createLink fresh3 "A" "B" 4).bind (fun nodes' => Map.find nodes' "A")).map
        (fun src' => (Map.find src'.links "B",
          [cell src'.table "B" "B", cell src'.table "B" "C",
           cell src'.table "C" "B", cell src'.table "C" "C"]))
      = some (some 4, [some 4, some (-1), some INT_MAX, some (-1)]) ∧
    (-1 : Int) ≠ INT_MAX := by
  decide


/-! ## The entry `getMin` returns is the first of the smallest -/

theorem getMin_fold_first (row : Row) (acc : String × Int) :
    row.foldl (fun acc entry =>
        if entry.2 < acc.2 ∧ entry.2 ≠ -1 then (entry.1, entry.2) else acc) acc = acc ∨
      ((row.foldl (fun acc entry =>
        if entry.2 < acc.2 ∧ entry.2 ≠ -1 then (entry.1, entry.2) else acc) acc).2 < acc.2 ∧
       (row.foldl (fun acc entry =>
        if entry.2 < acc.2 ∧ entry.2 ≠ -1 then (entry.1, entry.2) else acc) acc).2 ≠ -1 ∧
       ∃ pre post, row = pre ++ (row.foldl (fun acc entry =>
          if entry.2 < acc.2 ∧ entry.2 ≠ -1 then (entry.1, entry.2) else acc) acc) :: post ∧
        ∀ p ∈ pre, p.2 = -1 ∨ (row.foldl (fun acc entry =>
          if entry.2 < acc.2 ∧ entry.2 ≠ -1 then (entry.1, entry.2) else acc) acc).2 < p.2) := by
  induction row generalizing acc with
  | nil => left; rfl
  | cons q rest ih =>
    rw [List.foldl_cons]
    by_cases hq : q.2 < acc.2 ∧ q.2 ≠ -1
    · rw [if_pos hq]
      right
      rcases ih (q.1, q.2) with h | ⟨hlt, hne, pre, post, hrow, hpre⟩
      · rw [h]
        exact ⟨hq.1, hq.2, [], rest, rfl, by simp⟩
      · refine ⟨lt_trans hlt hq.1, hne, q :: pre, post, ?_, ?_⟩
        · rw [List.cons_append, ← hrow]
        · intro p hp
          rcases List.mem_cons.mp hp with h | h
          · right; rw [h]; exact hlt
          · exact hpre p h
    · rw [if_neg hq]
      rcases ih acc with h | ⟨hlt, hne, pre, post, hrow, hpre⟩
      · left; exact h
      · right
        refine ⟨hlt, hne, q :: pre, post, ?_, ?_⟩
        · rw [List.cons_append, ← hrow]
        · intro p hp
          rcases List.mem_cons.mp hp with h | h
          · rw [h]
            by_cases h1 : q.2 = -1
            · left; exact h1
            · right
              have : ¬ q.2 < acc.2 := fun h2 => hq ⟨h2, h1⟩
              exact lt_of_lt_of_le hlt (not_lt.mp this)
          · exact hpre p h

theorem getMin_first (row : Row) :
    getMin row = ("", INT_MAX) ∨
      ((getMin row).2 < INT_MAX ∧ (getMin row).2 ≠ -1 ∧
        ∃ pre post, row = pre ++ getMin row :: post ∧
          ∀ p ∈ pre, p.2 = -1 ∨ (getMin row).2 < p.2) :=
  getMin_fold_first row ("", INT_MAX)

/-- C15: what `getMin` returns. On a row of `int` entries: when some entry is
neither `-1` nor `INT_MAX`, the cost returned is the smallest such entry and the
via returned is the first key of the row, in iteration order, whose entry
equals that cost; when no entry is, `getMin` returns the empty string and
`INT_MAX`. The cost returned is never `-1`. -/
theorem getMin_first_smallest (row : Row) (hrange : RowInRange row) :
    ((∃ p ∈ row, p.2 ≠ -1 ∧ p.2 ≠ INT_MAX) →
      IsViableMin row (getMin row).2 ∧
      ∃ pre post, row = pre ++ getMin row :: post ∧ ∀ p ∈ pre, p.2 ≠ (getMin row).2) ∧
    (NoViable row → getMin row = ("", INT_MAX)) ∧
    (getMin row).2 ≠ -1 := by
  refine ⟨?_, ?_, ?_⟩
  · rintro ⟨p, hp, hp1, hp2⟩
    have hlt : p.2 < INT_MAX := lt_of_le_of_ne (hrange p hp) hp2
    have hle : (getMin row).2 ≤ p.2 := getMin_le hp hp1
    rcases getMin_first row with h | ⟨hm, hne, pre, post, hrow, hpre⟩
    · rw [h] at hle
      exact absurd (lt_of_le_of_lt hle hlt) (lt_irrefl _)
    · refine ⟨⟨⟨getMin row, ?_, rfl, hne, ne_of_lt hm⟩, ?_⟩, pre, post, hrow, ?_⟩
      · have h := List.mem_append_right pre (List.mem_cons_self (getMin row) post)
        rw [← hrow] at h
        exact h
      · intro q hq hq1 _
        exact getMin_le hq hq1
      · intro q hq
        rcases hpre q hq with h | h
        · rw [h]; exact fun h' => hne h'.symm
        · exact fun h' => absurd h (by rw [h']; exact lt_irrefl _)
  · intro hno
    rcases getMin_cases row with h | ⟨p, hp, _, hp1, hp2⟩
    · exact h
    · rcases hno p hp with h | h
      · exact absurd h hp1
      · exact absurd hp2 (by rw [h]; exact lt_irrefl _)
  · rcases getMin_cases row with h | ⟨p, _, hpe, hp1, _⟩
    · rw [h]; decide
    · rw [hpe]; exact hp1

/-- An instance of `getMin_first_smallest`: in the row with `-1` under `A`, `3`
under `B`, `3` under `C` and `INT_MAX` under `D`, the minimum is `3` by `B`. -/
theorem getMin_first_smallest_witness :
    getMin [("A", -1), ("B", 3), ("C", 3), ("D", INT_MAX)] = ("B", 3) ∧
    (((∃ p ∈ ([("A", -1), ("B", 3), ("C", 3), ("D", INT_MAX)] : Row), p.2 ≠ -1 ∧ p.2 ≠ INT_MAX) →
      IsViableMin [("A", -1), ("B", 3), ("C", 3), ("D", INT_MAX)]
          (getMin [("A", -1), ("B", 3), ("C", 3), ("D", INT_MAX)]).2 ∧
      ∃ pre post, ([("A", -1), ("B", 3), ("C", 3), ("D", INT_MAX)] : Row)
          = pre ++ getMin [("A", -1), ("B", 3), ("C", 3), ("D", INT_MAX)] :: post ∧
        ∀ p ∈ pre, p.2 ≠ (getMin [("A", -1), ("B", 3), ("C", 3), ("D", INT_MAX)]).2) ∧
    (NoViable [("A", -1), ("B", 3), ("C", 3), ("D", INT_MAX)] →
      getMin [("A", -1), ("B", 3), ("C", 3), ("D", INT_MAX)] = ("", INT_MAX)) ∧
    (getMin [("A", -1), ("B", 3), ("C", 3), ("D", INT_MAX)]).2 ≠ -1) :=
  ⟨by decide, getMin_first_smallest [("A", -1), ("B", 3), ("C", 3), ("D", INT_MAX)]
    (by unfold RowInRange; decide)⟩


/-! ## The table `initTable` builds -/

theorem hasKey_foldl_assign (links : Map Int) (val : String → Int → Int) (r : Row) (v : String) :
    Map.hasKey (links.foldl (fun r link => Map.assign r link.1 (val link.1 link.2)) r) v = true
      ↔ (Map.hasKey r v = true ∨ v ∈ Map.keys links) := by
  induction links generalizing r with
  | nil => simp [Map.keys]
  | cons a rest ih =>
    rw [List.foldl_cons, ih, Map.hasKey_assign]
    simp only [Map.keys, List.map_cons, List.mem_cons, Bool.or_eq_true, decide_eq_true_eq]
    tauto

theorem keys_map_values {α β : Type} (m : Map α) (g : String → α → β) :
    Map.keys (m.map (fun it => (it.1, g it.1 it.2))) = Map.keys m := by
  simp [Map.keys, List.map_map, Function.comp_def]

theorem foldl_by_keys {α β : Type} (f : β → String → β) (l : Map α) (acc : β) :
    l.foldl (fun t n => f t n.1) acc = (Map.keys l).foldl f acc := by
  unfold Map.keys
  rw [List.foldl_map]

theorem initRows_congr {nodes nodes' : Nodes} {nd nd' : Node}
    (hk : Map.keys nodes' = Map.keys nodes) (hn : nd'.name = nd.name) :
    initRows nodes' nd' = initRows nodes nd := by
  unfold initRows
  rw [foldl_by_keys (fun t k => if k ≠ nd'.name then Map.insert t k [] else t),
    foldl_by_keys (fun t k => if k ≠ nd.name then Map.insert t k [] else t), hk, hn]

theorem initRow_congr {nodes nodes' : Nodes} {nd nd' : Node} (d : String) (row : Row)
    (hk : Map.keys nodes' = Map.keys nodes) (hn : nd'.name = nd.name)
    (hl : nd'.links = nd.links) :
    initRow nodes' nd' d row = initRow nodes nd d row := by
  unfold initRow
  rw [foldl_by_keys (fun r k => if k ≠ nd'.name then Map.insert r k (-1) else r),
    foldl_by_keys (fun r k => if k ≠ nd.name then Map.insert r k (-1) else r), hk, hn, hl]

theorem fullShape_initTable {nodes : Nodes} {x : String} {nd : Node}
    (hname : nd.name = x)
    (hlinks : ∀ v, Map.hasKey nd.links v = true → Map.hasKey nodes v = true ∧ v ≠ x) :
    FullShape (Map.keys nodes) x
      ((initRows nodes nd).map (fun it => (it.1, initRow nodes nd it.1 it.2))) where
  nodup := by
    rw [keys_map_values (initRows nodes nd) (fun k r => initRow nodes nd k r)]
    unfold initRows
    exact nodup_keys_foldl_insert_default _ _ _ _ (by simp [Map.keys])
  rows := by
    intro y
    unfold Map.hasKey
    rw [find_initTable_row, hname]
    split_ifs with h <;> simp [h]
  cols := by
    intro y row hrow
    rw [find_initTable_row] at hrow
    split_ifs at hrow with hy
    cases hrow
    refine ⟨nodup_keys_initRow nodes nd y, fun v => ?_⟩
    unfold initRow
    rw [hasKey_foldl_assign nd.links (fun k c => if y = k then c else INT_MAX)]
    unfold Map.hasKey
    rw [find_foldl_insert_default]
    simp only [Map.find, hname]
    constructor
    · rintro (h | h)
      · split_ifs at h with h1
        · exact h1
        · simp at h
      · have := hlinks v ((Map.mem_keys_iff _ _).mp h)
        exact ⟨(Map.mem_keys_iff _ _).mpr this.1, this.2⟩
    · intro h
      left
      have h1 : v ∈ List.map Prod.fst nodes ∧ v ≠ x := h
      simp [h1]

/-- C16: the shape of the table after `initTable`. When the links of node `x`
only name other declared nodes, `initTable(x)` returns and leaves in `x.table`
exactly one row for every declared node other than `x` and no row for `x`, and
in every row exactly one cell for every declared node other than `x` (the
destination of the row among them) and no cell for `x`; the table built does not
depend on what `x.table` held before the call. -/
theorem initTable_full_shape (nodes : Nodes) (x : String) (nd : Node)
    (hx : Map.find nodes x = some nd) (hname : nd.name = x)
    (hlinks : ∀ v, Map.hasKey nd.links v = true → Map.hasKey nodes v = true ∧ v ≠ x) :
    ∃ nodes' nd', initTable nodes x = some nodes' ∧ Map.find nodes' x = some nd' ∧
      FullShape (Map.keys nodes) x nd'.table ∧
      ∀ t, initTable (Map.replace nodes x { nd with table := t }) x = some nodes' := by
  refine ⟨_, { nd with
      table := (initRows nodes nd).map (fun it => (it.1, initRow nodes nd it.1 it.2)) },
    initTable_eq hx, ?_, ?_, ?_⟩
  · rw [Map.find_replace_self, hx]; rfl
  · exact fullShape_initTable hname hlinks
  · intro t
    have hk : Map.keys (Map.replace nodes x { nd with table := t }) = Map.keys nodes :=
      Map.keys_replace _ _ _
    have hf : Map.find (Map.replace nodes x { nd with table := t }) x
        = some { nd with table := t } := by
      rw [Map.find_replace_self, hx]; rfl
    rw [initTable_eq hf, Map.replace_replace]
    have h1 : initRows (Map.replace nodes x { nd with table := t }) { nd with table := t }
        = initRows nodes nd := initRows_congr hk rfl
    have h2 : ∀ d row, initRow (Map.replace nodes x { nd with table := t })
        { nd with table := t } d row = initRow nodes nd d row :=
      fun d row => initRow_congr d row hk rfl rfl
    simp only [h1, h2]

/-- An instance of `initTable_full_shape`: node `B` of the chain `A - B - C`. -/
theorem initTable_full_shape_witness :
    ∃ nodes' nd', initTable (chain3.getD []) "B" = some nodes' ∧
      Map.find nodes' "B" = some nd' ∧
      FullShape (Map.keys (chain3.getD [])) "B" nd'.table ∧
      ∀ t, initTable (Map.replace (chain3.getD []) "B"
        { name := "B", converged := false, links := [("A", 1), ("C", 1)],
          table := t, table_prev := [] }) "B" = some nodes' :=
  initTable_full_shape (chain3.getD []) "B"
    { name := "B", converged := false, links := [("A", 1), ("C", 1)],
      table := [("A", [("A", 1), ("C", INT_MAX)]), ("C", [("C", 1)])], table_prev := [] }
    (by decide) (by decide)
    (by
      intro v hv
      have h : v = "A" ∨ v = "C" := by
        have := (Map.mem_keys_iff _ _).mpr hv
        simpa [Map.keys] using this
      rcases h with h | h <;> subst h <;> decide)

/-- C17: the values of the table after `initTable`. `initTable(x)` returns and
leaves the links of `x` as they were. For every registered destination `d` other
than `x` the cell `x.table[d][v]` exists and holds the link cost `x.links[v]`
when `v` is a neighbour of `x` and `v = d`, `INT_MAX` when `v` is a neighbour of
`x` and `v ≠ d`, and `-1` when `v` is a registered node other than `x` that is
not a neighbour of `x`. The table has no other cell: every cell it has holds one
of these three values, by the same cases. -/
theorem initTable_values (nodes : Nodes) (x : String) (nd : Node)
    (hx : Map.find nodes x = some nd) (hnodup : (Map.keys nd.links).Nodup) :
    ∃ nodes' nd', initTable nodes x = some nodes' ∧ Map.find nodes' x = some nd' ∧
      nd'.links = nd.links ∧
      (∀ d v c, Map.hasKey nodes d = true → d ≠ nd.name → Map.find nd.links v = some c →
        cell nd'.table d v = some (if v = d then c else INT_MAX)) ∧
      (∀ d v, Map.hasKey nodes d = true → d ≠ nd.name →
        Map.hasKey nodes v = true → v ≠ nd.name → Map.hasKey nd.links v = false →
        cell nd'.table d v = some (-1)) ∧
      ∀ d v e, cell nd'.table d v = some e →
        (Map.hasKey nodes d = true ∧ d ≠ nd.name) ∧
        (∀ c, Map.find nd.links v = some c → v = d → e = c) ∧
        (Map.hasKey nd.links v = true → v ≠ d → e = INT_MAX) ∧
        (Map.hasKey nd.links v = false → e = -1) := by
  have hcell : ∀ d v, cell ((initRows nodes nd).map
      (fun it => (it.1, initRow nodes nd it.1 it.2))) d v
      = if d ∈ Map.keys nodes ∧ d ≠ nd.name then
          (match Map.find nd.links v with
            | some c => some (if d = v then c else INT_MAX)
            | none => if v ∈ Map.keys nodes ∧ v ≠ nd.name then some (-1) else none)
        else none := by
    intro d v
    unfold cell
    rw [find_initTable_row]
    by_cases hd : d ∈ Map.keys nodes ∧ d ≠ nd.name
    · rw [if_pos hd, if_pos hd, Option.some_bind]
      exact (find_initRow nodes nd d v hnodup).trans (by cases Map.find nd.links v <;> rfl)
    · rw [if_neg hd, if_neg hd]
      rfl
  refine ⟨_, { nd with
      table := (initRows nodes nd).map (fun it => (it.1, initRow nodes nd it.1 it.2)) },
    initTable_eq hx, ?_, rfl, ?_, ?_, ?_⟩
  · rw [Map.find_replace_self, hx]; rfl
  · intro d v c hd hdn hc
    refine (hcell d v).trans ?_
    rw [if_pos ⟨(Map.mem_keys_iff nodes d).mpr hd, hdn⟩, hc]
    show some (if d = v then c else INT_MAX) = _
    by_cases hvd : v = d
    · rw [if_pos hvd, if_pos hvd.symm]
    · rw [if_neg hvd, if_neg (fun h => hvd h.symm)]
  · intro d v hd hdn hv hvn hk
    refine (hcell d v).trans ?_
    rw [if_pos ⟨(Map.mem_keys_iff nodes d).mpr hd, hdn⟩, (Map.hasKey_false_iff _ _).mp hk]
    simp only
    rw [if_pos ⟨(Map.mem_keys_iff nodes v).mpr hv, hvn⟩]
  · intro d v e he
    have hc := (hcell d v).symm.trans he
    by_cases hd : d ∈ Map.keys nodes ∧ d ≠ nd.name
    swap
    · rw [if_neg hd] at hc
      cases hc
    rw [if_pos hd] at hc
    clear he
    rename' hc => he
    refine ⟨⟨(Map.mem_keys_iff nodes d).mp hd.1, hd.2⟩, ?_, ?_, ?_⟩
    · intro c hc hvd
      rw [hc] at he
      simp only [Option.some.injEq] at he
      rw [← he, if_pos hvd.symm]
    · intro hk hvd
      obtain ⟨c, hc⟩ := (Map.hasKey_iff_find _ _).mp hk
      rw [hc] at he
      simp only [Option.some.injEq] at he
      rw [← he, if_neg (fun h => hvd h.symm)]
    · intro hk
      rw [(Map.hasKey_false_iff _ _).mp hk] at he
      simp only at he
      split_ifs at he
      simp only [Option.some.injEq] at he
      exact he.symm

/-- An instance of `initTable_values`: node `A` of the chain `A - B - C`, whose
only neighbour is `B`. The table built is row `B` with `1` via `B` and `-1` via
`C`, and row `C` with `INT_MAX` via `B` and `-1` via `C`. -/
theorem initTable_values_witness :
    (∃ nodes' nd', initTable (chain3.getD []) "A" = some nodes' ∧
      Map.find nodes' "A" = some nd' ∧
      nd'.links = [("B", 1)] ∧
      (∀ d v c, Map.hasKey (chain3.getD []) d = true → d ≠ "A" →
        Map.find [("B", (1 : Int))] v = some c →
        cell nd'.table d v = some (if v = d then c else INT_MAX)) ∧
      (∀ d v, Map.hasKey (chain3.getD []) d = true → d ≠ "A" →
        Map.hasKey (chain3.getD []) v = true → v ≠ "A" →
        Map.hasKey [("B", (1 : Int))] v = false →
        cell nd'.table d v = some (-1)) ∧
      ∀ d v e, cell nd'.table d v = some e →
        (Map.hasKey (chain3.getD []) d = true ∧ d ≠ "A") ∧
        (∀ c, Map.find [("B", (1 : Int))] v = some c → v = d → e = c) ∧
        (Map.hasKey [("B", (1 : Int))] v = true → v ≠ d → e = INT_MAX) ∧
        (Map.hasKey [("B", (1 : Int))] v = false → e = -1)) ∧
    ((initTable (chain3.getD []) "A").bind (fun s => Map.find s "A")).map (fun n => n.table)
      = some [("B", [("B", 1), ("C", -1)]), ("C", [("B", INT_MAX), ("C", -1)])] :=
  ⟨initTable_values (chain3.getD []) "A"
    { name := "A", converged := false, links := [("B", 1)],
      table := [("B", [("B", 1)])], table_prev := [] }
    (by decide) (by decide), by decide⟩


/-! ## Tables of full shape under `updateTable` -/

theorem cell_eq_some {t : Table} {y v : String} {e : Int} (h : cell t y v = some e) :
    ∃ row, Map.find t y = some row ∧ Map.find row v = some e := by
  unfold cell at h
  cases hr : Map.find t y with
  | none => simp [hr] at h
  | some row => exact ⟨row, rfl, by simpa [hr] using h⟩

theorem cell_of_find {t : Table} {y v : String} {row : Row} (h : Map.find t y = some row) :
    cell t y v = Map.find row v := by
  simp [cell, h]

theorem keys_assign_of_hasKey {α : Type} {m : Map α} {k : String}
    (h : Map.hasKey m k = true) (v : α) : Map.keys (Map.assign m k v) = Map.keys m := by
  rw [Map.assign_of_hasKey h, Map.keys_replace]

theorem keys_setCell_of_cell {t : Table} {y v : String} {e : Int} (hc : cell t y v = some e)
    (d : Int) : Map.keys (setCell t y v d) = Map.keys t := by
  obtain ⟨row, hr, _⟩ := cell_eq_some hc
  unfold setCell
  exact keys_assign_of_hasKey ((Map.hasKey_iff_find _ _).mpr ⟨row, hr⟩) _

theorem row_keys_setCell_of_cell {t : Table} {y v : String} {e : Int}
    (hc : cell t y v = some e) (d : Int) (k : String) :
    (Map.find (setCell t y v d) k).map Map.keys = (Map.find t k).map Map.keys := by
  obtain ⟨row, hr, hv⟩ := cell_eq_some hc
  by_cases hk : k = y
  · subst hk
    rw [find_setCell_self_of_cell hr, hr]
    simp only [Option.map_some']
    rw [keys_assign_of_hasKey ((Map.hasKey_iff_find _ _).mpr ⟨e, hv⟩)]
  · rw [find_setCell_ne _ _ _ hk]

theorem fullShape_setCell {names : List String} {x : String} {t : Table} {y v : String}
    {e : Int} (h : FullShape names x t) (hc : cell t y v = some e) (d : Int) :
    FullShape names x (setCell t y v d) where
  nodup := by rw [keys_setCell_of_cell hc]; exact h.nodup
  rows := by
    intro k
    rw [hasKey_setCell_of_cell hc]
    exact h.rows k
  cols := by
    intro k row hrow
    obtain ⟨row0, hr, hv⟩ := cell_eq_some hc
    by_cases hk : k = y
    · subst hk
      rw [find_setCell_self_of_cell hr] at hrow
      cases hrow
      have hkeys := keys_assign_of_hasKey ((Map.hasKey_iff_find _ _).mpr ⟨e, hv⟩) d
      refine ⟨by rw [hkeys]; exact (h.cols k row0 hr).1, fun w => ?_⟩
      rw [← Map.mem_keys_iff, hkeys, Map.mem_keys_iff]
      exact (h.cols k row0 hr).2 w
    · rw [find_setCell_ne _ _ _ hk] at hrow
      exact h.cols k row hrow

theorem FullShape.cell_keys {names : List String} {x : String} {t : Table} {y v : String}
    {e : Int} (h : FullShape names x t) (hc : cell t y v = some e) :
    (y ∈ names ∧ y ≠ x) ∧ (v ∈ names ∧ v ≠ x) := by
  obtain ⟨row, hr, hv⟩ := cell_eq_some hc
  exact ⟨(h.rows y).mp ((Map.hasKey_iff_find _ _).mpr ⟨row, hr⟩),
    ((h.cols y row hr).2 v).mp ((Map.hasKey_iff_find _ _).mpr ⟨e, hv⟩)⟩

theorem FullShape.cell_some {names : List String} {x : String} {t : Table} {y v : String}
    (h : FullShape names x t) (hy : y ∈ names ∧ y ≠ x) (hv : v ∈ names ∧ v ≠ x) :
    ∃ e, cell t y v = some e := by
  obtain ⟨row, hr⟩ := (Map.hasKey_iff_find _ _).mp ((h.rows y).mpr hy)
  obtain ⟨e, he⟩ := (Map.hasKey_iff_find _ _).mp (((h.cols y row hr).2 v).mpr hv)
  exact ⟨e, by rw [cell_of_find hr, he]⟩

theorem FullShape.no_empty_via {names : List String} {x : String} {t : Table}
    (h : FullShape names x t) (h0 : "" ∉ names) {y : String} {row : Row}
    (hrow : Map.find t y = some row) : "" ∉ Map.keys row := by
  intro hmem
  exact h0 (((h.cols y row hrow).2 "").mp ((Map.mem_keys_iff _ _).mp hmem)).1

theorem Shaped.reads {names : List String} {s : Nodes} {x y v : String} {n : Node} {e : Int}
    (hs : Shaped names s) (hx : Map.find s x = some n) (he : cell n.table y v = some e)
    (hyv : y ≠ v) :
    ∃ nv rowp c, Map.find s v = some nv ∧ Map.find nv.table_prev y = some rowp ∧
      cell n.table v v = some c ∧ "" ∉ Map.keys rowp := by
  obtain ⟨hy, hv⟩ := (hs.table x n hx).cell_keys he
  obtain ⟨nv, hnv⟩ := (Map.hasKey_iff_find _ _).mp ((hs.declared v).mpr hv.1)
  obtain ⟨rowp, hrowp⟩ := (Map.hasKey_iff_find _ _).mp
    (((hs.prev v nv hnv).rows y).mpr ⟨hy.1, hyv⟩)
  obtain ⟨c, hc⟩ := (hs.table x n hx).cell_some hv hv
  exact ⟨nv, rowp, c, hnv, hrowp, hc, (hs.prev v nv hnv).no_empty_via hs.no_empty hrowp⟩

theorem shaped_replace {names : List String} {s : Nodes} {x : String} {n n1 : Node}
    (hs : Shaped names s) (hx : Map.find s x = some n)
    (ht : FullShape names x n1.table) (hp : n1.table_prev = n.table_prev) :
    Shaped names (Map.replace s x n1) where
  no_empty := hs.no_empty
  declared := by
    intro k
    rw [Map.hasKey_replace]
    exact hs.declared k
  table := by
    intro k m hk
    by_cases hkx : k = x
    · subst hkx
      rw [Map.find_replace_self, hx] at hk
      cases hk
      exact ht
    · rw [Map.find_replace_ne _ _ hkx] at hk
      exact hs.table k m hk
  prev := by
    intro k m hk
    by_cases hkx : k = x
    · subst hkx
      rw [Map.find_replace_self, hx] at hk
      cases hk
      rw [hp]
      exact hs.prev k n hx
    · rw [Map.find_replace_ne _ _ hkx] at hk
      exact hs.prev k m hk

theorem prevRow_replace {s : Nodes} {x : String} {n n1 : Node}
    (hx : Map.find s x = some n) (hp : n1.table_prev = n.table_prev) (v y : String) :
    prevRow (Map.replace s x n1) v y = prevRow s v y := by
  unfold prevRow
  by_cases hv : v = x
  · subst hv
    rw [Map.find_replace_self, hx]
    simp [hp]
  · rw [Map.find_replace_ne _ _ hv]

theorem relaxValue_congr {plus : Int → Int → Int}
    {rows rows' : String → String → Option Row} {t t' : Table}
    (hr : ∀ v y, rows' v y = rows v y) (ht : ∀ v, cell t' v v = cell t v v)
    (y v : String) (e : Int) : relaxValue plus rows' t' y v e = relaxValue plus rows t y v e := by
  unfold relaxValue
  rw [hr, ht]


/-! ## One entry of `updateTable` on tables of full shape -/

theorem relaxValue_skip {plus : Int → Int → Int}
    {rows : String → String → Option Row} {t : Table} {y v : String}
    {e : Int} (h : ¬ (y ≠ v ∧ e ≠ -1)) : relaxValue plus rows t y v e = e := by
  unfold relaxValue
  rw [if_neg h]

theorem relaxValue_none {plus : Int → Int → Int}
    {rows : String → String → Option Row} {t : Table} {y v : String}
    {e : Int} {rowp : Row} (h : y ≠ v ∧ e ≠ -1) (hr : rows v y = some rowp)
    (hvia : (getMin rowp).1 = "") : relaxValue plus rows t y v e = INT_MAX := by
  unfold relaxValue
  rw [if_pos h, hr, Option.getD_some, if_pos hvia]

theorem relaxValue_some {plus : Int → Int → Int}
    {rows : String → String → Option Row} {t : Table} {y v : String}
    {e c : Int} {rowp : Row} (h : y ≠ v ∧ e ≠ -1) (hr : rows v y = some rowp)
    (hvia : (getMin rowp).1 ≠ "") (hc : cell t v v = some c) :
    relaxValue plus rows t y v e = plus c (getMin rowp).2 := by
  unfold relaxValue
  rw [if_pos h, hr, Option.getD_some, if_neg hvia, hc, Option.getD_some]

theorem updateEntry_shaped (plus : Int → Int → Int)
    {names : List String} {s : Nodes} {x : String} {n : Node}
    (y v : String) (hs : Shaped names s) (hx : Map.find s x = some n) :
    ∃ n1, updateEntry plus s x y v = some (Map.replace s x n1) ∧
      n1.name = n.name ∧ n1.links = n.links ∧ n1.table_prev = n.table_prev ∧
      FullShape names x n1.table ∧ Map.keys n1.table = Map.keys n.table ∧
      (∀ k, (Map.find n1.table k).map Map.keys = (Map.find n.table k).map Map.keys) ∧
      (∀ y' v', cell n1.table y' v' = if y' = y ∧ v' = v
        then (cell n.table y v).map (relaxValue plus (prevRow s) n.table y v)
        else cell n.table y' v') ∧
      (n1.converged = true ↔ n.converged = true ∧
        ∀ e, cell n.table y v = some e → y ≠ v → e ≠ -1 →
          ∃ row c, prevRow s v y = some row ∧ (getMin row).1 ≠ "" ∧
            cell n.table v v = some c ∧ e = plus c (getMin row).2) := by
  have hkeep : ∀ e, cell n.table y v = some e → relaxValue plus (prevRow s) n.table y v e = e →
      ∀ y' v', cell n.table y' v' = if y' = y ∧ v' = v
        then (cell n.table y v).map (relaxValue plus (prevRow s) n.table y v)
        else cell n.table y' v' := by
    intro e he hval y' v'
    split_ifs with h
    · rw [h.1, h.2, he, Option.map_some', hval]
    · rfl
  have hset : ∀ e d, cell n.table y v = some e → relaxValue plus (prevRow s) n.table y v e = d →
      ∀ y' v', cell (setCell n.table y v d) y' v' = if y' = y ∧ v' = v
        then (cell n.table y v).map (relaxValue plus (prevRow s) n.table y v)
        else cell n.table y' v' := by
    intro e d he hval y' v'
    rw [cell_setCell, he, Option.map_some', hval]
  cases he : cell n.table y v with
  | none =>
    refine ⟨n, ?_, rfl, rfl, rfl, hs.table x n hx, rfl, fun _ => rfl, ?_, ?_⟩
    · rw [Map.replace_of_find hx]
      exact updateEntry_skip hx (fun e h => by rw [he] at h; cases h)
    · intro y' v'
      split_ifs with h
      · rw [h.1, h.2, he]; rfl
      · rfl
    · constructor
      · intro h
        exact ⟨h, fun e h' => by cases h'⟩
      · exact fun h => h.1
  | some e =>
    by_cases hcons : y ≠ v ∧ e ≠ -1
    swap
    · refine ⟨n, ?_, rfl, rfl, rfl, hs.table x n hx, rfl, fun _ => rfl, ?_, ?_⟩
      · rw [Map.replace_of_find hx]
        refine updateEntry_skip hx (fun e' h => ?_)
        rw [he] at h
        cases h
        by_contra hc
        push_neg at hc
        exact hcons hc
      · exact he ▸ hkeep e he (relaxValue_skip hcons)
      · constructor
        · intro h
          refine ⟨h, fun e' h' h1 h2 => ?_⟩
          cases h'
          exact absurd ⟨h1, h2⟩ hcons
        · exact fun h => h.1
    obtain ⟨nv, rowp, c, hnv, hrowp, hc, _⟩ := hs.reads hx he hcons.1
    have hprev : prevRow s v y = some rowp := by simp [prevRow, hnv, hrowp]
    have heq := @updateEntry_eq plus _ _ _ _ _ _ _ _ _ hx he hcons.1 hcons.2 hnv hrowp hc
    by_cases hvia : (getMin rowp).1 = ""
    · rw [if_pos hvia] at heq
      refine ⟨_, heq, rfl, rfl, rfl, fullShape_setCell (hs.table x n hx) he _,
        keys_setCell_of_cell he _, row_keys_setCell_of_cell he _, ?_, ?_⟩
      · exact he ▸ hset e INT_MAX he (relaxValue_none hcons hprev hvia)
      · constructor
        · intro h
          cases h
        · rintro ⟨_, h⟩
          obtain ⟨row, _, hr, hv, _⟩ := h e rfl hcons.1 hcons.2
          rw [hprev] at hr
          cases hr
          exact absurd hvia hv
    · rw [if_neg hvia] at heq
      by_cases hd : plus c (getMin rowp).2 ≠ e
      · rw [if_pos hd] at heq
        refine ⟨_, heq, rfl, rfl, rfl, fullShape_setCell (hs.table x n hx) he _,
          keys_setCell_of_cell he _, row_keys_setCell_of_cell he _, ?_, ?_⟩
        · exact he ▸ hset e _ he (relaxValue_some hcons hprev hvia hc)
        · constructor
          · intro h
            cases h
          · rintro ⟨_, h⟩
            obtain ⟨row, c', hr, _, hc', hee⟩ := h e rfl hcons.1 hcons.2
            rw [hprev] at hr
            cases hr
            rw [hc] at hc'
            cases hc'
            exact absurd hee.symm hd
      · rw [if_neg hd] at heq
        push_neg at hd
        refine ⟨n, ?_, rfl, rfl, rfl, hs.table x n hx, rfl, fun _ => rfl, ?_, ?_⟩
        · rw [Map.replace_of_find hx]
          exact heq
        · refine he ▸ hkeep e he ?_
          rw [relaxValue_some hcons hprev hvia hc, hd]
        · constructor
          · intro h
            refine ⟨h, fun e' h' _ _ => ?_⟩
            cases h'
            exact ⟨rowp, c, hprev, hvia, hc, hd.symm⟩
          · exact fun h => h.1


/-! ## The cells `updateTable` visits -/

theorem visits_cons (p : String × Row) (rest : Table) :
    visits (p :: rest) = p.2.map (fun entry => (p.1, entry.1)) ++ visits rest := by
  simp [visits]

theorem fst_mem_keys_of_mem_visits {t : Table} {q : String × String} (h : q ∈ visits t) :
    q.1 ∈ Map.keys t := by
  induction t with
  | nil => simp [visits] at h
  | cons p rest ih =>
    rw [visits_cons, List.mem_append] at h
    simp only [Map.keys, List.map_cons, List.mem_cons]
    rcases h with h | h
    · left
      obtain ⟨entry, _, he⟩ := List.mem_map.mp h
      rw [← he]
    · right
      exact ih h

theorem nodup_visits (t : Table) (h1 : (Map.keys t).Nodup)
    (h2 : ∀ p ∈ t, (Map.keys p.2).Nodup) : (visits t).Nodup := by
  induction t with
  | nil => simp [visits]
  | cons p rest ih =>
    simp only [Map.keys, List.map_cons, List.nodup_cons] at h1
    rw [visits_cons, List.nodup_append]
    refine ⟨?_, ih h1.2 (fun q hq => h2 q (List.mem_cons_of_mem _ hq)), ?_⟩
    · have hk : (Map.keys p.2).Nodup := h2 p (List.mem_cons_self _ _)
      have hmap : p.2.map (fun entry => (p.1, entry.1))
          = (Map.keys p.2).map (fun k => (p.1, k)) := by
        simp [Map.keys, List.map_map, Function.comp_def]
      rw [hmap]
      exact hk.map (fun a b hab => (Prod.mk.inj hab).2)
    · intro q hq1 hq2
      obtain ⟨entry, _, he⟩ := List.mem_map.mp hq1
      have := fst_mem_keys_of_mem_visits hq2
      rw [← he] at this
      exact h1.1 this

theorem FullShape.visits_nodup {names : List String} {x : String} {t : Table}
    (h : FullShape names x t) : (visits t).Nodup :=
  DistanceVector.nodup_visits t h.nodup
    (fun p hp => (h.cols p.1 p.2 (Map.find_of_mem_nodup h.nodup hp)).1)

theorem cell_of_mem_visits {t : Table} {y v : String} (h : (y, v) ∈ visits t) :
    ∃ p ∈ t, p.1 = y ∧ v ∈ Map.keys p.2 := by
  unfold visits at h
  rw [List.mem_flatten] at h
  obtain ⟨l, hl, hm⟩ := h
  obtain ⟨p, hp, rfl⟩ := List.mem_map.mp hl
  obtain ⟨entry, hen, heq⟩ := List.mem_map.mp hm
  cases heq
  exact ⟨p, hp, rfl, List.mem_map_of_mem Prod.fst hen⟩

theorem map_relaxValue_diag (plus : Int → Int → Int)
    (rows : String → String → Option Row) (t t' : Table) (v : String) :
    (cell t' v v).map (relaxValue plus rows t v v) = cell t' v v := by
  cases cell t' v v with
  | none => rfl
  | some e =>
    rw [Option.map_some', relaxValue_skip (fun h => h.1 rfl)]

theorem visitAll_shaped (plus : Int → Int → Int)
    {names : List String} {x : String}
    (rows : String → String → Option Row) (t0 : Table) (l : List (String × String))
    (hl : l.Nodup) {s : Nodes} {n : Node} (hs : Shaped names s) (hx : Map.find s x = some n)
    (hrows : ∀ v y, prevRow s v y = rows v y) (hdiag : ∀ v, cell n.table v v = cell t0 v v) :
    ∃ n1, visitAll plus x l s = some (Map.replace s x n1) ∧
      n1.name = n.name ∧ n1.links = n.links ∧ n1.table_prev = n.table_prev ∧
      FullShape names x n1.table ∧ Map.keys n1.table = Map.keys n.table ∧
      (∀ k, (Map.find n1.table k).map Map.keys = (Map.find n.table k).map Map.keys) ∧
      (∀ y v, cell n1.table y v = if (y, v) ∈ l
        then (cell n.table y v).map (relaxValue plus rows t0 y v) else cell n.table y v) ∧
      (n1.converged = true ↔ n.converged = true ∧
        ∀ p ∈ l, ∀ e, cell n.table p.1 p.2 = some e → p.1 ≠ p.2 → e ≠ -1 →
          ∃ row c, rows p.2 p.1 = some row ∧ (getMin row).1 ≠ "" ∧
            cell t0 p.2 p.2 = some c ∧ e = plus c (getMin row).2) := by
  induction l generalizing s n with
  | nil =>
    refine ⟨n, ?_, rfl, rfl, rfl, hs.table x n hx, rfl, fun _ => rfl, fun _ _ => ?_, ?_⟩
    · rw [Map.replace_of_find hx]; rfl
    · simp
    · simp
  | cons p rest ih =>
    obtain ⟨hp, hrest⟩ := List.nodup_cons.mp hl
    obtain ⟨n1, hstep, h1, h2, h3, h4, h5, h6, h7, h8⟩ := updateEntry_shaped plus p.1 p.2 hs hx
    have hR : ∀ e, relaxValue plus (prevRow s) n.table p.1 p.2 e = relaxValue plus rows t0 p.1 p.2 e :=
      fun e => relaxValue_congr hrows hdiag p.1 p.2 e
    have hx1 : Map.find (Map.replace s x n1) x = some n1 := by
      rw [Map.find_replace_self, hx]; rfl
    have hdiag1 : ∀ v, cell n1.table v v = cell t0 v v := by
      intro v
      rw [h7, ← hdiag]
      split_ifs with h
      · rw [← h.1, ← h.2]
        exact map_relaxValue_diag plus _ _ _ _
      · rfl
    obtain ⟨n2, hvis, g1, g2, g3, g4, g5, g6, g7, g8⟩ :=
      ih hrest (shaped_replace hs hx h4 h3) hx1
        (fun v y => (prevRow_replace hx h3 v y).trans (hrows v y)) hdiag1
    refine ⟨n2, ?_, g1.trans h1, g2.trans h2, g3.trans h3, g4, g5.trans h5,
      fun k => (g6 k).trans (h6 k), ?_, ?_⟩
    · simp only [visitAll]
      rw [hstep, Option.some_bind, hvis, Map.replace_replace]
    · intro y v
      rw [g7, h7]
      by_cases hyv : (y, v) = p
      · subst hyv
        simp only [and_self, if_true, List.mem_cons, true_or]
        rw [if_neg hp]
        congr 1
        funext e
        exact hR e
      · have hne : ¬ (y = p.1 ∧ v = p.2) := fun h => hyv (Prod.ext h.1 h.2)
        rw [if_neg hne]
        have hmem : (y, v) ∈ p :: rest ↔ (y, v) ∈ rest := by
          simp [hyv]
        by_cases hin : (y, v) ∈ rest
        · rw [if_pos hin, if_pos (hmem.mpr hin)]
        · rw [if_neg hin, if_neg (fun h => hin (hmem.mp h))]
    · rw [g8, h8]
      have hcell : ∀ q ∈ rest, cell n1.table q.1 q.2 = cell n.table q.1 q.2 := by
        intro q hq
        rw [h7, if_neg]
        intro h
        exact hp (by rw [show p = q from (Prod.ext h.1 h.2).symm]; exact hq)
      constructor
      · rintro ⟨⟨hc, hthis⟩, hothers⟩
        refine ⟨hc, fun q hq e he hq1 hq2 => ?_⟩
        rcases List.mem_cons.mp hq with h | h
        · subst h
          obtain ⟨row, c, hr, hv, hcc, hee⟩ := hthis e he hq1 hq2
          exact ⟨row, c, by rw [← hrows]; exact hr, hv, by rw [← hdiag]; exact hcc, hee⟩
        · exact hothers q h e (by rw [hcell q h]; exact he) hq1 hq2
      · rintro ⟨hc, hall⟩
        refine ⟨⟨hc, fun e he hq1 hq2 => ?_⟩, fun q hq e he hq1 hq2 => ?_⟩
        · obtain ⟨row, c, hr, hv, hcc, hee⟩ := hall p (List.mem_cons_self _ _) e he hq1 hq2
          exact ⟨row, c, by rw [hrows]; exact hr, hv, by rw [hdiag]; exact hcc, hee⟩
        · exact hall q (List.mem_cons_of_mem _ hq) e (by rw [← hcell q hq]; exact he) hq1 hq2


/-! ## `updateTable` in closed form -/

theorem updateTable_relaxed (plus : Int → Int → Int)
    {names : List String} {s : Nodes} {x : String} {n : Node}
    (hs : Shaped names s) (hx : Map.find s x = some n) :
    ∃ n1, updateTable plus s x = some (Map.replace s x n1) ∧ Relaxed plus (prevRow s) n n1 ∧
      FullShape names x n1.table := by
  have hx0 : Map.find (Map.replace s x { n with converged := true }) x
      = some { n with converged := true } := by
    rw [Map.find_replace_self, hx]; rfl
  have hs0 : Shaped names (Map.replace s x { n with converged := true }) :=
    shaped_replace hs hx (hs.table x n hx) rfl
  obtain ⟨n1, h0, h1, h2, h3, h4, h5, h6, h7, h8⟩ :=
    visitAll_shaped plus (prevRow s) n.table (visits n.table) (hs.table x n hx).visits_nodup hs0 hx0
      (fun v y => @prevRow_replace s x n { n with converged := true } hx rfl v y) (fun _ => rfl)
  refine ⟨n1, ?_, ⟨h1, h2, h3, h5, h6, ?_, ?_⟩, h4⟩
  · simp only [updateTable, hx]
    rw [h0, Map.replace_replace]
  · intro y v
    rw [h7]
    split_ifs with h
    · rfl
    · cases hc : cell n.table y v with
      | none => rfl
      | some e => exact absurd (mem_visits hc) h
  · rw [h8]
    constructor
    · rintro ⟨_, h⟩ y v e he hyv he1
      exact h (y, v) (mem_visits he) e he hyv he1
    · intro h
      exact ⟨rfl, fun p _ e he h1 h2 => h p.1 p.2 e he h1 h2⟩

theorem forNodes_updateTable_relaxed (plus : Int → Int → Int)
    {names : List String} (ks : List String) {s : Nodes}
    (hs : Shaped names s) (hnd : ks.Nodup) (hks : ∀ k ∈ ks, Map.hasKey s k = true) :
    ∃ s', forNodes (updateTable plus) ks s = some s' ∧ Shaped names s' ∧ SamePrev s s' ∧
      (∀ k, k ∉ ks → Map.find s' k = Map.find s k) ∧
      ∀ x ∈ ks, ∀ n, Map.find s x = some n →
        ∃ n1, Map.find s' x = some n1 ∧ Relaxed plus (prevRow s) n n1 := by
  induction ks generalizing s with
  | nil =>
    exact ⟨s, rfl, hs, SamePrev.same s, fun _ _ => rfl, fun x hx => absurd hx (List.not_mem_nil x)⟩
  | cons k rest ih =>
    obtain ⟨hk, hrest⟩ := List.nodup_cons.mp hnd
    obtain ⟨n, hn⟩ := (Map.hasKey_iff_find _ _).mp (hks k (List.mem_cons_self _ _))
    obtain ⟨n1, h1, h2, h3⟩ := updateTable_relaxed plus hs hn
    have hs1 : Shaped names (Map.replace s k n1) := shaped_replace hs hn h3 h2.table_prev
    have hsp : SamePrev s (Map.replace s k n1) :=
      samePrev_replace hn h2.name h2.links h2.table_prev
    have hks1 : ∀ j ∈ rest, Map.hasKey (Map.replace s k n1) j = true := by
      intro j hj
      rw [Map.hasKey_replace]
      exact hks j (List.mem_cons_of_mem _ hj)
    obtain ⟨s', g1, g2, g3, g4, g5⟩ := ih hs1 hrest hks1
    refine ⟨s', ?_, g2, hsp.andThen g3, ?_, ?_⟩
    · simp only [forNodes, h1, Option.some_bind]
      exact g1
    · intro j hj
      rw [g4 j (fun h => hj (List.mem_cons_of_mem _ h)),
        Map.find_replace_ne _ _ (fun h => hj (by rw [h]; exact List.mem_cons_self _ _))]
    · intro x hx m hm
      rcases List.mem_cons.mp hx with h | h
      · subst h
        rw [hn] at hm
        cases hm
        refine ⟨n1, ?_, h2⟩
        rw [g4 x hk, Map.find_replace_self, hn]
        rfl
      · have hxk : x ≠ k := fun h' => hk (h' ▸ h)
        obtain ⟨m1, hm1, hr⟩ := g5 x h m (by rw [Map.find_replace_ne _ _ hxk]; exact hm)
        refine ⟨m1, hm1, ?_⟩
        have hrows : prevRow (Map.replace s k n1) = prevRow s := by
          funext v y
          exact prevRow_replace hn h2.table_prev v y
        rw [hrows] at hr
        exact hr


/-! ## Two maps with the same keys and the same values are equal -/

theorem Map.ext_of_find {α : Type} {m m' : Map α} (hk : Map.keys m' = Map.keys m)
    (hn : (Map.keys m).Nodup) (hf : ∀ k, Map.find m' k = Map.find m k) : m' = m := by
  induction m generalizing m' with
  | nil =>
    cases m' with
    | nil => rfl
    | cons p rest => simp [Map.keys] at hk
  | cons p rest ih =>
    cases m' with
    | nil => simp [Map.keys] at hk
    | cons q rest' =>
      simp only [Map.keys, List.map_cons, List.cons.injEq] at hk
      simp only [Map.keys, List.map_cons, List.nodup_cons] at hn
      obtain ⟨qk, qv⟩ := q
      obtain ⟨pk, pv⟩ := p
      obtain ⟨hk1, hk2⟩ := hk
      simp only at hk1
      subst hk1
      have h1 := hf qk
      simp only [Map.find, if_true, Option.some.injEq] at h1
      subst h1
      have hrest : rest' = rest := by
        refine ih hk2 hn.2 (fun k => ?_)
        by_cases hkq : qk = k
        · subst hkq
          have a1 : Map.find rest qk = none := by
            rw [← Map.hasKey_false_iff]
            cases h : Map.hasKey rest qk with
            | false => rfl
            | true => exact absurd ((Map.mem_keys_iff _ _).mpr h) hn.1
          have a2 : Map.find rest' qk = none := by
            rw [← Map.hasKey_false_iff]
            cases h : Map.hasKey rest' qk with
            | false => rfl
            | true =>
              have := (Map.mem_keys_iff _ _).mpr h
              rw [show Map.keys rest' = Map.keys rest from hk2] at this
              exact absurd this hn.1
          rw [a1, a2]
        · have := hf k
          simpa [Map.find, hkq] using this
      rw [hrest]

theorem table_ext {names : List String} {x : String} {t t' : Table}
    (hs : FullShape names x t) (hk : Map.keys t' = Map.keys t)
    (hr : ∀ y, (Map.find t' y).map Map.keys = (Map.find t y).map Map.keys)
    (hc : ∀ y v, cell t' y v = cell t y v) : t' = t := by
  refine Map.ext_of_find hk hs.nodup (fun y => ?_)
  have h1 := hr y
  cases hy : Map.find t y with
  | none =>
    rw [hy] at h1
    cases hy' : Map.find t' y with
    | none => rfl
    | some row' => simp [hy'] at h1
  | some row =>
    rw [hy] at h1
    cases hy' : Map.find t' y with
    | none => simp [hy'] at h1
    | some row' =>
      simp only [hy', Option.map_some', Option.some.injEq] at h1
      congr 1
      refine Map.ext_of_find h1 (hs.cols y row hy).1 (fun v => ?_)
      have := hc y v
      rwa [cell_of_find hy', cell_of_find hy] at this

theorem Relaxed.unique {plus : Int → Int → Int} {names : List String} {x : String}
    {rows : String → String → Option Row} {n n1 n2 : Node}
    (h1 : Relaxed plus rows n n1) (h2 : Relaxed plus rows n n2) (hs : FullShape names x n1.table) :
    n2 = n1 := by
  have ht : n2.table = n1.table :=
    table_ext hs (h2.keys.trans h1.keys.symm) (fun y => (h2.row_keys y).trans (h1.row_keys y).symm)
      (fun y v => (h2.cells y v).trans (h1.cells y v).symm)
  have hf : n2.converged = n1.converged := by
    have := h2.flag.trans h1.flag.symm
    cases h : n1.converged <;> cases h' : n2.converged <;> simp_all
  cases n1
  cases n2
  simp only [Node.mk.injEq]
  exact ⟨h2.name.trans h1.name.symm, hf, h2.links.trans h1.links.symm, ht,
    h2.table_prev.trans h1.table_prev.symm⟩

theorem relaxValue_of_settled {plus : Int → Int → Int}
    {rows : String → String → Option Row} {t : Table}
    (h : Settled plus rows t) {y v : String} {e : Int} (he : cell t y v = some e) :
    relaxValue plus rows t y v e = e := by
  by_cases hc : y ≠ v ∧ e ≠ -1
  · obtain ⟨row, c, hr, hv, hcc, hee⟩ := h y v e he hc.1 hc.2
    rw [relaxValue_some hc hr hv hcc, hee]
  · exact relaxValue_skip hc

theorem Relaxed.keeps_table {plus : Int → Int → Int} {names : List String} {x : String}
    {rows : String → String → Option Row} {n n1 : Node}
    (h : Relaxed plus rows n n1) (hs : FullShape names x n.table) (hc : n1.converged = true) :
    n1.table = n.table := by
  refine table_ext hs h.keys h.row_keys (fun y v => ?_)
  rw [h.cells]
  cases he : cell n.table y v with
  | none => rfl
  | some e => rw [Option.map_some', relaxValue_of_settled (h.flag.mp hc) he]

theorem Relaxed.congr_rows {plus : Int → Int → Int}
    {rows rows' : String → String → Option Row} {n n1 : Node}
    (h : Relaxed plus rows n n1) (hr : ∀ v y, rows' v y = rows v y) : Relaxed plus rows' n n1 := by
  have : rows' = rows := by
    funext v y
    exact hr v y
  rw [this]
  exact h


/-! ## The states of the initial run have full shape -/

theorem TableInv.fullShape {names : List String} {x : String} {links : Map Int} {t : Table}
    (h : TableInv names x links t) (hn : (Map.keys t).Nodup) : FullShape names x t :=
  ⟨hn, h.rows, h.cols⟩

theorem shaped_snapshot {names : List String} {s : Nodes} (ht : Topo names s)
    (htab : TablesOK names s) (hnd : TablesNodup s) : Shaped names (snapshot s) where
  no_empty := ht.no_empty
  declared := by
    intro k
    rw [(sameTopo_snapshot s).hasKey]
    exact ht.declared k
  table := by
    intro k m hk
    rw [find_snapshot] at hk
    cases hn : Map.find s k with
    | none => simp [hn] at hk
    | some n =>
      simp only [hn, Option.map_some', Option.some.injEq] at hk
      subst hk
      exact (htab k n hn).fullShape (hnd k n hn)
  prev := by
    intro k m hk
    rw [find_snapshot] at hk
    cases hn : Map.find s k with
    | none => simp [hn] at hk
    | some n =>
      simp only [hn, Option.map_some', Option.some.injEq] at hk
      subst hk
      exact (htab k n hn).fullShape (hnd k n hn)

theorem prevRow_snapshot (s : Nodes) (v y : String) :
    prevRow (snapshot s) v y = tableRow s v y := by
  unfold prevRow tableRow
  rw [find_snapshot]
  cases Map.find s v <;> rfl

theorem forNodes_initTable_all {names : List String} (P : String → Node → Prop)
    (hP : ∀ (s : Nodes) (k : String) (nd : Node), Topo names s → Map.find s k = some nd →
      P k { nd with
        table := (initRows s nd).map (fun it => (it.1, initRow s nd it.1 it.2)) })
    (ks : List String) {s : Nodes} (ht : Topo names s)
    (hks : ∀ k ∈ ks, Map.hasKey s k = true) :
    ∃ s', forNodes initTable ks s = some s' ∧
      ∀ k n', Map.find s' k = some n' →
        (k ∈ ks ∨ ∃ n, Map.find s k = some n ∧ P k n) → P k n' := by
  induction ks generalizing s with
  | nil =>
    refine ⟨s, rfl, ?_⟩
    intro k n' h1 h2
    rcases h2 with h2 | ⟨n, h2, h3⟩
    · exact absurd h2 (List.not_mem_nil k)
    · rw [h1] at h2
      cases h2
      exact h3
  | cons k rest ih =>
    obtain ⟨nd, hnd⟩ := (Map.hasKey_iff_find _ _).mp (hks k (List.mem_cons_self _ _))
    have hst : SameTopo s (Map.replace s k { nd with
        table := (initRows s nd).map (fun it => (it.1, initRow s nd it.1 it.2)) }) :=
      sameTopo_replace hnd rfl rfl
    have hks1 : ∀ j ∈ rest, Map.hasKey (Map.replace s k { nd with
        table := (initRows s nd).map (fun it => (it.1, initRow s nd it.1 it.2)) }) j
        = true := by
      intro j hj
      rw [Map.hasKey_replace]
      exact hks j (List.mem_cons_of_mem _ hj)
    obtain ⟨s', g1, g2⟩ := ih (hst.topo ht) hks1
    refine ⟨s', ?_, ?_⟩
    · simp only [forNodes, initTable_eq hnd, Option.some_bind]
      exact g1
    · intro j n' h1 h2
      apply g2 j n' h1
      by_cases hj : j = k
      · subst hj
        right
        exact ⟨_, by rw [Map.find_replace_self, hnd]; rfl, hP s j nd ht hnd⟩
      · rcases h2 with h2 | ⟨n, h2, h3⟩
        · rcases List.mem_cons.mp h2 with h2 | h2
          · exact absurd h2 hj
          · exact Or.inl h2
        · right
          exact ⟨n, by rw [Map.find_replace_ne _ _ hj]; exact h2, h3⟩

theorem initTables_all {names : List String} (P : String → Node → Prop)
    (hP : ∀ (s : Nodes) (k : String) (nd : Node), Topo names s → Map.find s k = some nd →
      P k { nd with
        table := (initRows s nd).map (fun it => (it.1, initRow s nd it.1 it.2)) })
    {s s1 : Nodes} (ht : Topo names s) (h : initTables s = some s1) :
    ∀ k n', Map.find s1 k = some n' → P k n' := by
  obtain ⟨s', g1, g2⟩ := forNodes_initTable_all P hP (Map.keys s) ht
    (fun k hk => (Map.mem_keys_iff s k).mp hk)
  obtain ⟨s2, e1, _, _, e4, _⟩ := initTables_good ht
  rw [h] at e1
  cases e1
  unfold initTables at h
  rw [h] at g1
  cases g1
  intro k n' hk
  apply g2 k n' hk
  left
  rw [Map.mem_keys_iff, ← e4.hasKey, Map.hasKey_iff_find]
  exact ⟨n', hk⟩

theorem tablesNodup_initTables {names : List String} {s s1 : Nodes} (ht : Topo names s)
    (h : initTables s = some s1) : TablesNodup s1 := by
  intro k n hk
  refine initTables_all (fun _ n => (Map.keys n.table).Nodup) ?_ ht h k n hk
  intro s' k' nd _ _
  show (Map.keys ((initRows s' nd).map (fun it => (it.1, initRow s' nd it.1 it.2)))).Nodup
  rw [keys_map_values (initRows s' nd) (fun k r => initRow s' nd k r)]
  unfold initRows
  exact nodup_keys_foldl_insert_default _ _ _ _ (by simp [Map.keys])

theorem shaped_chain3Start : Shaped ["A", "B", "C"] chain3Start := by
  have ht0 : Topo ["A", "B", "C"] (chain3.getD []) :=
    topo_readLinks [("A", "B", 1), ("B", "C", 1)] (topo_readNodes ["A", "B", "C"] (by decide))
      (by decide) (by decide)
  obtain ⟨s1, h1, h2, h3, _, _⟩ := initTables_good ht0
  have hs1 : (chain3.bind initTables).getD [] = s1 := by
    have : chain3.bind initTables = initTables (chain3.getD []) := by decide
    rw [this, h1]
    rfl
  unfold chain3Start
  rw [hs1]
  exact shaped_snapshot h2 h3 (tablesNodup_initTables ht0 h1)

theorem prevInRange_of_mem {s : Nodes}
    (h : ∀ p ∈ s, ∀ q ∈ p.2.table_prev, ∀ r ∈ q.2, r.2 ≤ INT_MAX) : PrevInRange s := by
  intro x n y row hx hy r hr
  exact h (x, n) (Map.find_mem hx) (y, row) (Map.find_mem hy) r hr


/-! ## The relaxation, cell by cell -/

theorem isViableMin_of_getMin {row : Row} (h : (getMin row).1 ≠ "") :
    IsViableMin row (getMin row).2 := by
  obtain ⟨p, hp, hpe, hp1, hp2⟩ := getMin_of_viable h
  refine ⟨⟨p, hp, by rw [hpe], by rw [hpe]; exact hp1, by rw [hpe]; exact ne_of_lt hp2⟩, ?_⟩
  intro q hq hq1 _
  exact getMin_le hq hq1

theorem noViable_of_getMin {row : Row} (hr : RowInRange row) (h0 : "" ∉ Map.keys row)
    (h : (getMin row).1 = "") : NoViable row := by
  have hdef : getMin row = ("", INT_MAX) := by
    rcases getMin_cases row with h1 | ⟨p, hp, hpe, _, _⟩
    · exact h1
    · exfalso
      apply h0
      rw [← h, hpe]
      exact List.mem_map_of_mem Prod.fst hp
  intro p hp
  by_cases hp1 : p.2 = -1
  · exact Or.inl hp1
  · right
    have h1 := getMin_le hp hp1
    rw [hdef] at h1
    exact le_antisymm (hr p hp) h1

theorem shaped_big3Start : Shaped ["A", "B", "C"] big3Start := by
  have hread : ∃ s0, readLinks [("A", "B", 1500000000), ("B", "C", 1500000000)]
      (readNodes ["A", "B", "C"]) = some s0 := by
    cases h : readLinks [("A", "B", 1500000000), ("B", "C", 1500000000)]
        (readNodes ["A", "B", "C"]) with
    | none => exact absurd h (by decide)
    | some s0 => exact ⟨s0, rfl⟩
  obtain ⟨s0, hs0⟩ := hread
  have ht0 : Topo ["A", "B", "C"] s0 :=
    topo_readLinks [("A", "B", 1500000000), ("B", "C", 1500000000)]
      (topo_readNodes ["A", "B", "C"] (by decide)) (by decide) hs0
  obtain ⟨s1, h1, h2, h3, _, _⟩ := initTables_good ht0
  unfold big3Start
  rw [hs0, Option.some_bind, h1]
  exact shaped_snapshot h2 h3 (tablesNodup_initTables ht0 h1)

/-- C12, as amended: the relaxation cell by cell, in the arithmetic of the
program. In a state where every table and every snapshot has full shape (and
the snapshot entries are `int` values), `updateTable(x)` returns, and every
cell `x.table[y][v]` with `v ≠ y` that did not hold `-1` now holds the 32-bit
sum of `x.table[v][v]` and `m`, where `m` is the minimum entry of
`nodes[v].table_prev[y]` that is neither `-1` nor `INT_MAX`: that is
`x.table[v][v] + m` whenever this sum lies between `INT_MIN` and `INT_MAX`, and
the sum wrapped around otherwise. The cell holds `INT_MAX` when that row has no
such entry. The cells on the diagonal and the cells holding `-1` keep their
value, and the rows and the columns of the table are the same. -/
theorem updateTable_cell_by_cell (names : List String) (s : Nodes) (x : String) (n : Node)
    (hs : Shaped names s) (hr : PrevInRange s) (hx : Map.find s x = some n) :
    ∃ s1 n1, updateTable int32Add s x = some s1 ∧ Map.find s1 x = some n1 ∧
      (∀ y v e, cell n.table y v = some e → v ≠ y → e ≠ -1 →
        ∃ rowp c, prevRow s v y = some rowp ∧
          cell n.table v v = some c ∧ cell n1.table v v = some c ∧
          ((∃ m, IsViableMin rowp m ∧ cell n1.table y v = some (int32Add c m) ∧
              (INT_MIN ≤ c + m → c + m ≤ INT_MAX → cell n1.table y v = some (c + m))) ∨
           (NoViable rowp ∧ cell n1.table y v = some INT_MAX))) ∧
      (∀ y v e, cell n.table y v = some e → (v = y ∨ e = -1) → cell n1.table y v = some e) ∧
      Map.keys n1.table = Map.keys n.table ∧
      (∀ y, (Map.find n1.table y).map Map.keys = (Map.find n.table y).map Map.keys) := by
  obtain ⟨n1, h1, h2, _⟩ := updateTable_relaxed int32Add hs hx
  refine ⟨_, n1, h1, by rw [Map.find_replace_self, hx]; rfl, ?_, ?_, h2.keys, h2.row_keys⟩
  · intro y v e he hvy he1
    have hyv : y ≠ v := fun h => hvy h.symm
    obtain ⟨nv, rowp, c, hnv, hrowp, hc, h0⟩ := hs.reads hx he hyv
    have hprev : prevRow s v y = some rowp := by simp [prevRow, hnv, hrowp]
    have hdiag : cell n1.table v v = some c := by
      rw [h2.cells, map_relaxValue_diag, hc]
    refine ⟨rowp, c, hprev, hc, hdiag, ?_⟩
    by_cases hvia : (getMin rowp).1 = ""
    · right
      refine ⟨noViable_of_getMin (hr v nv y rowp hnv hrowp) h0 hvia, ?_⟩
      rw [h2.cells, he, Option.map_some', relaxValue_none ⟨hyv, he1⟩ hprev hvia]
    · left
      have hcell : cell n1.table y v = some (int32Add c (getMin rowp).2) := by
        rw [h2.cells, he, Option.map_some', relaxValue_some ⟨hyv, he1⟩ hprev hvia hc]
      refine ⟨(getMin rowp).2, isViableMin_of_getMin hvia, hcell, fun hlo hhi => ?_⟩
      rw [hcell, int32Add_of_range hlo hhi]
  · intro y v e he hskip
    rw [h2.cells, he, Option.map_some', relaxValue_skip]
    rintro ⟨h3, h4⟩
    rcases hskip with h | h
    · exact h3 h.symm
    · exact h4 h

/-- An instance of `updateTable_cell_by_cell`: node `A` of the chain `A - B - C`
in the first pass of the round loop. -/
theorem updateTable_cell_by_cell_witness :
    ∃ s1 n1, updateTable int32Add chain3Start "A" = some s1 ∧ Map.find s1 "A" = some n1 ∧
      (∀ y v e, cell ((Map.find chain3Start "A").getD (Node.new "A")).table y v = some e →
        v ≠ y → e ≠ -1 →
        ∃ rowp c, prevRow chain3Start v y = some rowp ∧
          cell ((Map.find chain3Start "A").getD (Node.new "A")).table v v = some c ∧
          cell n1.table v v = some c ∧
          ((∃ m, IsViableMin rowp m ∧ cell n1.table y v = some (int32Add c m) ∧
              (INT_MIN ≤ c + m → c + m ≤ INT_MAX → cell n1.table y v = some (c + m))) ∨
           (NoViable rowp ∧ cell n1.table y v = some INT_MAX))) ∧
      (∀ y v e, cell ((Map.find chain3Start "A").getD (Node.new "A")).table y v = some e →
        (v = y ∨ e = -1) → cell n1.table y v = some e) ∧
      Map.keys n1.table = Map.keys ((Map.find chain3Start "A").getD (Node.new "A")).table ∧
      (∀ y, (Map.find n1.table y).map Map.keys
        = (Map.find ((Map.find chain3Start "A").getD (Node.new "A")).table y).map Map.keys) :=
  updateTable_cell_by_cell ["A", "B", "C"] chain3Start "A"
    ((Map.find chain3Start "A").getD (Node.new "A")) shaped_chain3Start
    (prevInRange_of_mem (by decide)) (by decide)

/-- C12, the claim as stated fails: with the nodes `A`, `B`, `C` and the links
`A B 1500000000`, `B C 1500000000`, in the first pass of the round loop every
table and snapshot has full shape and holds `int` values; the cell
`A.table[C][B]` holds `INT_MAX`, not `-1`, the cell `A.table[B][B]` holds
`1500000000`, and the minimum entry of `B.table_prev[C]` that is neither `-1`
nor `INT_MAX` is `1500000000`. After `updateTable(A)` the cell `A.table[C][B]`
holds `-1294967296`, the sum `3000000000` wrapped around to 32 bits, not the
sum. -/
theorem relaxed_cell_wraps_around :
    Shaped ["A", "B", "C"] big3Start ∧ PrevInRange big3Start ∧
    (Map.find big3Start "A").bind (fun n => cell n.table "C" "B") = some INT_MAX ∧
    (Map.find big3Start "A").bind (fun n => cell n.table "B" "B") = some 1500000000 ∧
    prevRow big3Start "B" "C" = some [("A", INT_MAX), ("C", 1500000000)] ∧
    IsViableMin [("A", INT_MAX), ("C", 1500000000)] 1500000000 ∧
    ((updateTable int32Add big3Start "A").bind (fun s1 => Map.find s1 "A")).bind
        (fun n1 => cell n1.table "C" "B") = some (-1294967296) ∧
    (-1294967296 : Int) ≠ 1500000000 + 1500000000 := by
  refine ⟨shaped_big3Start, prevInRange_of_mem (by decide), by decide, by decide, by decide,
    ?_, by decide, by decide⟩
  unfold IsViableMin
  decide

/-- C13: the order of relaxation within a pass does not matter, whatever the
sum of line 196 evaluates to (`plus`: the 32-bit sum of the program, or the
exact one). In a state where every table and every snapshot has full shape, for
two distinct nodes `x` and `z`, `updateTable(x)` then `updateTable(z)` and `updateTable(z)` then
`updateTable(x)` both return, with the same registry. `updateTable(x)` leaves
the registered keys, every other node, and the name, the links and the snapshot
of `x` as they were, and the node `x` it leaves is the same in every state of
full shape that has the same node `x` and the same snapshots. -/
theorem updateTable_order_independent (plus : Int → Int → Int) (names : List String)
    (s : Nodes) (x z : String)
    (nx nz : Node) (hs : Shaped names s) (hxz : x ≠ z)
    (hx : Map.find s x = some nx) (hz : Map.find s z = some nz) :
    (∃ s2, (updateTable plus s x).bind (fun s1 => updateTable plus s1 z) = some s2 ∧
      (updateTable plus s z).bind (fun s1 => updateTable plus s1 x) = some s2) ∧
    ∃ s1 nx1, updateTable plus s x = some s1 ∧ Map.find s1 x = some nx1 ∧
      Map.keys s1 = Map.keys s ∧ (∀ k, k ≠ x → Map.find s1 k = Map.find s k) ∧
      nx1.name = nx.name ∧ nx1.links = nx.links ∧ nx1.table_prev = nx.table_prev ∧
      ∀ s', Shaped names s' → Map.find s' x = some nx →
        (∀ v y, prevRow s' v y = prevRow s v y) →
        ∃ s1', updateTable plus s' x = some s1' ∧ Map.find s1' x = some nx1 := by
  obtain ⟨nx1, hux, hrx, hfx⟩ := updateTable_relaxed plus hs hx
  obtain ⟨nz1, huz, hrz, hfz⟩ := updateTable_relaxed plus hs hz
  have hzx : z ≠ x := fun h => hxz h.symm
  refine ⟨⟨Map.replace (Map.replace s x nx1) z nz1, ?_, ?_⟩, Map.replace s x nx1, nx1, hux,
    by rw [Map.find_replace_self, hx]; rfl, Map.keys_replace _ _ _,
    fun k hk => Map.find_replace_ne _ _ hk, hrx.name, hrx.links, hrx.table_prev, ?_⟩
  · have hs1 : Shaped names (Map.replace s x nx1) := shaped_replace hs hx hfx hrx.table_prev
    have hz1 : Map.find (Map.replace s x nx1) z = some nz := by
      rw [Map.find_replace_ne _ _ hzx]; exact hz
    obtain ⟨m, hum, hrm, _⟩ := updateTable_relaxed plus hs1 hz1
    have hm : m = nz1 :=
      Relaxed.unique hrz (hrm.congr_rows (fun v y => (prevRow_replace hx hrx.table_prev v y).symm))
        hfz
    rw [hux, Option.some_bind, hum, hm]
  · have hs1 : Shaped names (Map.replace s z nz1) := shaped_replace hs hz hfz hrz.table_prev
    have hx1 : Map.find (Map.replace s z nz1) x = some nx := by
      rw [Map.find_replace_ne _ _ hxz]; exact hx
    obtain ⟨m, hum, hrm, _⟩ := updateTable_relaxed plus hs1 hx1
    have hm : m = nx1 :=
      Relaxed.unique hrx (hrm.congr_rows (fun v y => (prevRow_replace hz hrz.table_prev v y).symm))
        hfx
    rw [huz, Option.some_bind, hum, hm, Map.replace_comm _ _ _ hzx]
  · intro s' hs' hx' hrows
    obtain ⟨m, hum, hrm, _⟩ := updateTable_relaxed plus hs' hx'
    have hm : m = nx1 := Relaxed.unique hrx (hrm.congr_rows (fun v y => (hrows v y).symm)) hfx
    exact ⟨_, hum, by rw [Map.find_replace_self, hx', hm]; rfl⟩

/-- An instance of `updateTable_order_independent`: the nodes `A` and `B` of the
chain `A - B - C` in the first pass of the round loop, with the 32-bit sum of
the program. -/
theorem updateTable_order_independent_witness :
    (∃ s2, (updateTable int32Add chain3Start "A").bind (fun s1 => updateTable int32Add s1 "B") = some s2 ∧
      (updateTable int32Add chain3Start "B").bind (fun s1 => updateTable int32Add s1 "A") = some s2) ∧
    ∃ s1 nx1, updateTable int32Add chain3Start "A" = some s1 ∧ Map.find s1 "A" = some nx1 ∧
      Map.keys s1 = Map.keys chain3Start ∧
      (∀ k, k ≠ "A" → Map.find s1 k = Map.find chain3Start k) ∧
      nx1.name = ((Map.find chain3Start "A").getD (Node.new "A")).name ∧
      nx1.links = ((Map.find chain3Start "A").getD (Node.new "A")).links ∧
      nx1.table_prev = ((Map.find chain3Start "A").getD (Node.new "A")).table_prev ∧
      ∀ s', Shaped ["A", "B", "C"] s' →
        Map.find s' "A" = some ((Map.find chain3Start "A").getD (Node.new "A")) →
        (∀ v y, prevRow s' v y = prevRow chain3Start v y) →
        ∃ s1', updateTable int32Add s' "A" = some s1' ∧ Map.find s1' "A" = some nx1 :=
  updateTable_order_independent int32Add ["A", "B", "C"] chain3Start "A" "B"
    ((Map.find chain3Start "A").getD (Node.new "A"))
    ((Map.find chain3Start "B").getD (Node.new "B"))
    shaped_chain3Start (by decide) (by decide) (by decide)

/-- C14: the flag after a relaxation. In a state where every table and every
snapshot has full shape, `updateTable(x)` returns and leaves `x.converged` true
exactly when every considered cell `x.table[y][v]` (`v ≠ y`, not `-1` before the
call) was settled: `getMin` found a via in `nodes[v].table_prev[y]` and the
recomputed cost, the 32-bit sum of `x.table[v][v]` and that minimum as line 196
computes it (wrapped around when it leaves the `int` range), is the value the
cell held.
When the flag is left true, `x.table` is the table it was before the call. After
`updateTable` on every node, `isConverged()` is true exactly when this was so
for the table of every node. -/
theorem flag_after_updateTable (names : List String) (s : Nodes) (x : String) (n : Node)
    (hs : Shaped names s) (hnd : (Map.keys s).Nodup) (hx : Map.find s x = some n) :
    (∃ s1 n1, updateTable int32Add s x = some s1 ∧ Map.find s1 x = some n1 ∧
      (n1.converged = true ↔ Settled int32Add (prevRow s) n.table) ∧
      (n1.converged = true → n1.table = n.table)) ∧
    ∃ s', forNodes (updateTable int32Add) (Map.keys s) s = some s' ∧
      (isConverged s' = true ↔ ∀ k m, Map.find s k = some m → Settled int32Add (prevRow s) m.table) := by
  obtain ⟨n1, h1, h2, _⟩ := updateTable_relaxed int32Add hs hx
  refine ⟨⟨_, n1, h1, by rw [Map.find_replace_self, hx]; rfl, h2.flag,
    h2.keeps_table (hs.table x n hx)⟩, ?_⟩
  obtain ⟨s', g1, _, g3, _, g5⟩ := forNodes_updateTable_relaxed int32Add (Map.keys s) hs hnd
    (fun k hk => (Map.mem_keys_iff s k).mp hk)
  refine ⟨s', g1, ?_, ?_⟩
  · intro hc k m hk
    obtain ⟨m1, hm1, hr⟩ := g5 k ((Map.mem_keys_iff s k).mpr
      ((Map.hasKey_iff_find _ _).mpr ⟨m, hk⟩)) m hk
    exact hr.flag.mp (isConverged_find hc hm1)
  · intro hall
    apply isConverged_of_flags (by rw [g3.1]; exact hnd)
    intro k m1 hk1
    obtain ⟨m, hm, _⟩ := g3.node_rev hk1
    obtain ⟨m1', hm1', hr⟩ := g5 k ((Map.mem_keys_iff s k).mpr
      ((Map.hasKey_iff_find _ _).mpr ⟨m, hm⟩)) m hm
    rw [hk1] at hm1'
    cases hm1'
    exact hr.flag.mpr (hall k m hm)

/-- An instance of `flag_after_updateTable`: node `A` of the chain `A - B - C` in
the first pass of the round loop. -/
theorem flag_after_updateTable_witness :
    (∃ s1 n1, updateTable int32Add chain3Start "A" = some s1 ∧ Map.find s1 "A" = some n1 ∧
      (n1.converged = true ↔
        Settled int32Add (prevRow chain3Start) ((Map.find chain3Start "A").getD (Node.new "A")).table) ∧
      (n1.converged = true →
        n1.table = ((Map.find chain3Start "A").getD (Node.new "A")).table)) ∧
    ∃ s', forNodes (updateTable int32Add) (Map.keys chain3Start) chain3Start = some s' ∧
      (isConverged s' = true ↔
        ∀ k m, Map.find chain3Start k = some m → Settled int32Add (prevRow chain3Start) m.table) :=
  flag_after_updateTable ["A", "B", "C"] chain3Start "A"
    ((Map.find chain3Start "A").getD (Node.new "A")) shaped_chain3Start
    (by decide) (by decide)


/-! ## The neighbour columns under a link event with a positive cost -/

theorem TableInv.of_cells {names : List String} {x : String} {links links' : Map Int}
    {t t' : Table} (h : TableInv names x links t)
    (hkeys : ∀ k, (Map.find t' k).map Map.keys = (Map.find t k).map Map.keys)
    {b : String} {c : Int}
    (hl_self : Map.find links' b = some c)
    (hl_ne : ∀ w, w ≠ b → Map.find links' w = Map.find links w)
    (hc_ne : ∀ y w, w ≠ b → cell t' y w = cell t y w)
    (hdiag : cell t' b b = some c)
    (hcol : ∀ y e, cell t' y b = some e → 0 < e) : TableInv names x links' t' := by
  have hrow : ∀ k row', Map.find t' k = some row' →
      ∃ row, Map.find t k = some row ∧ Map.keys row' = Map.keys row := by
    intro k row' hk
    have := hkeys k
    rw [hk] at this
    cases hr : Map.find t k with
    | none => simp [hr] at this
    | some row =>
      simp only [hr, Option.map_some', Option.some.injEq] at this
      exact ⟨row, rfl, this⟩
  refine ⟨?_, ?_, ?_, ?_⟩
  · intro k
    rw [← h.rows k]
    unfold Map.hasKey
    have := hkeys k
    cases h1 : Map.find t' k <;> cases h2 : Map.find t k <;> simp [h1, h2] at this ⊢
  · intro k row' hk
    obtain ⟨row, hr, hkk⟩ := hrow k row' hk
    obtain ⟨h1, h2⟩ := h.cols k row hr
    refine ⟨by rw [hkk]; exact h1, fun w => ?_⟩
    rw [← Map.mem_keys_iff, hkk, Map.mem_keys_iff]
    exact h2 w
  · intro w c' hw
    by_cases hwb : w = b
    · subst hwb
      rw [hl_self] at hw
      cases hw
      exact ⟨hdiag, hcol⟩
    · rw [hl_ne w hwb] at hw
      obtain ⟨h1, h2⟩ := h.nb w c' hw
      refine ⟨by rw [hc_ne _ _ hwb]; exact h1, fun y e he => ?_⟩
      rw [hc_ne _ _ hwb] at he
      exact h2 y e he
  · intro w hw y e he
    have hwb : w ≠ b := by
      intro hwb
      rw [hwb, hl_self] at hw
      cases hw
    rw [hl_ne w hwb] at hw
    rw [hc_ne _ _ hwb] at he
    exact h.non_nb w hw y e he

theorem row_keys_setColumn {names : List String} {x : String} {links : Map Int} {t : Table}
    (h : TableInv names x links t) {b : String} (hb : b ∈ names ∧ b ≠ x) (c : Int)
    (k : String) :
    (Map.find (setColumn t b c) k).map Map.keys = (Map.find t k).map Map.keys := by
  rw [find_setColumn]
  cases hr : Map.find t k with
  | none => rfl
  | some row =>
    simp only [Option.map_some']
    rw [keys_assign_of_hasKey (((h.cols k row hr).2 b).mpr hb)]

theorem tableInv_createLinkOn_pos {names : List String} {x : String} {n : Node}
    {b : String} {c : Int} (hc : 0 < c) (hb : b ∈ names ∧ b ≠ x)
    (h : TableInv names x n.links n.table) :
    TableInv names x (createLinkOn n b c).links (createLinkOn n b c).table := by
  have hc1 : c ≠ -1 := by omega
  have hl_self : Map.find (createLinkOn n b c).links b = some c := by
    rw [createLinkOn_links_self, if_neg hc1]
  obtain ⟨row, hrow⟩ := (Map.hasKey_iff_find _ _).mp ((h.rows b).mpr hb)
  obtain ⟨e0, he0⟩ := (Map.hasKey_iff_find _ _).mp (((h.cols b row hrow).2 b).mpr hb)
  have hcell0 : cell n.table b b = some e0 := by rw [cell_of_find hrow, he0]
  by_cases hk : Map.hasKey n.links b = true
  · obtain ⟨cb, hcb⟩ := (Map.hasKey_iff_find _ _).mp hk
    have htb : (createLinkOn n b c).table = setCell n.table b b c := by
      simp [createLinkOn, hk, hc1]
    refine h.of_cells ?_ hl_self (fun w hw => createLinkOn_links_ne _ _ hw) ?_ ?_ ?_
    · intro k
      rw [htb]
      exact row_keys_setCell_of_cell hcell0 c k
    · intro y w hw
      rw [htb, cell_setCell, if_neg (fun hh => hw hh.2)]
    · exact createLinkOn_cell_self n b hc1
    · intro y e he
      rw [htb, cell_setCell] at he
      split_ifs at he
      · cases he
        exact hc
      · exact (h.nb b cb hcb).2 y e he
  · have hk' : Map.hasKey n.links b = false := by simpa using hk
    have htb : (createLinkOn n b c).table = setCell (setColumn n.table b INT_MAX) b b c := by
      simp [createLinkOn, hk', hc1]
    have hcellT : cell (setColumn n.table b INT_MAX) b b = some INT_MAX := by
      rw [cell_setColumn_self, hrow]; rfl
    refine h.of_cells ?_ hl_self (fun w hw => createLinkOn_links_ne _ _ hw) ?_ ?_ ?_
    · intro k
      rw [htb, row_keys_setCell_of_cell hcellT c k]
      exact row_keys_setColumn h hb INT_MAX k
    · intro y w hw
      rw [htb, cell_setCell, if_neg (fun hh => hw hh.2), cell_setColumn_ne _ _ _ hw]
    · exact createLinkOn_cell_self n b hc1
    · intro y e he
      rw [htb, cell_setCell] at he
      split_ifs at he
      · cases he
        exact hc
      · rw [cell_setColumn_self] at he
        cases hr : Map.find n.table y with
        | none => simp [hr] at he
        | some r =>
          simp only [hr, Option.map_some', Option.some.injEq] at he
          rw [← he]
          decide

theorem tablesOK_extractLink {names : List String} {s s1 : Nodes} {S D : String} {c : Int}
    (ht : Topo names s) (htab : TablesOK names s) (hc : 0 < c ∨ c = -1)
    (h : extractLink s S D c = some s1) : TablesOK names s1 := by
  obtain ⟨hne, src, dst, hs, hd, rfl⟩ := extractLink_inv h
  have hSn : S ∈ names := (ht.declared S).mp ((Map.hasKey_iff_find _ _).mpr ⟨_, hs⟩)
  have hDn : D ∈ names := (ht.declared D).mp ((Map.hasKey_iff_find _ _).mpr ⟨_, hd⟩)
  intro k m hk
  rw [find_after_extract hs hd hne, ht.name_eq _ _ hs, ht.name_eq _ _ hd] at hk
  split_ifs at hk with h1 h2
  · cases hk
    subst h1
    rcases hc with hc | hc
    · exact tableInv_createLinkOn_pos hc ⟨hSn, hne⟩ (htab _ _ hd)
    · subst hc
      exact tableInv_createLinkOn_remove S (htab _ _ hd)
  · cases hk
    subst h2
    rcases hc with hc | hc
    · exact tableInv_createLinkOn_pos hc ⟨hDn, Ne.symm hne⟩ (htab _ _ hs)
    · subst hc
      exact tableInv_createLinkOn_remove D (htab _ _ hs)
  · exact htab k m hk

theorem prevsPositive_extractLink {s s1 : Nodes} {S D : String} {c : Int}
    (hp : PrevsPositive s) (h : extractLink s S D c = some s1) : PrevsPositive s1 := by
  obtain ⟨hne, src, dst, hs, hd, rfl⟩ := extractLink_inv h
  intro k m y row p hk hy hpm
  rw [find_after_extract hs hd hne] at hk
  split_ifs at hk with h1 h2
  · cases hk
    rw [createLinkOn_table_prev] at hy
    exact hp _ _ y row p hd hy hpm
  · cases hk
    rw [createLinkOn_table_prev] at hy
    exact hp _ _ y row p hs hy hpm
  · exact hp k m y row p hk hy hpm

theorem prevsPositive_snapshot {names : List String} {s : Nodes}
    (htab : TablesOK names s) : PrevsPositive (snapshot s) := by
  intro k m y row p hk hy hp
  rw [find_snapshot] at hk
  cases hn : Map.find s k with
  | none => simp [hn] at hk
  | some n =>
    simp only [hn, Option.map_some', Option.some.injEq] at hk
    subst hk
    by_cases hp1 : p.2 = -1
    · exact Or.inl hp1
    · exact Or.inr ((htab k n hn).entry_pos hy hp hp1)


/-! ## `updateTable` in the states the program reaches -/

theorem updateEntry_fresh_row {s : Nodes} {x y v : String} {n nv : Node} {e : Int}
    (hx : Map.find s x = some n) (he : cell n.table y v = some e) (hyv : y ≠ v)
    (he1 : e ≠ -1) (hv : Map.find s v = some nv) (hvx : v ≠ x)
    (hrow : Map.find nv.table_prev y = none) :
    updateEntry exactAdd s x y v = some
      (Map.replace (Map.replace s v { nv with table_prev := Map.touch nv.table_prev y [] }) x
        { n with table := setCell n.table y v INT_MAX, converged := false }) := by
  have hk : Map.hasKey nv.table_prev y = false := (Map.hasKey_false_iff _ _).mpr hrow
  have hget : Map.get (Map.touch nv.table_prev y []) y [] = [] := by
    simp [Map.get, Map.touch, hk, Map.find_place_self _ _ _ hrow]
  have hx1 : Map.find (Map.replace s v { nv with table_prev := Map.touch nv.table_prev y [] }) x
      = some n := by
    rw [Map.find_replace_ne _ _ (Ne.symm hvx)]; exact hx
  have hmin : (getMin ([] : Row)).1 = "" := rfl
  unfold updateEntry
  simp only [hx, he, hv]
  rw [if_pos ⟨hyv, he1⟩]
  simp only [hget, hx1, hmin, if_true]

theorem find_touch_row {m : Table} {y k : String} {row : Row}
    (h : Map.find (Map.touch m y []) k = some row) : row = [] ∨ Map.find m k = some row := by
  by_cases hk : k = y
  · subst hk
    unfold Map.touch at h
    by_cases hh : Map.hasKey m k = true
    · rw [if_pos hh] at h
      exact Or.inr h
    · rw [if_neg hh, Map.find_place_self _ _ _
        ((Map.hasKey_false_iff _ _).mp (by simpa using hh))] at h
      cases h
      exact Or.inl rfl
  · rw [Map.find_touch _ _ _ _ hk] at h
    exact Or.inr h

theorem reached_replace_table {names : List String} {s : Nodes} {x : String} {n n1 : Node}
    (ht : Topo names s) (htab : TablesOK names s) (hp : PrevsPositive s)
    (hx : Map.find s x = some n) (h1 : n1.name = n.name) (h2 : n1.links = n.links)
    (h3 : ∀ y row, Map.find n1.table_prev y = some row →
      row = [] ∨ Map.find n.table_prev y = some row)
    (h4 : TableInv names x n.links n1.table) :
    Topo names (Map.replace s x n1) ∧ TablesOK names (Map.replace s x n1) ∧
      PrevsPositive (Map.replace s x n1) := by
  refine ⟨(sameTopo_replace hx h1 h2).topo ht, ?_, ?_⟩
  · intro k m hk
    by_cases hkx : k = x
    · subst hkx
      rw [Map.find_replace_self, hx] at hk
      cases hk
      rw [h2]
      exact h4
    · rw [Map.find_replace_ne _ _ hkx] at hk
      exact htab k m hk
  · intro k m y row p hk hy hpm
    by_cases hkx : k = x
    · subst hkx
      rw [Map.find_replace_self, hx] at hk
      cases hk
      rcases h3 y row hy with h | h
      · rw [h] at hpm
        cases hpm
      · exact hp k n y row p hx h hpm
    · rw [Map.find_replace_ne _ _ hkx] at hk
      exact hp k m y row p hk hy hpm

theorem updateEntry_reached {names : List String} {s : Nodes} {x : String} {n : Node}
    (y v : String) (ht : Topo names s) (htab : TablesOK names s) (hp : PrevsPositive s)
    (hx : Map.find s x = some n) :
    ∃ s' n', updateEntry exactAdd s x y v = some s' ∧ Topo names s' ∧ TablesOK names s' ∧
      PrevsPositive s' ∧ Map.find s' x = some n' := by
  by_cases hcons : ∃ e, cell n.table y v = some e ∧ y ≠ v ∧ e ≠ -1
  swap
  · refine ⟨s, n, updateEntry_skip hx (fun e he => ?_), ht, htab, hp, hx⟩
    by_contra hc
    push_neg at hc
    exact hcons ⟨e, he, hc.1, hc.2⟩
  obtain ⟨e, he, hyv, he1⟩ := hcons
  have hti := htab x n hx
  obtain ⟨c, hl, hdiag⟩ := hti.neighbour he he1
  have hlc : linkCost s x v = some c := by simp [linkCost, hx, hl]
  obtain ⟨hvn, hvx, hcpos, _⟩ := ht.links x v c hlc
  obtain ⟨nv, hv⟩ := (Map.hasKey_iff_find _ _).mp ((ht.declared v).mpr hvn)
  have hmax : (0 : Int) < INT_MAX := by decide
  cases hrow : Map.find nv.table_prev y with
  | none =>
    rw [updateEntry_fresh_row hx he hyv he1 hv hvx hrow]
    obtain ⟨a1, a2, a3⟩ := reached_replace_table ht htab hp hv
      (show ({ nv with table_prev := Map.touch nv.table_prev y [] } : Node).name = nv.name
        from rfl) rfl
      (fun k row hk => find_touch_row hk) (htab v nv hv)
    have hx1 : Map.find (Map.replace s v { nv with table_prev := Map.touch nv.table_prev y [] })
        x = some n := by
      rw [Map.find_replace_ne _ _ (Ne.symm hvx)]; exact hx
    obtain ⟨b1, b2, b3⟩ := reached_replace_table a1 a2 a3 hx1
      (show ({ n with table := setCell n.table y v INT_MAX, converged := false } : Node).name
        = n.name from rfl) rfl (fun k row hk => Or.inr hk)
      (tableInv_setCell hti he hyv hl hmax)
    exact ⟨_, _, rfl, b1, b2, b3, by rw [Map.find_replace_self, hx1]; rfl⟩
  | some rowp =>
    rw [updateEntry_exact hx he hyv he1 hv hrow hdiag]
    by_cases hvia : (getMin rowp).1 = ""
    · rw [if_pos hvia]
      obtain ⟨b1, b2, b3⟩ := reached_replace_table ht htab hp hx
        (show ({ n with table := setCell n.table y v INT_MAX, converged := false } : Node).name
          = n.name from rfl) rfl (fun k row hk => Or.inr hk)
        (tableInv_setCell hti he hyv hl hmax)
      exact ⟨_, _, rfl, b1, b2, b3, by rw [Map.find_replace_self, hx]; rfl⟩
    · rw [if_neg hvia]
      by_cases hd : c + (getMin rowp).2 ≠ e
      · rw [if_pos hd]
        obtain ⟨p, hpm, hpe, hp1, _⟩ := getMin_of_viable hvia
        have hppos : 0 < p.2 := by
          rcases hp v nv y rowp p hv hrow hpm with h | h
          · exact absurd h hp1
          · exact h
        have hdpos : 0 < c + (getMin rowp).2 := by
          rw [hpe]
          omega
        obtain ⟨b1, b2, b3⟩ := reached_replace_table ht htab hp hx
          (show ({ n with table := setCell n.table y v (c + (getMin rowp).2),
                          converged := false } : Node).name = n.name from rfl) rfl
          (fun k row hk => Or.inr hk) (tableInv_setCell hti he hyv hl hdpos)
        exact ⟨_, _, rfl, b1, b2, b3, by rw [Map.find_replace_self, hx]; rfl⟩
      · rw [if_neg hd]
        exact ⟨s, n, rfl, ht, htab, hp, hx⟩

theorem visitAll_reached {names : List String} {x : String} (l : List (String × String))
    {s : Nodes} {n : Node} (ht : Topo names s) (htab : TablesOK names s)
    (hp : PrevsPositive s) (hx : Map.find s x = some n) :
    ∃ s', visitAll exactAdd x l s = some s' ∧ Topo names s' ∧ TablesOK names s' ∧
      PrevsPositive s' := by
  induction l generalizing s n with
  | nil => exact ⟨s, rfl, ht, htab, hp⟩
  | cons p rest ih =>
    obtain ⟨s1, n1, h1, h2, h3, h4, h5⟩ := updateEntry_reached p.1 p.2 ht htab hp hx
    obtain ⟨s', g1, g2⟩ := ih h2 h3 h4 h5
    refine ⟨s', ?_, g2⟩
    simp only [visitAll]
    rw [h1, Option.some_bind, g1]

theorem updateTable_reached {names : List String} {s s1 : Nodes} {x : String}
    (ht : Topo names s) (htab : TablesOK names s) (hp : PrevsPositive s)
    (h : updateTable exactAdd s x = some s1) :
    Topo names s1 ∧ TablesOK names s1 ∧ PrevsPositive s1 := by
  unfold updateTable at h
  cases hx : Map.find s x with
  | none => simp [hx] at h
  | some n =>
    simp only [hx] at h
    obtain ⟨b1, b2, b3⟩ := reached_replace_table ht htab hp hx
      (show ({ n with converged := true } : Node).name = n.name from rfl) rfl
      (fun k row hk => Or.inr hk) (htab x n hx)
    obtain ⟨s', g1, g2⟩ := visitAll_reached (visits n.table) b1 b2 b3
      (show Map.find (Map.replace s x { n with converged := true }) x
        = some { n with converged := true } by rw [Map.find_replace_self, hx]; rfl)
    rw [g1] at h
    cases h
    exact g2

theorem prev_readLinks (events : List (String × String × Int)) {nodes nodes' : Nodes}
    (hf : ∀ k n, Map.find nodes k = some n → n.table_prev = [])
    (h : readLinks events nodes = some nodes') :
    ∀ k n, Map.find nodes' k = some n → n.table_prev = [] := by
  induction events generalizing nodes with
  | nil =>
    simp only [readLinks, Option.some.injEq] at h
    rw [← h]
    exact hf
  | cons e rest ih =>
    simp only [readLinks] at h
    cases he : extractLink nodes e.1 e.2.1 e.2.2 with
    | none => simp [he] at h
    | some s1 =>
      simp only [he, Option.some_bind] at h
      refine ih ?_ h
      obtain ⟨hne, src, dst, hs, hd, rfl⟩ := extractLink_inv he
      intro k n hk
      rw [find_after_extract hs hd hne] at hk
      split_ifs at hk with h1 h2
      · cases hk
        rw [createLinkOn_table_prev]
        exact hf _ _ hd
      · cases hk
        rw [createLinkOn_table_prev]
        exact hf _ _ hs
      · exact hf _ _ hk

theorem reached_inv {names : List String} {s : Nodes} (h : Reached names s) :
    Topo names s ∧ TablesOK names s ∧ PrevsPositive s := by
  induction h with
  | @init events s0 s h0 hev hread hinit =>
    have ht0 : Topo names s0 :=
      topo_readLinks events (topo_readNodes names h0) (fun e he => (hev e he).symm) hread
    obtain ⟨s1, e1, e2, e3, _, e5⟩ := initTables_good ht0
    rw [hinit] at e1
    cases e1
    refine ⟨e2, e3, ?_⟩
    intro k m y row p hk hy hp
    have hprev0 : ∀ k n, Map.find s0 k = some n → n.table_prev = [] :=
      prev_readLinks events (fun k n hk => by
        rw [find_readNodes] at hk
        split_ifs at hk
        cases hk
        rfl) hread
    obtain ⟨m0, hm0⟩ : ∃ m0, Map.find s0 k = some m0 := by
      rw [← Map.hasKey_iff_find, (ht0.declared k), ← (e2.declared k), Map.hasKey_iff_find]
      exact ⟨m, hk⟩
    rw [(e5 k m0 m hm0 hk).2, hprev0 k m0 hm0] at hy
    simp [Map.find] at hy
  | event _ hc hex ih =>
    obtain ⟨a1, a2, a3⟩ := ih
    exact ⟨topo_extractLink a1 hc.symm hex, tablesOK_extractLink a1 a2 hc hex,
      prevsPositive_extractLink a3 hex⟩
  | snapshot _ ih =>
    obtain ⟨a1, a2, _⟩ := ih
    exact ⟨(sameTopo_snapshot _).topo a1, (good_snapshot a1 a2).2.1, prevsPositive_snapshot a2⟩
  | relax _ hup ih =>
    obtain ⟨a1, a2, a3⟩ := ih
    exact updateTable_reached a1 a2 a3 hup

/-- C18: the neighbour columns, with arithmetic taken as exact. In every state
reached from `initTable` on every node by link events between distinct declared
nodes with a positive cost or `-1`, snapshots and relaxations (the sum of line
196 exact), for every node `x` and every other declared
node `v`: when `v` is in `x.links`, the cell `x.table[v][v]` holds `x.links[v]`
and no cell of the column `v` of `x.table` holds `-1`; when `v` is not in
`x.links`, every cell of the column `v` holds `-1`. Every row of `x.table` has
a cell in the column `v`. -/
theorem neighbour_column_invariant (names : List String) (s : Nodes) (h : Reached names s)
    (x : String) (n : Node) (hx : Map.find s x = some n) (v : String)
    (hv : v ∈ names) (hvx : v ≠ x) :
    (∀ c, Map.find n.links v = some c →
      cell n.table v v = some c ∧ ∀ y e, cell n.table y v = some e → e ≠ -1) ∧
    (Map.find n.links v = none → ∀ y e, cell n.table y v = some e → e = -1) ∧
    (∀ y, y ∈ names → y ≠ x → ∃ e, cell n.table y v = some e) := by
  obtain ⟨_, htab, _⟩ := reached_inv h
  have hti := htab x n hx
  refine ⟨fun c hc => ⟨(hti.nb v c hc).1, fun y e he => ?_⟩, hti.non_nb v, fun y hy hyx => ?_⟩
  · have := (hti.nb v c hc).2 y e he
    omega
  · obtain ⟨row, hrow⟩ := (Map.hasKey_iff_find _ _).mp ((hti.rows y).mpr ⟨hy, hyx⟩)
    obtain ⟨e, he⟩ := (Map.hasKey_iff_find _ _).mp (((hti.cols y row hrow).2 v).mpr ⟨hv, hvx⟩)
    exact ⟨e, by rw [cell_of_find hrow, he]⟩

/-- An instance of `neighbour_column_invariant`: node `A` of the chain
`A - B - C` and the column `C`, after `initTable` on every node, the link event
`A C 5`, a snapshot and `updateTable(A)`. -/
theorem neighbour_column_invariant_witness :
    (∀ c, Map.find ((Map.find chain3Relaxed "A").getD (Node.new "A")).links "C" = some c →
      cell ((Map.find chain3Relaxed "A").getD (Node.new "A")).table "C" "C" = some c ∧
      ∀ y e, cell ((Map.find chain3Relaxed "A").getD (Node.new "A")).table y "C" = some e →
        e ≠ -1) ∧
    (Map.find ((Map.find chain3Relaxed "A").getD (Node.new "A")).links "C" = none →
      ∀ y e, cell ((Map.find chain3Relaxed "A").getD (Node.new "A")).table y "C" = some e →
        e = -1) ∧
    (∀ y, y ∈ ["A", "B", "C"] → y ≠ "A" →
      ∃ e, cell ((Map.find chain3Relaxed "A").getD (Node.new "A")).table y "C" = some e) := by
  have h1 : Reached ["A", "B", "C"] ((chain3.bind initTables).getD []) :=
    @Reached.init ["A", "B", "C"] [("A", "B", 1), ("B", "C", 1)] (chain3.getD []) _
      (by decide) (by decide) (by decide) (by decide)
  have h2 : Reached ["A", "B", "C"] chain3Linked :=
    Reached.event h1 (Or.inl (by decide))
      (by decide : extractLink ((chain3.bind initTables).getD []) "A" "C" 5 = some chain3Linked)
  have h3 : Reached ["A", "B", "C"] chain3Relaxed :=
    Reached.relax (Reached.snapshot h2)
      (by decide : updateTable exactAdd (snapshot chain3Linked) "A" = some chain3Relaxed)
  exact neighbour_column_invariant ["A", "B", "C"] chain3Relaxed h3 "A"
    ((Map.find chain3Relaxed "A").getD (Node.new "A")) (by decide) "C" (by decide) (by decide)


/-! ## One pass of the round loop in closed form -/

theorem round_relaxed {names : List String} {s : Nodes} (ht : Topo names s)
    (htab : TablesOK names s) (hnd : TablesNodup s) :
    ∃ s', round exactAdd s = some s' ∧ Topo names s' ∧ TablesOK names s' ∧ TablesNodup s' ∧
      SameTopo s s' ∧
      ∀ a na, Map.find s a = some na →
        ∃ na1, Map.find s' a = some na1 ∧ Relaxed exactAdd (tableRow s) (backup na) na1 := by
  obtain ⟨s', h1, h2, h3, _⟩ := round_good ht htab
  have hks : ∀ k ∈ Map.keys s, Map.hasKey (snapshot s) k = true := by
    intro k hk
    rw [(sameTopo_snapshot s).hasKey]
    exact (Map.mem_keys_iff s k).mp hk
  obtain ⟨s2, g1, _, _, _, g5⟩ := forNodes_updateTable_relaxed exactAdd (Map.keys s)
    (shaped_snapshot ht htab hnd) ht.keys_nodup hks
  have hss : s2 = s' := by
    unfold round at h1
    rw [g1] at h1
    exact Option.some.inj h1
  subst hss
  have hrel : ∀ a na, Map.find s a = some na →
      ∃ na1, Map.find s2 a = some na1 ∧ Relaxed exactAdd (tableRow s) (backup na) na1 := by
    intro a na ha
    have hmem : a ∈ Map.keys s :=
      (Map.mem_keys_iff s a).mpr ((Map.hasKey_iff_find _ _).mpr ⟨na, ha⟩)
    obtain ⟨na1, hna1, hr⟩ := g5 a hmem (backup na) (by rw [find_snapshot, ha]; rfl)
    exact ⟨na1, hna1, hr.congr_rows (fun v y => (prevRow_snapshot s v y).symm)⟩
  refine ⟨s2, h1, h2.1, h2.2.1, ?_, h3, hrel⟩
  intro a na1 ha1
  obtain ⟨na, hna, _⟩ := h3.find_rev ha1
  obtain ⟨na1', hna1', hr⟩ := hrel a na hna
  rw [ha1] at hna1'
  cases hna1'
  rw [hr.keys]
  exact hnd a na hna

theorem initValues_initTables {names : List String} {s s1 : Nodes} (ht : Topo names s)
    (h : initTables s = some s1) :
    ∀ k n, Map.find s1 k = some n → ∀ d v e, cell n.table d v = some e →
      e = -1 ∨ e = INT_MAX ∨ (d = v ∧ Map.find n.links v = some e) := by
  intro k n hk
  refine initTables_all (fun _ n => ∀ d v e, cell n.table d v = some e →
      e = -1 ∨ e = INT_MAX ∨ (d = v ∧ Map.find n.links v = some e)) ?_ ht h k n hk
  intro s' k' nd ht' hk' d v e he
  have hc : cell ((initRows s' nd).map (fun it => (it.1, initRow s' nd it.1 it.2))) d v
      = some e := he
  unfold cell at hc
  rw [find_initTable_row] at hc
  by_cases hd : d ∈ Map.keys s' ∧ d ≠ nd.name
  swap
  · rw [if_neg hd] at hc
    cases hc
  rw [if_pos hd, Option.some_bind, find_initRow s' nd d v (ht'.links_nodup _ _ hk')] at hc
  cases hl : Map.find nd.links v with
  | none =>
    rw [hl] at hc
    simp only at hc
    split_ifs at hc
    cases hc
    exact Or.inl rfl
  | some c =>
    rw [hl] at hc
    simp only [Option.some.injEq] at hc
    by_cases hdv : d = v
    · rw [if_pos hdv] at hc
      right; right
      exact ⟨hdv, by rw [← hc]⟩
    · rw [if_neg hdv] at hc
      right; left
      exact hc.symm

theorem getMin_of_all_unset_or_max {row : Row} (h : ∀ p ∈ row, p.2 = -1 ∨ p.2 = INT_MAX) :
    getMin row = ("", INT_MAX) := by
  rcases getMin_cases row with h0 | ⟨p, hp, _, hp1, hp2⟩
  · exact h0
  · rcases h p hp with h1 | h1
    · exact absurd h1 hp1
    · rw [h1] at hp2
      exact absurd hp2 (lt_irrefl _)


/-! ## A node that cannot be reached keeps the round loop running -/

theorem round_shape (plus : Int → Int → Int) {names : List String} {s : Nodes}
    (h0 : "" ∉ names) (hdecl : ∀ k, Map.hasKey s k = true ↔ k ∈ names)
    (hkeys : (Map.keys s).Nodup)
    (htab : ∀ x n, Map.find s x = some n → FullShape names x n.table) :
    ∃ s', round plus s = some s' ∧ (∀ k, Map.hasKey s' k = true ↔ k ∈ names) ∧
      (Map.keys s').Nodup ∧ (∀ x n, Map.find s' x = some n → FullShape names x n.table) ∧
      ∀ a na, Map.find s a = some na →
        ∃ na1, Map.find s' a = some na1 ∧ Relaxed plus (tableRow s) (backup na) na1 := by
  have hsnap : Shaped names (snapshot s) := by
    refine ⟨h0, ?_, ?_, ?_⟩
    · intro k
      rw [(sameTopo_snapshot s).hasKey]
      exact hdecl k
    · intro k m hk
      rw [find_snapshot] at hk
      cases hn : Map.find s k with
      | none => simp [hn] at hk
      | some n =>
        simp only [hn, Option.map_some', Option.some.injEq] at hk
        subst hk
        exact htab k n hn
    · intro k m hk
      rw [find_snapshot] at hk
      cases hn : Map.find s k with
      | none => simp [hn] at hk
      | some n =>
        simp only [hn, Option.map_some', Option.some.injEq] at hk
        subst hk
        exact htab k n hn
  have hks : ∀ k ∈ Map.keys s, Map.hasKey (snapshot s) k = true := by
    intro k hk
    rw [(sameTopo_snapshot s).hasKey]
    exact (Map.mem_keys_iff s k).mp hk
  obtain ⟨s2, g1, g2, g3, _, g5⟩ := forNodes_updateTable_relaxed plus (Map.keys s) hsnap hkeys hks
  refine ⟨s2, g1, g2.declared, by rw [g3.1, keys_snapshot]; exact hkeys, g2.table, ?_⟩
  intro a na ha
  have hmem : a ∈ Map.keys s :=
    (Map.mem_keys_iff s a).mpr ((Map.hasKey_iff_find _ _).mpr ⟨na, ha⟩)
  obtain ⟨na1, hna1, hr⟩ := g5 a hmem (backup na) (by rw [find_snapshot, ha]; rfl)
  exact ⟨na1, hna1, hr.congr_rows (fun v y => (prevRow_snapshot s v y).symm)⟩

theorem FullShape.row_declared {names : List String} {x : String} {t : Table}
    (h : FullShape names x t) {y v : String} {e : Int} (hc : cell t y v = some e) :
    y ∈ names ∧ y ≠ x := by
  apply (h.rows y).mp
  rw [Map.hasKey_iff_find]
  unfold cell at hc
  cases hr : Map.find t y with
  | none => simp [hr] at hc
  | some row => exact ⟨row, rfl⟩

theorem blocked_rounds (plus : Int → Int → Int) {names : List String} {s0 s1 : Nodes}
    (ht0 : Topo names s0) (hinit : initTables s0 = some s1) (k : Nat) :
    ∃ sk, rounds plus k s1 = some sk ∧ (∀ j, Map.hasKey sk j = true ↔ j ∈ names) ∧
      (Map.keys sk).Nodup ∧ (∀ x n, Map.find sk x = some n → FullShape names x n.table) ∧
      ∀ a na y v e, Map.find sk a = some na → cell na.table y v = some e →
        ¬ Reachable s0 a y →
        (linkCost s0 a v = none → e = -1) ∧ (∀ c, linkCost s0 a v = some c → e = INT_MAX) := by
  induction k with
  | zero =>
    obtain ⟨s1', e1, e2, e3, e4, _⟩ := initTables_good ht0
    rw [hinit] at e1
    cases e1
    refine ⟨s1, rfl, e2.declared, e2.keys_nodup,
      fun x n hx => (e3 x n hx).fullShape (tablesNodup_initTables ht0 hinit x n hx), ?_⟩
    intro a na y v e ha he hun
    have hlk : linkCost s0 a v = Map.find na.links v := by
      rw [← e4.linkCost, linkCost_eq_find ha]
    refine ⟨fun hnone => ?_, fun c hc => ?_⟩
    · rw [hlk] at hnone
      exact (e3 a na ha).non_nb v hnone y e he
    · have hpos := ((e3 a na ha).nb v c (by rw [← hlk]; exact hc)).2 y e he
      rcases initValues_initTables ht0 hinit a na ha y v e he with h | h | ⟨hyv, _⟩
      · rw [h] at hpos
        exact absurd hpos (by decide)
      · exact h
      · exfalso
        apply hun
        rw [hyv]
        exact ⟨c + 0, Walk.step hc (Walk.here v)⟩
  | succ k ih =>
    obtain ⟨sk, h1, h2, h3, h4, h6⟩ := ih
    obtain ⟨s', g1, g2, g3, g4, g6⟩ := round_shape plus ht0.no_empty h2 h3 h4
    refine ⟨s', by rw [rounds_succ, h1, Option.some_bind, g1], g2, g3, g4, ?_⟩
    intro a na1 y v e' ha1 he' hun
    obtain ⟨na, hna⟩ := (Map.hasKey_iff_find _ _).mp
      ((h2 a).mpr ((g2 a).mp ((Map.hasKey_iff_find _ _).mpr ⟨na1, ha1⟩)))
    obtain ⟨na1', hna1', hr⟩ := g6 a na hna
    rw [ha1] at hna1'
    cases hna1'
    have hcells := hr.cells y v
    rw [he'] at hcells
    have htab : (backup na).table = na.table := rfl
    rw [htab] at hcells
    cases he : cell na.table y v with
    | none => rw [he] at hcells; cases hcells
    | some e =>
      rw [he, Option.map_some', Option.some.injEq] at hcells
      have hold := h6 a na y v e hna he hun
      refine ⟨fun hnone => ?_, fun c hc => ?_⟩
      · have he1 : e = -1 := hold.1 hnone
        rw [hcells, relaxValue_skip (fun h => h.2 he1)]
        exact he1
      · have hemax : e = INT_MAX := hold.2 c hc
        obtain ⟨hvn, _, _, _⟩ := ht0.links a v c hc
        have hyv : y ≠ v := by
          intro h
          apply hun
          rw [h]
          exact ⟨c + 0, Walk.step hc (Walk.here v)⟩
        have hcons : y ≠ v ∧ e ≠ -1 := ⟨hyv, by rw [hemax]; decide⟩
        have hunv : ¬ Reachable s0 v y := by
          rintro ⟨d, hw⟩
          exact hun ⟨c + d, Walk.step hc hw⟩
        obtain ⟨nv, hnv⟩ := (Map.hasKey_iff_find _ _).mp ((h2 v).mpr hvn)
        have hyn := ((h4 a na hna).row_declared he).1
        obtain ⟨row, hrow⟩ := (Map.hasKey_iff_find _ _).mp
          (((h4 v nv hnv).rows y).mpr ⟨hyn, hyv⟩)
        have hrows : tableRow sk v y = some row := by simp [tableRow, hnv, hrow]
        have hmin : getMin row = ("", INT_MAX) := by
          apply getMin_of_all_unset_or_max
          intro p hp
          have hf : Map.find row p.1 = some p.2 :=
            Map.find_of_mem_nodup ((h4 v nv hnv).cols y row hrow).1 hp
          have hv := h6 v nv y p.1 p.2 hnv (by rw [cell_of_find hrow, hf]) hunv
          cases hl : linkCost s0 v p.1 with
          | none => exact Or.inl (hv.1 hl)
          | some c1 => exact Or.inr (hv.2 c1 hl)
        rw [hcells]
        exact relaxValue_none hcons hrows (by rw [hmin])

theorem blocked_flag (plus : Int → Int → Int) {names : List String} {s0 s1 : Nodes}
    (ht0 : Topo names s0)
    (hflags : ∀ k n, Map.find s0 k = some n → n.converged = false)
    (hinit : initTables s0 = some s1) {x v y : String} {c : Int}
    (hxv : linkCost s0 x v = some c) (hy : y ∈ names) (hyx : y ≠ x) (hyv : y ≠ v)
    (hun : ¬ Reachable s0 v y) (k : Nat) :
    ∃ sk nx, rounds plus k s1 = some sk ∧ Map.find sk x = some nx ∧ nx.converged = false := by
  obtain ⟨hvn, hvx, _, hvxl⟩ := ht0.links x v c hxv
  have hunx : ¬ Reachable s0 x y := by
    rintro ⟨d, hw⟩
    exact hun ⟨c + d, Walk.step hvxl hw⟩
  obtain ⟨n0, hn0⟩ : ∃ n0, Map.find s0 x = some n0 := by
    unfold linkCost at hxv
    cases h : Map.find s0 x with
    | none => simp [h] at hxv
    | some n0 => exact ⟨n0, rfl⟩
  have hxn : x ∈ names := (ht0.declared x).mp ((Map.hasKey_iff_find _ _).mpr ⟨n0, hn0⟩)
  cases k with
  | zero =>
    obtain ⟨s1', e1, e2, _, e4, e5⟩ := initTables_good ht0
    rw [hinit] at e1
    cases e1
    obtain ⟨n1, hn1, _⟩ := e4.find hn0
    exact ⟨s1, n1, rfl, hn1, by rw [(e5 x n0 n1 hn0 hn1).1]; exact hflags x n0 hn0⟩
  | succ k =>
    obtain ⟨sk, h1, h2, h3, h4, h6⟩ := blocked_rounds plus ht0 hinit k
    obtain ⟨s', g1, _, _, _, g6⟩ := round_shape plus ht0.no_empty h2 h3 h4
    obtain ⟨nx, hnx⟩ := (Map.hasKey_iff_find _ _).mp ((h2 x).mpr hxn)
    obtain ⟨nx1, hnx1, hr⟩ := g6 x nx hnx
    refine ⟨s', nx1, by rw [rounds_succ, h1, Option.some_bind, g1], hnx1, ?_⟩
    cases hc : nx1.converged with
    | false => rfl
    | true =>
      exfalso
      have hset := hr.flag.mp hc
      have hti := h4 x nx hnx
      obtain ⟨rowx, hrowx⟩ := (Map.hasKey_iff_find _ _).mp ((hti.rows y).mpr ⟨hy, hyx⟩)
      obtain ⟨e, he⟩ := (Map.hasKey_iff_find _ _).mp
        (((hti.cols y rowx hrowx).2 v).mpr ⟨hvn, hvx⟩)
      have hcell : cell nx.table y v = some e := by rw [cell_of_find hrowx, he]
      have hemax : e = INT_MAX := (h6 x nx y v e hnx hcell hunx).2 c hxv
      obtain ⟨row, _, hrow, hvia, _, _⟩ :=
        hset y v e hcell hyv (by rw [hemax]; decide)
      obtain ⟨nv, hnv, hrow'⟩ : ∃ nv, Map.find sk v = some nv ∧ Map.find nv.table y = some row := by
        unfold tableRow at hrow
        cases h : Map.find sk v with
        | none => simp [h] at hrow
        | some nv => exact ⟨nv, rfl, by simpa [h] using hrow⟩
      have hmin : getMin row = ("", INT_MAX) := by
        apply getMin_of_all_unset_or_max
        intro p hp
        have hf : Map.find row p.1 = some p.2 :=
          Map.find_of_mem_nodup ((h4 v nv hnv).cols y row hrow').1 hp
        have hv := h6 v nv y p.1 p.2 hnv (by rw [cell_of_find hrow', hf]) hun
        cases hl : linkCost s0 v p.1 with
        | none => exact Or.inl (hv.1 hl)
        | some c1 => exact Or.inr (hv.2 c1 hl)
      rw [hmin] at hvia
      exact hvia rfl

/-- C19: an unresolved entry blocks convergence for ever, whatever the sum of
line 196 evaluates to (`plus`: the 32-bit sum of the program, or the exact
one); no sum is ever computed in the rows of a node that cannot be reached. For
every topology of
declared nodes (none named by the empty string) whose links were applied as
events with positive costs, in which node `x` has a neighbour `v` and a third
declared node `y`, other than `x` and `v`, cannot be reached from `v`: every
pass of the round loop of the initial run returns and leaves `x.converged`
false, so `isConverged()` is false after every pass and
`distanceVector(false)` does not return, whatever number of passes it is
allowed. -/
theorem unreachable_blocks_convergence (plus : Int → Int → Int) (names : List String)
    (events : List (String × String × Int)) (s0 : Nodes)
    (h0 : "" ∉ names) (hev : ∀ e ∈ events, 0 < e.2.2)
    (hread : readLinks events (readNodes names) = some s0)
    (x v y : String) (c : Int) (hxv : linkCost s0 x v = some c)
    (hy : y ∈ names) (hyx : y ≠ x) (hyv : y ≠ v) (hun : ¬ Reachable s0 v y) :
    (∀ k, ∃ sk nx, (initTables s0).bind (rounds plus k) = some sk ∧
      Map.find sk x = some nx ∧ nx.converged = false ∧ isConverged sk = false) ∧
    ∀ fuel, distanceVector plus fuel false s0 = none := by
  have ht0 : Topo names s0 :=
    topo_readLinks events (topo_readNodes names h0) (fun e he => Or.inr (hev e he)) hread
  have hflags := flags_readLinks events (flags_readNodes names) hread
  obtain ⟨s1, hinit, _⟩ := initTables_good ht0
  have hall : ∀ k, ∃ sk nx, rounds plus k s1 = some sk ∧
      Map.find sk x = some nx ∧ nx.converged = false ∧ isConverged sk = false := by
    intro k
    obtain ⟨sk, nx, h1, h2, h3⟩ := blocked_flag plus ht0 hflags hinit hxv hy hyx hyv hun k
    refine ⟨sk, nx, h1, h2, h3, ?_⟩
    cases hc : isConverged sk with
    | false => rfl
    | true =>
      have := isConverged_find hc h2
      rw [h3] at this
      cases this
  refine ⟨fun k => ?_, fun fuel => ?_⟩
  · rw [hinit, Option.some_bind]
    exact hall k
  · simp only [distanceVector, Bool.not_false, if_true, hinit, Option.some_bind]
    apply roundLoop_none_of_never_converged
    intro k
    obtain ⟨sk, _, h1, _, _, h4⟩ := hall k
    rw [h1, Option.map_some', h4]

/-- An instance of `unreachable_blocks_convergence`: with nodes `A`, `B`, `C`, `D`
and the links `A B 1`, `B C 1`, node `A` has the neighbour `B`, which cannot
reach `D`; the sum is the 32-bit sum of the program. -/
theorem unreachable_blocks_convergence_witness :
    (∀ k, ∃ sk nx, (initTables (isolated4.getD [])).bind (rounds int32Add k) = some sk ∧
      Map.find sk "A" = some nx ∧ nx.converged = false ∧ isConverged sk = false) ∧
    ∀ fuel, distanceVector int32Add fuel false (isolated4.getD []) = none := by
  have hA : (Map.find (isolated4.getD []) "A").map (fun n => n.links) = some [("B", 1)] := by
    decide
  have hB : (Map.find (isolated4.getD []) "B").map (fun n => n.links)
      = some [("A", 1), ("C", 1)] := by
    decide
  have hC : (Map.find (isolated4.getD []) "C").map (fun n => n.links) = some [("B", 1)] := by
    decide
  have hclosed : ¬ Reachable (isolated4.getD []) "B" "D" := by
    rintro ⟨d, hw⟩
    have := hw.closed (fun z => z = "A" ∨ z = "B" ∨ z = "C") (by
      intro a b c ha hl
      rcases ha with rfl | rfl | rfl
      · rw [linkCost_eq_links hA] at hl
        simp only [Map.find] at hl
        split_ifs at hl with h
        exact Or.inr (Or.inl h.symm)
      · rw [linkCost_eq_links hB] at hl
        simp only [Map.find] at hl
        split_ifs at hl with h1 h2
        · exact Or.inl h1.symm
        · exact Or.inr (Or.inr h2.symm)
      · rw [linkCost_eq_links hC] at hl
        simp only [Map.find] at hl
        split_ifs at hl with h
        exact Or.inr (Or.inl h.symm)) (Or.inr (Or.inl rfl))
    revert this
    decide
  exact unreachable_blocks_convergence int32Add ["A", "B", "C", "D"] [("A", "B", 1), ("B", "C", 1)]
    (isolated4.getD []) (by decide) (by decide) (by decide) "A" "B" "D" 1
    (by decide) (by decide) (by decide) (by decide) hclosed


/-! ## The states of the initial run -/

theorem run_pred {s1 s' : Nodes} {k : Nat} (h : rounds exactAdd (k + 1) s1 = some s') :
    ∃ sk, rounds exactAdd k s1 = some sk ∧ round exactAdd sk = some s' := by
  rw [rounds_succ] at h
  cases hk : rounds exactAdd k s1 with
  | none => simp [hk] at h
  | some sk => exact ⟨sk, rfl, by simpa [hk] using h⟩

theorem run_inv {names : List String} {s0 s1 : Nodes} (ht0 : Topo names s0)
    (hinit : initTables s0 = some s1) (k : Nat) {sk : Nodes} (hk : rounds exactAdd k s1 = some sk) :
    Topo names sk ∧ TablesOK names sk ∧ TablesNodup sk ∧ SameTopo s0 sk ∧
      ∀ x nx y v e, Map.find sk x = some nx → cell nx.table y v = some e →
        e = -1 ∨ e = INT_MAX ∨ Walk s0 x y e := by
  induction k generalizing sk with
  | zero =>
    simp only [rounds, Option.some.injEq] at hk
    subst hk
    obtain ⟨s1', e1, e2, e3, e4, _⟩ := initTables_good ht0
    rw [hinit] at e1
    cases e1
    refine ⟨e2, e3, tablesNodup_initTables ht0 hinit, e4, ?_⟩
    intro x nx y v e hx he
    rcases initValues_initTables ht0 hinit x nx hx y v e he with h | h | ⟨hyv, hl⟩
    · exact Or.inl h
    · exact Or.inr (Or.inl h)
    · right; right
      have hlc : linkCost s1 x y = some e := by
        rw [hyv]
        simp [linkCost, hx, hl]
      rw [e4.linkCost] at hlc
      have := Walk.step hlc (Walk.here y)
      rwa [add_zero] at this
  | succ k ih =>
    obtain ⟨sj, hj, hr⟩ := run_pred hk
    obtain ⟨h2, h3, h4, h5, h6⟩ := ih hj
    obtain ⟨s', g1, g2, g3, g4, g5, g6⟩ := round_relaxed h2 h3 h4
    rw [hr] at g1
    cases g1
    refine ⟨g2, g3, g4, h5.trans g5, ?_⟩
    intro x nx1 y v e' hx1 he'
    obtain ⟨nx, hnx, _⟩ := g5.find_rev hx1
    obtain ⟨nx1', hnx1', hrel⟩ := g6 x nx hnx
    rw [hx1] at hnx1'
    cases hnx1'
    have hcells := hrel.cells y v
    rw [he'] at hcells
    have htab : (backup nx).table = nx.table := rfl
    rw [htab] at hcells
    cases he : cell nx.table y v with
    | none => rw [he] at hcells; cases hcells
    | some e =>
      rw [he, Option.map_some', Option.some.injEq] at hcells
      by_cases hcons : y ≠ v ∧ e ≠ -1
      swap
      · rw [relaxValue_skip hcons] at hcells
        rw [hcells]
        exact h6 x nx y v e hnx he
      have hti := h3 x nx hnx
      obtain ⟨c, hl, hdiag⟩ := hti.neighbour he hcons.2
      have hlc : linkCost sj x v = some c := by simp [linkCost, hnx, hl]
      obtain ⟨hvn, _, _, _⟩ := h2.links x v c hlc
      have hlc0 : linkCost s0 x v = some c := by rw [← h5.linkCost]; exact hlc
      obtain ⟨nv, hnv⟩ := (Map.hasKey_iff_find _ _).mp ((h2.declared v).mpr hvn)
      have hyn := (hti.row_of_cell he).1
      obtain ⟨row, hrow⟩ := (Map.hasKey_iff_find _ _).mp
        (((h3 v nv hnv).rows y).mpr ⟨hyn, hcons.1⟩)
      have hrows : tableRow sj v y = some row := by simp [tableRow, hnv, hrow]
      by_cases hvia : (getMin row).1 = ""
      · rw [relaxValue_none hcons hrows hvia] at hcells
        exact Or.inr (Or.inl hcells)
      · rw [relaxValue_some hcons hrows hvia hdiag] at hcells
        obtain ⟨p, hp, hpe, hp1, hp2⟩ := getMin_of_viable hvia
        have hcellv := cell_of_mem (h3 v nv hnv) hrow hp
        right; right
        rcases h6 v nv y p.1 p.2 hnv hcellv with h | h | h
        · exact absurd h hp1
        · rw [h] at hp2
          exact absurd hp2 (lt_irrefl _)
        · rw [hcells, hpe]
          exact Walk.step hlc0 h

theorem run_exists {names : List String} {s0 s1 : Nodes} (ht0 : Topo names s0)
    (hinit : initTables s0 = some s1) (k : Nat) : ∃ sk, rounds exactAdd k s1 = some sk := by
  induction k with
  | zero => exact ⟨s1, rfl⟩
  | succ k ih =>
    obtain ⟨sk, hk⟩ := ih
    obtain ⟨h2, h3, h4, _, _⟩ := run_inv ht0 hinit k hk
    obtain ⟨s', g1, _⟩ := round_relaxed h2 h3 h4
    exact ⟨s', by rw [rounds_succ, hk, Option.some_bind, g1]⟩

theorem exists_shortest {names : List String} {s : Nodes} (ht : Topo names s)
    {x y : String} {d : Int} (hw : Walk s x y d) : ∃ m, IsShortest s x y m ∧ m ≤ d := by
  classical
  have hex : ∃ n : Nat, ∃ d', Walk s x y d' ∧ d'.toNat = n := ⟨d.toNat, d, hw, rfl⟩
  obtain ⟨d0, hw0, hd0⟩ := Nat.find_spec hex
  have hmin : ∀ d', Walk s x y d' → d0 ≤ d' := by
    intro d' hw'
    have h1 : Nat.find hex ≤ d'.toNat := Nat.find_min' hex ⟨d', hw', rfl⟩
    have h2 := Walk.nonneg ht hw0
    have h3 := Walk.nonneg ht hw'
    omega
  exact ⟨d0, ⟨hw0, hmin⟩, hmin d hw⟩

theorem exists_bound {α : Type} (l : List α) (P : α → Nat → Prop)
    (h : ∀ a ∈ l, ∃ K, ∀ k, K ≤ k → P a k) : ∃ K, ∀ a ∈ l, ∀ k, K ≤ k → P a k := by
  induction l with
  | nil => exact ⟨0, fun a ha => absurd ha (List.not_mem_nil a)⟩
  | cons b rest ih =>
    obtain ⟨K1, h1⟩ := h b (List.mem_cons_self _ _)
    obtain ⟨K2, h2⟩ := ih (fun a ha => h a (List.mem_cons_of_mem _ ha))
    refine ⟨max K1 K2, fun a ha k hk => ?_⟩
    rcases List.mem_cons.mp ha with rfl | ha
    · exact h1 k (le_trans (le_max_left _ _) hk)
    · exact h2 a ha k (le_trans (le_max_right _ _) hk)

theorem roundLoop_of_rounds {k : Nat} {s sk : Nodes} (hk : rounds exactAdd k s = some sk)
    (hc : isConverged sk = true) (fuel : Nat) (hf : k ≤ fuel) :
    ∃ final, roundLoop exactAdd fuel s = some final := by
  induction k generalizing s fuel with
  | zero =>
    simp only [rounds, Option.some.injEq] at hk
    subst hk
    exact ⟨s, roundLoop_of_converged hc fuel⟩
  | succ k ih =>
    by_cases hs : isConverged s = true
    · exact ⟨s, roundLoop_of_converged hs fuel⟩
    · obtain ⟨f, rfl⟩ : ∃ f, fuel = f + 1 := ⟨fuel - 1, by omega⟩
      simp only [rounds] at hk
      cases hr : round exactAdd s with
      | none => simp [hr] at hk
      | some s2 =>
        simp only [hr, Option.some_bind] at hk
        obtain ⟨final, hfin⟩ := ih hk f (by omega)
        refine ⟨final, ?_⟩
        simp only [roundLoop, hs, if_false, hr, Option.some_bind]
        exact hfin


/-! ## The best costs of the initial run reach the shortest-path costs -/

theorem best_le_walk {names : List String} {s0 s1 : Nodes} (ht0 : Topo names s0)
    (hinit : initTables s0 = some s1) {x y : String} {d : Int} (hw : Walk s0 x y d)
    (hxy : x ≠ y) (hd : d < INT_MAX) :
    ∃ K, ∀ k, K ≤ k → ∀ sk nx row, rounds exactAdd k s1 = some sk → Map.find sk x = some nx →
      Map.find nx.table y = some row → (getMin row).2 ≤ d := by
  induction hw with
  | here x => exact absurd rfl hxy
  | @step x v y c d' hl hw' ih =>
    obtain ⟨hvn, hvx, hcpos, _⟩ := ht0.links x v c hl
    have hd'0 := Walk.nonneg ht0 hw'
    by_cases hvy : v = y
    · subst hvy
      refine ⟨0, fun k _ sk nx row hk hx hrow => ?_⟩
      obtain ⟨_, h3, _, h5, _⟩ := run_inv ht0 hinit k hk
      have hl' : Map.find nx.links v = some c := by
        rw [← linkCost_eq_find hx, h5.linkCost]
        exact hl
      have hdiag := ((h3 x nx hx).nb v c hl').1
      rw [cell_of_find hrow] at hdiag
      have := getMin_le (Map.find_mem hdiag) (by show c ≠ -1; omega)
      simp only at this
      omega
    · obtain ⟨K', hK'⟩ := ih hvy (by omega)
      refine ⟨K' + 1, fun k hk' sk nx row hk hx hrow => ?_⟩
      obtain ⟨j, rfl⟩ : ∃ j, k = j + 1 := ⟨k - 1, by omega⟩
      obtain ⟨sj, hj, hr⟩ := run_pred hk
      obtain ⟨h2, h3, h4, h5, _⟩ := run_inv ht0 hinit j hj
      obtain ⟨_, g3, _, g5, _⟩ := run_inv ht0 hinit (j + 1) hk
      obtain ⟨s', r1, _, _, _, r5, r6⟩ := round_relaxed h2 h3 h4
      rw [hr] at r1
      cases r1
      obtain ⟨nxj, hnxj, _⟩ := r5.find_rev hx
      obtain ⟨nx', hnx', hrel⟩ := r6 x nxj hnxj
      rw [hx] at hnx'
      cases hnx'
      have hyn := ((g3 x nx hx).rows y).mp ((Map.hasKey_iff_find _ _).mpr ⟨row, hrow⟩)
      have htij := h3 x nxj hnxj
      have hlj : Map.find nxj.links v = some c := by
        rw [← linkCost_eq_find hnxj, h5.linkCost]
        exact hl
      obtain ⟨rowj, hrowj⟩ := (Map.hasKey_iff_find _ _).mp ((htij.rows y).mpr hyn)
      obtain ⟨e, he⟩ := (Map.hasKey_iff_find _ _).mp
        (((htij.cols y rowj hrowj).2 v).mpr ⟨hvn, hvx⟩)
      have hcellj : cell nxj.table y v = some e := by rw [cell_of_find hrowj, he]
      have hepos := (htij.nb v c hlj).2 y e hcellj
      obtain ⟨nv, hnv⟩ := (Map.hasKey_iff_find _ _).mp ((h2.declared v).mpr hvn)
      obtain ⟨rowv, hrowv⟩ := (Map.hasKey_iff_find _ _).mp
        (((h3 v nv hnv).rows y).mpr ⟨hyn.1, fun h => hvy h.symm⟩)
      have hbest := hK' j (by omega) sj nv rowv hj hnv hrowv
      have hvia : (getMin rowv).1 ≠ "" :=
        getMin_viable_of_lt ((h3 v nv hnv).no_empty_key h2.no_empty hrowv) (by omega)
      have hrows : tableRow sj v y = some rowv := by simp [tableRow, hnv, hrowv]
      have hcell : cell nx.table y v = some (c + (getMin rowv).2) := by
        rw [hrel.cells]
        have htab : (backup nxj).table = nxj.table := rfl
        rw [htab, hcellj, Option.map_some',
          relaxValue_some ⟨fun h => hvy h.symm, by omega⟩ hrows hvia (htij.nb v c hlj).1]
        rfl
      have hl' : Map.find nx.links v = some c := by
        rw [← linkCost_eq_find hx, g5.linkCost]
        exact hl
      have hpos := ((g3 x nx hx).nb v c hl').2 y _ hcell
      rw [cell_of_find hrow] at hcell
      have := getMin_le (Map.find_mem hcell) (by
        show c + (getMin rowv).2 ≠ -1
        omega)
      simp only at this
      omega

theorem IsShortest.cost_eq {s : Nodes} {x y : String} {a b : Int}
    (ha : IsShortest s x y a) (hb : IsShortest s x y b) : a = b :=
  le_antisymm (ha.2 b hb.1) (hb.2 a ha.1)

theorem best_is_shortest {names : List String} {s0 s1 : Nodes} (ht0 : Topo names s0)
    (hinit : initTables s0 = some s1) {x y : String} {d : Int} (hw : Walk s0 x y d)
    (hxy : x ≠ y) (hd : d < INT_MAX) :
    ∃ K, ∀ k, K ≤ k → ∀ sk nx row, rounds exactAdd k s1 = some sk → Map.find sk x = some nx →
      Map.find nx.table y = some row →
      IsShortest s0 x y (getMin row).2 ∧ (getMin row).2 < INT_MAX := by
  obtain ⟨m, hm, hmd⟩ := exists_shortest ht0 hw
  obtain ⟨K, hK⟩ := best_le_walk ht0 hinit hm.1 hxy (lt_of_le_of_lt hmd hd)
  refine ⟨K, fun k hk sk nx row hsk hx hrow => ?_⟩
  have hle := hK k hk sk nx row hsk hx hrow
  have hlt : (getMin row).2 < INT_MAX := lt_of_le_of_lt hle (lt_of_le_of_lt hmd hd)
  obtain ⟨_, h3, _, _, h6⟩ := run_inv ht0 hinit k hsk
  obtain ⟨p, hp, hpe, hp1, hp2⟩ := getMin_of_lt hlt
  have hcell := cell_of_mem (h3 x nx hx) hrow hp
  have hwalk : Walk s0 x y p.2 := by
    rcases h6 x nx y p.1 p.2 hx hcell with h | h | h
    · exact absurd h hp1
    · rw [h] at hp2
      exact absurd hp2 (lt_irrefl _)
    · exact h
  have heq : (getMin row).2 = m := by
    rw [hpe] at hle ⊢
    exact le_antisymm hle (hm.2 p.2 hwalk)
  rw [heq]
  exact ⟨hm, lt_of_le_of_lt hmd hd⟩

theorem best_all_shortest {names : List String} {s0 s1 : Nodes} (ht0 : Topo names s0)
    (hinit : initTables s0 = some s1)
    (hconn : ∀ x y, x ∈ names → y ∈ names → x ≠ y → ∃ d, Walk s0 x y d ∧ d < INT_MAX) :
    ∃ K, ∀ x ∈ names, ∀ k, K ≤ k → ∀ y ∈ names, x ≠ y →
      ∀ sk nx row, rounds exactAdd k s1 = some sk → Map.find sk x = some nx →
        Map.find nx.table y = some row →
        IsShortest s0 x y (getMin row).2 ∧ (getMin row).2 < INT_MAX := by
  apply exists_bound names (fun x k => ∀ y ∈ names, x ≠ y →
      ∀ sk nx row, rounds exactAdd k s1 = some sk → Map.find sk x = some nx →
        Map.find nx.table y = some row →
        IsShortest s0 x y (getMin row).2 ∧ (getMin row).2 < INT_MAX)
  intro x hx
  have := exists_bound names (fun y k => x ≠ y →
      ∀ sk nx row, rounds exactAdd k s1 = some sk → Map.find sk x = some nx →
        Map.find nx.table y = some row →
        IsShortest s0 x y (getMin row).2 ∧ (getMin row).2 < INT_MAX) (by
    intro y hy
    by_cases hxy : x = y
    · exact ⟨0, fun k _ h => absurd hxy h⟩
    · obtain ⟨d, hw, hd⟩ := hconn x y hx hy hxy
      obtain ⟨K, hK⟩ := best_is_shortest ht0 hinit hw hxy hd
      exact ⟨K, fun k hk _ => hK k hk⟩)
  obtain ⟨K, hK⟩ := this
  exact ⟨K, fun k hk y hy => hK y hy k hk⟩


/-! ## The initial run returns on a connected topology -/

theorem run_settles {names : List String} {s0 s1 : Nodes} (ht0 : Topo names s0)
    (hinit : initTables s0 = some s1)
    (hconn : ∀ x y, x ∈ names → y ∈ names → x ≠ y → ∃ d, Walk s0 x y d ∧ d < INT_MAX) :
    ∃ k sk, rounds exactAdd k s1 = some sk ∧ ∀ x n, Map.find sk x = some n → n.converged = true := by
  obtain ⟨K, hK⟩ := best_all_shortest ht0 hinit hconn
  obtain ⟨sB, hB⟩ := run_exists ht0 hinit (K + 1 + 1)
  obtain ⟨sA, hA, hrB⟩ := run_pred hB
  obtain ⟨sj, hj, hrA⟩ := run_pred hA
  obtain ⟨j2, j3, j4, j5, _⟩ := run_inv ht0 hinit K hj
  obtain ⟨a2, a3, a4, a5, _⟩ := run_inv ht0 hinit (K + 1) hA
  obtain ⟨t1, r1, _, _, _, r5, r6⟩ := round_relaxed j2 j3 j4
  rw [hrA] at r1
  cases r1
  obtain ⟨t2, q1, _, _, _, q5, q6⟩ := round_relaxed a2 a3 a4
  rw [hrB] at q1
  cases q1
  refine ⟨K + 1 + 1, sB, hB, fun x nB hxB => ?_⟩
  obtain ⟨nA, hxA, _⟩ := q5.find_rev hxB
  obtain ⟨nB', hxB', hrelB⟩ := q6 x nA hxA
  rw [hxB] at hxB'
  cases hxB'
  obtain ⟨nj, hxj, _, hlinks⟩ := r5.find_rev hxA
  obtain ⟨nA', hxA', hrelA⟩ := r6 x nj hxj
  rw [hxA] at hxA'
  cases hxA'
  apply hrelB.flag.mpr
  intro y v e he hyv he1
  have htabA : (backup nA).table = nA.table := rfl
  have htabj : (backup nj).table = nj.table := rfl
  rw [htabA] at he ⊢
  have htiA := a3 x nA hxA
  have htij := j3 x nj hxj
  obtain ⟨c, hl, hdiag⟩ := htiA.neighbour he he1
  have hlc : linkCost sA x v = some c := by rw [linkCost_eq_find hxA]; exact hl
  obtain ⟨hvn, hvx, _, _⟩ := a2.links x v c hlc
  have hyn := (htiA.row_of_cell he).1
  have hvy : v ≠ y := fun h => hyv h.symm
  -- the row of `v` for `y` after this pass and before it
  obtain ⟨nvA, hnvA⟩ := (Map.hasKey_iff_find _ _).mp ((a2.declared v).mpr hvn)
  obtain ⟨rowA, hrowA⟩ := (Map.hasKey_iff_find _ _).mp
    (((a3 v nvA hnvA).rows y).mpr ⟨hyn, hyv⟩)
  obtain ⟨nvj, hnvj⟩ := (Map.hasKey_iff_find _ _).mp ((j2.declared v).mpr hvn)
  obtain ⟨rowj, hrowj⟩ := (Map.hasKey_iff_find _ _).mp
    (((j3 v nvj hnvj).rows y).mpr ⟨hyn, hyv⟩)
  obtain ⟨hsA, hltA⟩ := hK v hvn (K + 1) (by omega) y hyn hvy sA nvA rowA hA hnvA hrowA
  obtain ⟨hsj, hltj⟩ := hK v hvn K (le_refl K) y hyn hvy sj nvj rowj hj hnvj hrowj
  have hsame : (getMin rowj).2 = (getMin rowA).2 := hsj.cost_eq hsA
  have hviaA : (getMin rowA).1 ≠ "" :=
    getMin_viable_of_lt ((a3 v nvA hnvA).no_empty_key a2.no_empty hrowA) hltA
  have hviaj : (getMin rowj).1 ≠ "" :=
    getMin_viable_of_lt ((j3 v nvj hnvj).no_empty_key j2.no_empty hrowj) hltj
  refine ⟨rowA, c, by simp [tableRow, hnvA, hrowA], hviaA, hdiag, ?_⟩
  -- the value of the cell comes from the pass before
  have hcells := hrelA.cells y v
  rw [he, htabj] at hcells
  cases hej : cell nj.table y v with
  | none => rw [hej] at hcells; cases hcells
  | some e0 =>
    rw [hej, Option.map_some', Option.some.injEq] at hcells
    have he0 : e0 ≠ -1 := by
      intro h0
      rw [relaxValue_skip (fun hh => hh.2 h0)] at hcells
      exact he1 (hcells.trans h0)
    have hlj : Map.find nj.links v = some c := by rw [← hlinks]; exact hl
    rw [relaxValue_some ⟨hyv, he0⟩ (by simp [tableRow, hnvj, hrowj]) hviaj
      (htij.nb v c hlj).1] at hcells
    rw [hcells, hsame]

/-- C20, as amended: the initial run returns on a connected topology whose
distances stay below `INT_MAX`. For every topology of declared nodes (none named
by the empty string) whose links were applied as events with positive costs, in
exact arithmetic, in which every two distinct declared nodes are joined by a
walk of cost below `INT_MAX`: after some number `k` of passes of the round loop
every node is flagged converged, and `distanceVector(false)` returns when it is
allowed at least `k` passes. -/
theorem initial_run_terminates (names : List String)
    (events : List (String × String × Int)) (s0 : Nodes)
    (h0 : "" ∉ names) (hev : ∀ e ∈ events, 0 < e.2.2)
    (hread : readLinks events (readNodes names) = some s0)
    (hconn : ∀ x y, x ∈ names → y ∈ names → x ≠ y → ∃ d, Walk s0 x y d ∧ d < INT_MAX) :
    ∃ k sk, (initTables s0).bind (rounds exactAdd k) = some sk ∧
      (∀ x n, Map.find sk x = some n → n.converged = true) ∧ isConverged sk = true ∧
      ∀ fuel, k ≤ fuel → ∃ final, distanceVector exactAdd fuel false s0 = some final := by
  have ht0 : Topo names s0 :=
    topo_readLinks events (topo_readNodes names h0) (fun e he => Or.inr (hev e he)) hread
  obtain ⟨s1, hinit, _⟩ := initTables_good ht0
  obtain ⟨k, sk, hk, hflags⟩ := run_settles ht0 hinit hconn
  obtain ⟨h2, _⟩ := run_inv ht0 hinit k hk
  have hc : isConverged sk = true := isConverged_of_flags h2.keys_nodup hflags
  refine ⟨k, sk, by rw [hinit, Option.some_bind]; exact hk, hflags, hc, fun fuel hf => ?_⟩
  obtain ⟨final, hfin⟩ := roundLoop_of_rounds hk hc fuel hf
  exact ⟨final, by
    simp only [distanceVector, Bool.not_false, if_true, hinit, Option.some_bind]
    exact hfin⟩

/-- An instance of `initial_run_terminates`: the chain `A - B - C` with both
links of cost 1. -/
theorem initial_run_terminates_witness :
    ∃ k sk, (initTables (chain3.getD [])).bind (rounds exactAdd k) = some sk ∧
      (∀ x n, Map.find sk x = some n → n.converged = true) ∧ isConverged sk = true ∧
      ∀ fuel, k ≤ fuel → ∃ final, distanceVector exactAdd fuel false (chain3.getD []) = some final := by
  have hAB : linkCost (chain3.getD []) "A" "B" = some 1 := by decide
  have hBA : linkCost (chain3.getD []) "B" "A" = some 1 := by decide
  have hBC : linkCost (chain3.getD []) "B" "C" = some 1 := by decide
  have hCB : linkCost (chain3.getD []) "C" "B" = some 1 := by decide
  have one : ∀ {a b : String}, linkCost (chain3.getD []) a b = some 1 →
      ∃ d, Walk (chain3.getD []) a b d ∧ d < INT_MAX :=
    fun h => ⟨1 + 0, Walk.step h (Walk.here _), by decide⟩
  have two : ∀ {a b c : String}, linkCost (chain3.getD []) a b = some 1 →
      linkCost (chain3.getD []) b c = some 1 →
      ∃ d, Walk (chain3.getD []) a c d ∧ d < INT_MAX :=
    fun h1 h2 => ⟨1 + (1 + 0), Walk.step h1 (Walk.step h2 (Walk.here _)), by decide⟩
  refine initial_run_terminates ["A", "B", "C"] [("A", "B", 1), ("B", "C", 1)]
    (chain3.getD []) (by decide) (by decide) (by decide) ?_
  intro x y hx hy hxy
  simp only [List.mem_cons, List.mem_singleton, List.not_mem_nil, or_false] at hx hy
  rcases hx with rfl | rfl | rfl <;> rcases hy with rfl | rfl | rfl
  · exact absurd rfl hxy
  · exact one hAB
  · exact two hAB hBC
  · exact one hBA
  · exact absurd rfl hxy
  · exact one hBC
  · exact two hCB hBA
  · exact one hCB
  · exact absurd rfl hxy

theorem heavy3_stuck_eq : (heavy3.bind initTables).bind (rounds exactAdd 1) = some heavy3Stuck := by
  decide

theorem heavy3_stuck_fixed : round exactAdd heavy3Stuck = some heavy3Stuck := by
  decide

/-- C20, the claim as stated fails: with the nodes `A`, `B`, `C` and the link
lines `A B 2147483647`, `B C 2147483647` the link graph is connected and the
links are symmetric with a positive `int` cost, yet after every pass of the
round loop some node is flagged not converged, and `distanceVector(false)` does
not return, whatever number of passes it is allowed. No sum is computed on this
input: every relaxed cell takes the branch that finds no via. -/
theorem max_cost_chain_never_converges :
    (∀ x y, x ∈ ["A", "B", "C"] → y ∈ ["A", "B", "C"] → Reachable (heavy3.getD []) x y) ∧
    (∀ x y c, linkCost (heavy3.getD []) x y = some c →
      0 < c ∧ linkCost (heavy3.getD []) y x = some c) ∧
    (∀ k, ((heavy3.bind initTables).bind (rounds exactAdd k)).map isConverged = some false) ∧
    (∀ fuel, heavy3.bind (distanceVector exactAdd fuel false) = none) := by
  have hAB : linkCost (heavy3.getD []) "A" "B" = some INT_MAX := by decide
  have hBA : linkCost (heavy3.getD []) "B" "A" = some INT_MAX := by decide
  have hBC : linkCost (heavy3.getD []) "B" "C" = some INT_MAX := by decide
  have hCB : linkCost (heavy3.getD []) "C" "B" = some INT_MAX := by decide
  have ht : Topo ["A", "B", "C"] (heavy3.getD []) :=
    topo_readLinks [("A", "B", INT_MAX), ("B", "C", INT_MAX)]
      (topo_readNodes ["A", "B", "C"] (by decide)) (by decide) (by decide)
  obtain ⟨s0, hs0⟩ : ∃ s0, heavy3.bind initTables = some s0 := by
    cases h : heavy3.bind initTables with
    | none =>
      have := heavy3_stuck_eq
      rw [h] at this
      simp at this
    | some s0 => exact ⟨s0, rfl⟩
  have h1 : rounds exactAdd 1 s0 = some heavy3Stuck := by
    have := heavy3_stuck_eq
    rwa [hs0] at this
  have hall : ∀ k, (rounds exactAdd k s0).map isConverged = some false := by
    intro k
    cases k with
    | zero =>
      have h00 : ((heavy3.bind initTables).bind (rounds exactAdd 0)).map isConverged = some false := by
        decide
      rwa [hs0] at h00
    | succ j =>
      rw [Nat.add_comm, rounds_add, h1]
      simp only [Option.some_bind]
      rw [rounds_of_fixed heavy3_stuck_fixed]
      decide
  refine ⟨?_, ?_, ?_, ?_⟩
  · intro x y hx hy
    simp only [List.mem_cons, List.mem_singleton, List.not_mem_nil, or_false] at hx hy
    rcases hx with rfl | rfl | rfl <;> rcases hy with rfl | rfl | rfl
    · exact ⟨_, Walk.here _⟩
    · exact ⟨_, Walk.step hAB (Walk.here _)⟩
    · exact ⟨_, Walk.step hAB (Walk.step hBC (Walk.here _))⟩
    · exact ⟨_, Walk.step hBA (Walk.here _)⟩
    · exact ⟨_, Walk.here _⟩
    · exact ⟨_, Walk.step hBC (Walk.here _)⟩
    · exact ⟨_, Walk.step hCB (Walk.step hBA (Walk.here _))⟩
    · exact ⟨_, Walk.step hCB (Walk.here _)⟩
    · exact ⟨_, Walk.here _⟩
  · intro x y c h
    exact ⟨(ht.links x y c h).2.2.1, (ht.links x y c h).2.2.2⟩
  · intro k
    rw [hs0]
    exact hall k
  · intro fuel
    have hd : heavy3.bind (distanceVector exactAdd fuel false)
        = (heavy3.bind initTables).bind (roundLoop exactAdd fuel) := by
      cases heavy3 <;> simp [distanceVector]
    rw [hd, hs0]
    exact roundLoop_none_of_never_converged fuel s0 hall

end DistanceVector
